import Mathlib

/-!
# ELF reader: extraction of header, program headers, sections and symbols

A shallow embedding of `getELFData` (answer/answer.c) and proofs about it.

Conventions of the embedding.

* The target is x86-64 Linux: records are decoded little-endian with the
  field offsets of the `Elf64_*` structures of `<elf.h>`.
* A file is its length `st_size` and its bytes.  `mmap` maps whole pages: the
  mapping is readable up to the next page boundary and the bytes after the end
  of the file read as zero.
* A read that leaves the mapping, an index outside an allocated array, a null
  pointer handed to a string function and a division by zero are fatal or
  undefined in C; the embedding returns `none` for them, so that `some r`
  always is a result that the function returns.
* `malloc` and `strdup` may return the null pointer.  Which calls obtain
  memory is an input of the embedding (`Heap`); a request above `PTRDIFF_MAX`
  is always refused.  The code tests none of the pointers: a null name of a
  symbol is returned as it is, a write through a null array pointer and a null
  section name handed to `strcmp` stop the process.
-/

namespace ElfReader

/-! ## Records of `<elf.h>` and of the result -/

/-- ELF file header of `<elf.h>` (64 bytes). -/
structure Elf64_Ehdr where
  e_ident : List Nat
  e_type : Nat
  e_machine : Nat
  e_version : Nat
  e_entry : Nat
  e_phoff : Nat
  e_shoff : Nat
  e_flags : Nat
  e_ehsize : Nat
  e_phentsize : Nat
  e_phnum : Nat
  e_shentsize : Nat
  e_shnum : Nat
  e_shstrndx : Nat
  deriving DecidableEq, Repr

/-- Program header table entry (56 bytes). -/
structure Elf64_Phdr where
  p_type : Nat
  p_flags : Nat
  p_offset : Nat
  p_vaddr : Nat
  p_paddr : Nat
  p_filesz : Nat
  p_memsz : Nat
  p_align : Nat
  deriving DecidableEq, Repr

/-- Section header table entry (64 bytes). -/
structure Elf64_Shdr where
  sh_name : Nat
  sh_type : Nat
  sh_flags : Nat
  sh_addr : Nat
  sh_offset : Nat
  sh_size : Nat
  sh_link : Nat
  sh_info : Nat
  sh_addralign : Nat
  sh_entsize : Nat
  deriving DecidableEq, Repr

/-- Symbol table entry (24 bytes). -/
structure Elf64_Sym where
  st_name : Nat
  st_info : Nat
  st_other : Nat
  st_shndx : Nat
  st_value : Nat
  st_size : Nat
  deriving DecidableEq, Repr

/-- Modelled from the spec: the declaration of `ElfSection` is in answer.h,
which is not among the sources; the fields are the ones the code uses, a raw
header plus a resolved name string (`none` is the null pointer). -/
structure ElfSection where
  sectionHeader : Elf64_Shdr
  sectionName : Option (List Nat)
  deriving DecidableEq, Repr

/-- Modelled from the spec: the declaration of `ElfSymbol` is in answer.h,
which is not among the sources; the fields are the ones the code uses, a raw
record plus a resolved name string (`none` is the null pointer). -/
structure ElfSymbol where
  symbol : Elf64_Sym
  name : Option (List Nat)
  deriving DecidableEq, Repr

/-- Modelled from the spec: the declaration of `ElfSymbolList` is in
answer.h, which is not among the sources; an ordered sequence of symbol
entries (`none` is the null pointer) plus its count, which receives the value
of an `int` local. -/
structure ElfSymbolList where
  size : Int
  list : Option (List ElfSymbol)
  deriving DecidableEq, Repr

/-- Modelled from the spec: the declaration of `ElfData` is in answer.h,
which is not among the sources; the value returned by `getELFData`, with the
fields the code assigns: file header, optional program header collection,
optional section collection, dynamic and static symbol tables. -/
structure ElfData where
  elfHeader : Elf64_Ehdr
  programHeader : Option (List Elf64_Phdr)
  sections : Option (List ElfSection)
  dynSymbols : ElfSymbolList
  otherSymbols : ElfSymbolList
  deriving DecidableEq, Repr

/-- The header after `bzero`. -/
def zeroEhdr : Elf64_Ehdr :=
  { e_ident := List.replicate 16 0, e_type := 0, e_machine := 0, e_version := 0,
    e_entry := 0, e_phoff := 0, e_shoff := 0, e_flags := 0, e_ehsize := 0,
    e_phentsize := 0, e_phnum := 0, e_shentsize := 0, e_shnum := 0, e_shstrndx := 0 }

/-- The result after `bzero(&elfData, sizeof(elfData))`: every byte zero. -/
def zeroElfData : ElfData :=
  { elfHeader := zeroEhdr, programHeader := none, sections := none,
    dynSymbols := { size := 0, list := none },
    otherSymbols := { size := 0, list := none } }

/-! ## Files and mappings -/

/-- Page size of the target. -/
def PAGE_SIZE : Nat := 4096

/-- A file as `fstat` and `mmap` see it. -/
structure File where
  st_size : Nat
  data : Nat → Nat

/-- The byte of the file at offset `a`. -/
def File.byte (f : File) (a : Nat) : Nat := f.data a % 256

/-- Length of the mapping of the whole file: `st_size` rounded up to whole pages. -/
def File.mapLen (f : File) : Nat :=
  (f.st_size + (PAGE_SIZE - 1)) / PAGE_SIZE * PAGE_SIZE

/-- The byte read through the mapping at offset `a`: the file byte, or zero in
the part of the last page that lies after the end of the file. -/
def File.peek (f : File) (a : Nat) : Nat :=
  if a < f.st_size then f.byte a else 0

/-- Little-endian value of the `n` bytes that `rd` gives from `off` on. -/
def leWord (rd : Nat → Nat) (off : Nat) : Nat → Nat
  | 0 => 0
  | n + 1 => rd off + 256 * leWord rd (off + 1) n

/-- The `n` bytes that `rd` gives from `off` on. -/
def bytesAt (rd : Nat → Nat) (off : Nat) : Nat → List Nat
  | 0 => []
  | n + 1 => rd off :: bytesAt rd (off + 1) n

/-- Layout of `Elf64_Ehdr`. -/
def decodeEhdr (rd : Nat → Nat) (off : Nat) : Elf64_Ehdr :=
  { e_ident := bytesAt rd off 16,
    e_type := leWord rd (off + 16) 2,
    e_machine := leWord rd (off + 18) 2,
    e_version := leWord rd (off + 20) 4,
    e_entry := leWord rd (off + 24) 8,
    e_phoff := leWord rd (off + 32) 8,
    e_shoff := leWord rd (off + 40) 8,
    e_flags := leWord rd (off + 48) 4,
    e_ehsize := leWord rd (off + 52) 2,
    e_phentsize := leWord rd (off + 54) 2,
    e_phnum := leWord rd (off + 56) 2,
    e_shentsize := leWord rd (off + 58) 2,
    e_shnum := leWord rd (off + 60) 2,
    e_shstrndx := leWord rd (off + 62) 2 }

/-- Layout of `Elf64_Phdr`. -/
def decodePhdr (rd : Nat → Nat) (off : Nat) : Elf64_Phdr :=
  { p_type := leWord rd off 4,
    p_flags := leWord rd (off + 4) 4,
    p_offset := leWord rd (off + 8) 8,
    p_vaddr := leWord rd (off + 16) 8,
    p_paddr := leWord rd (off + 24) 8,
    p_filesz := leWord rd (off + 32) 8,
    p_memsz := leWord rd (off + 40) 8,
    p_align := leWord rd (off + 48) 8 }

/-- Layout of `Elf64_Shdr`. -/
def decodeShdr (rd : Nat → Nat) (off : Nat) : Elf64_Shdr :=
  { sh_name := leWord rd off 4,
    sh_type := leWord rd (off + 4) 4,
    sh_flags := leWord rd (off + 8) 8,
    sh_addr := leWord rd (off + 16) 8,
    sh_offset := leWord rd (off + 24) 8,
    sh_size := leWord rd (off + 32) 8,
    sh_link := leWord rd (off + 40) 4,
    sh_info := leWord rd (off + 44) 4,
    sh_addralign := leWord rd (off + 48) 8,
    sh_entsize := leWord rd (off + 56) 8 }

/-- Layout of `Elf64_Sym`. -/
def decodeSym (rd : Nat → Nat) (off : Nat) : Elf64_Sym :=
  { st_name := leWord rd off 4,
    st_info := leWord rd (off + 4) 1,
    st_other := leWord rd (off + 5) 1,
    st_shndx := leWord rd (off + 6) 2,
    st_value := leWord rd (off + 8) 8,
    st_size := leWord rd (off + 16) 8 }

/-- Whether the `len` bytes from `off` on lie inside the mapping. -/
def File.inMap (f : File) (off len : Nat) : Bool := decide (off + len ≤ f.mapLen)

/-- The call `memcpy(dst, map_start + off, len)` followed by reading `dst`
with `decode`: the source bytes must lie inside the mapping. -/
def memcpyFrom {α : Type} (f : File) (decode : (Nat → Nat) → Nat → α)
    (off len : Nat) : Option α :=
  if f.inMap off len then some (decode f.peek off) else none

/-! ## The allocator -/

/-- A block of heap memory, named by the pointer of the result that holds it. -/
inductive Alloc where
  | programHeader
  | sections
  | sectionName (i : Nat)
  | dynList
  | dynName (i : Nat)
  | otherList
  | otherName (i : Nat)
  deriving DecidableEq, Repr

/-- The answers of the allocator during one call: for each pointer of the
result, whether the call of `malloc` or `strdup` that is to fill it obtains
memory. -/
structure Heap where
  serves : Alloc → Bool

/-- An allocator that serves every request. -/
def Heap.ample : Heap := { serves := fun _ => true }

/-- An allocator that refuses the block `a` and serves every other request. -/
def Heap.refusing (a : Alloc) : Heap := { serves := fun b => decide (b ≠ a) }

/-- Every request is served. -/
def Heap.servesAll (hp : Heap) : Prop := ∀ a, hp.serves a = true

/-- Whether the call of `malloc` that is to fill the pointer `a` with `bytes`
bytes returns memory: a request above `PTRDIFF_MAX` is refused, any other is
served or not by the allocator. -/
def mallocOk (hp : Heap) (a : Alloc) (bytes : Nat) : Bool :=
  decide (bytes < 2 ^ 63) && hp.serves a

/-! ## Reading the mapping -/

/-- Scan of a string: `fuel` is the number of bytes left in the mapping. -/
def strScan (f : File) : Nat → Nat → Option (List Nat)
  | 0, _ => none
  | fuel + 1, off =>
    if f.peek off = 0 then some []
    else (strScan f fuel (off + 1)).map (fun s => f.peek off :: s)

/-- The string at `map_start + off` as a string function walks it: the bytes
up to the first NUL; the process stops when the scan leaves the mapping. -/
def readCString (f : File) (off : Nat) : Option (List Nat) :=
  strScan f (f.mapLen - off) off

/-- The call `strdup(map_start + off)` whose result goes to the pointer `a`.
The string is walked first (the outer `none` is a scan that leaves the
mapping); the value is the copy, or the null pointer (`some none`) when the
allocator refuses the block.  A string of the mapping is shorter than the
mapping, so the size of the request plays no part. -/
def strdup (hp : Heap) (a : Alloc) (f : File) (off : Nat) : Option (Option (List Nat)) :=
  match readCString f off with
  | none => none
  | some s => some (if hp.serves a then some s else none)

/-- Bytes of a C string literal. -/
def cstr (s : String) : List Nat := s.data.map Char.toNat

/-- The constant `ELFMAG` of `<elf.h>`. -/
def ELFMAG : List Nat := [0x7f, 69, 76, 70]

/-! ## `getELFData` -/

/-- Lines 65-78: the program header table.  The result of `malloc` (line 71)
is not tested: when it is null, the `memcpy` of line 74 writes through the
null pointer. -/
def copyProgramHeader (hp : Heap) (f : File) (h : Elf64_Ehdr) :
    Option (Option (List Elf64_Phdr)) :=
  if h.e_phoff ≠ 0 ∧ h.e_phnum ≠ 0 then
    if mallocOk hp Alloc.programHeader (h.e_phnum * 56) then
      if f.inMap h.e_phoff (h.e_phnum * 56) then
        some (some ((List.range h.e_phnum).map
          (fun i => decodePhdr f.peek (h.e_phoff + 56 * i))))
      else none
    else none
  else some none

/-- Lines 89-92: the loop copying `n` section headers from `off` on. -/
def readSections (f : File) : Nat → Nat → Option (List ElfSection)
  | _, 0 => some []
  | off, n + 1 =>
    match memcpyFrom f decodeShdr off 64 with
    | none => none
    | some sh =>
      match readSections f (off + 64) n with
      | none => none
      | some tl => some ({ sectionHeader := sh, sectionName := none } :: tl)

/-- Lines 82-93: the section array with unresolved names; an `ElfSection` is
a 64-byte header and a pointer, 72 bytes.  The result of `malloc` (line 87) is
not tested: when it is null, the first iteration of the loop writes through
the null pointer. -/
def copySections (hp : Heap) (f : File) (h : Elf64_Ehdr) :
    Option (Option (List ElfSection)) :=
  if h.e_shoff ≠ 0 ∧ h.e_shnum ≠ 0 then
    if mallocOk hp Alloc.sections (h.e_shnum * 72) then
      (readSections f h.e_shoff h.e_shnum).map some
    else none
  else some none

/-- A loop body applied to each element in turn, stopping at the first failure. -/
def mapOpt {α β : Type} (g : α → Option β) : List α → Option (List β)
  | [] => some []
  | a :: l =>
    match g a with
    | none => none
    | some b =>
      match mapOpt g l with
      | none => none
      | some bs => some (b :: bs)

/-- Lines 100-103: the name of the section `p.2` at index `p.1`, read in the
table of the section at index `shstrndx` of the array `secs`.  The result of
`strdup` is stored as it is, null or not. -/
def resolveName (hp : Heap) (f : File) (secs : List ElfSection) (shstrndx : Nat)
    (p : Nat × ElfSection) : Option ElfSection :=
  match secs[shstrndx]? with
  | none => none
  | some tab =>
    match strdup hp (Alloc.sectionName p.1) f
        (tab.sectionHeader.sh_offset + p.2.sectionHeader.sh_name) with
    | none => none
    | some nm => some { p.2 with sectionName := nm }

/-- Lines 96-105: the second pass over the sections, each with its index. -/
def resolveSectionNames (hp : Heap) (f : File) (h : Elf64_Ehdr) :
    Option (List ElfSection) → Option (Option (List ElfSection))
  | none => some none
  | some secs => (mapOpt (resolveName hp f secs h.e_shstrndx) secs.enum).map some

/-- Conversion of an unsigned 64-bit value to `int`. -/
def toInt32 (q : Nat) : Int :=
  if q % 2 ^ 32 < 2 ^ 31 then ((q % 2 ^ 32 : Nat) : Int)
  else ((q % 2 ^ 32 : Nat) : Int) - 2 ^ 32

/-- Locals of lines 113-120; a pointer is kept as its offset from `map_start`. -/
structure SymScan where
  dynsym_ptr : Option Nat
  othersym_ptr : Option Nat
  dynsym_str_ptr : Option Nat
  othersym_str_ptr : Option Nat
  num_dynsym : Int
  num_othersym : Int
  deriving DecidableEq, Repr

/-- Initial values of the locals. -/
def SymScan.init : SymScan :=
  { dynsym_ptr := none, othersym_ptr := none, dynsym_str_ptr := none,
    othersym_str_ptr := none, num_dynsym := 0, num_othersym := 0 }

/-- Lines 133-149: one iteration of the scan. -/
def scanStep (st : SymScan) (s : ElfSection) : Option SymScan :=
  match s.sectionName with
  | none => none
  | some nm =>
    let sh := s.sectionHeader
    let st1 : Option SymScan :=
      if nm = cstr ".dynsym" then
        if sh.sh_entsize = 0 then none
        else some { st with dynsym_ptr := some sh.sh_offset,
                            num_dynsym := toInt32 (sh.sh_size / sh.sh_entsize) }
      else some st
    match st1 with
    | none => none
    | some st1 =>
      let st2 : Option SymScan :=
        if nm = cstr ".symtab" then
          if sh.sh_entsize = 0 then none
          else some { st1 with othersym_ptr := some sh.sh_offset,
                               num_othersym := toInt32 (sh.sh_size / sh.sh_entsize) }
        else some st1
      match st2 with
      | none => none
      | some st2 =>
        let st3 : SymScan :=
          if nm = cstr ".dynstr" then { st2 with dynsym_str_ptr := some sh.sh_offset }
          else st2
        let st4 : SymScan :=
          if nm = cstr ".strtab" then { st3 with othersym_str_ptr := some sh.sh_offset }
          else st3
        some st4

/-- Lines 131-150: the scan of the sections, from the locals `st` on. -/
def scanFrom : SymScan → List ElfSection → Option SymScan
  | st, [] => some st
  | st, s :: l =>
    match scanStep st s with
    | none => none
    | some st1 => scanFrom st1 l

/-- Lines 128-151. -/
def scanSections : Option (List ElfSection) → Option SymScan
  | none => some SymScan.init
  | some secs => scanFrom SymScan.init secs

/-- Lines 155-165 and 171-182: the loop copying `n` symbols from `off` on,
the first of them at index `i`; names are read in the string table at
`strtab` and `mk j` is the name pointer of entry `j`.  The result of `strdup`
(lines 163 and 180) is stored as it is, null or not. -/
def readSymbols (hp : Heap) (mk : Nat → Alloc) (f : File) (strtab : Option Nat) :
    Nat → Nat → Nat → Option (List ElfSymbol)
  | _, _, 0 => some []
  | off, i, n + 1 =>
    match memcpyFrom f decodeSym off 24 with
    | none => none
    | some sym =>
      let nm : Option (Option (List Nat)) :=
        if sym.st_name ≠ 0 then
          match strtab with
          | none => none
          | some t => strdup hp (mk i) f (t + sym.st_name)
        else some none
      match nm with
      | none => none
      | some nm =>
        match readSymbols hp mk f strtab (off + 24) (i + 1) n with
        | none => none
        | some tl => some ({ symbol := sym, name := nm } :: tl)

/-- Argument of `malloc(num * sizeof(ElfSymbol))`: the `int` is converted to
`size_t` and the product is taken modulo `2 ^ 64`; an `ElfSymbol` is a 24-byte
record and a pointer, 32 bytes. -/
def symArrayBytes (num : Int) : Nat := ((num % 2 ^ 64).toNat * 32) % 2 ^ 64

/-- Lines 153-167 and 169-184: one symbol table, `arr` being its array
pointer and `mk j` the name pointer of its entry `j`.  The result of `malloc`
(lines 154 and 170) is not tested: when it is null and the count is positive,
the first iteration of the loop writes through the null pointer; when the
count is negative the loop does not run and the null pointer is returned with
the count. -/
def copySymbols (hp : Heap) (arr : Alloc) (mk : Nat → Alloc) (f : File)
    (ptr strtab : Option Nat) (num : Int) : Option ElfSymbolList :=
  match ptr with
  | none => some { size := 0, list := none }
  | some off =>
    if num = 0 then some { size := 0, list := none }
    else if mallocOk hp arr (symArrayBytes num) then
      match readSymbols hp mk f strtab off 0 num.toNat with
      | none => none
      | some l => some { size := num, list := some l }
    else if num.toNat = 0 then some { size := num, list := none }
    else none

/-- Lines 55-190: extraction from the mapping of `f`, with the allocator `hp`. -/
def extract (hp : Heap) (f : File) : Option ElfData :=
  match memcpyFrom f decodeEhdr 0 64 with
  | none => none
  | some eh =>
    if eh.e_ident.take 4 ≠ ELFMAG then some zeroElfData
    else
      match copyProgramHeader hp f eh with
      | none => none
      | some ph =>
        match copySections hp f eh with
        | none => none
        | some secs0 =>
          match resolveSectionNames hp f eh secs0 with
          | none => none
          | some secs =>
            match scanSections secs with
            | none => none
            | some sc =>
              match copySymbols hp Alloc.dynList Alloc.dynName f
                  sc.dynsym_ptr sc.dynsym_str_ptr sc.num_dynsym with
              | none => none
              | some dyn =>
                match copySymbols hp Alloc.otherList Alloc.otherName f
                    sc.othersym_ptr sc.othersym_str_ptr sc.num_othersym with
                | none => none
                | some oth =>
                  some { elfHeader := eh, programHeader := ph, sections := secs,
                         dynSymbols := dyn, otherSymbols := oth }

/-- What `open`, `fstat` and `mmap` answer for the path given to `getELFData`. -/
inductive Target where
  | openFails
  | fstatFails
  | mmapFails (f : File)
  | mapped (f : File)

/-- The function `getELFData`, run with the allocator `hp`.  A file of length
zero cannot be mapped (`mmap` fails with `EINVAL`). -/
def getELFData (hp : Heap) : Target → Option ElfData
  | .openFails => some zeroElfData
  | .fstatFails => some zeroElfData
  | .mmapFails _ => some zeroElfData
  | .mapped f => if f.st_size = 0 then some zeroElfData else extract hp f

/-! ## The file as the ELF format describes it

These definitions read the bytes of the file itself, not the mapping, and do
not follow the code: they say where the format puts each record and string.
-/

/-- The bytes of `s` followed by a NUL stand at offset `off` of what `rd`
gives, the NUL before offset `lim`. -/
def IsCStr (rd : Nat → Nat) (lim off : Nat) (s : List Nat) : Prop :=
  off + s.length < lim ∧ (∀ k, k < s.length → rd (off + k) = s.getD k 0) ∧
    (∀ b ∈ s, b ≠ 0) ∧ rd (off + s.length) = 0

instance (rd : Nat → Nat) (lim off : Nat) (s : List Nat) : Decidable (IsCStr rd lim off s) := by
  unfold IsCStr
  infer_instance

/-- The header record at offset 0 of the file. -/
def File.ehdr (f : File) : Elf64_Ehdr := decodeEhdr f.byte 0

/-- Whether the file starts with the ELF magic. -/
def File.hasMagic (f : File) : Prop := bytesAt f.peek 0 4 = ELFMAG

instance (f : File) : Decidable f.hasMagic := by
  unfold File.hasMagic
  infer_instance

/-- Record `i` of the program header table. -/
def File.phdr (f : File) (i : Nat) : Elf64_Phdr :=
  decodePhdr f.byte (f.ehdr.e_phoff + 56 * i)

/-- Record `i` of the section header table. -/
def File.shdr (f : File) (i : Nat) : Elf64_Shdr :=
  decodeShdr f.byte (f.ehdr.e_shoff + 64 * i)

/-- Whether the header declares a section header table. -/
def File.hasSections (f : File) : Prop := f.ehdr.e_shoff ≠ 0 ∧ f.ehdr.e_shnum ≠ 0

instance (f : File) : Decidable f.hasSections := by
  unfold File.hasSections
  infer_instance

/-- File offset of the name of section `i`: the offset of the section-name
string table plus the raw name field. -/
def File.nameOff (f : File) (i : Nat) : Nat :=
  (f.shdr f.ehdr.e_shstrndx).sh_offset + (f.shdr i).sh_name

/-- Section `i` of the file is named `nm`. -/
def File.secNamed (f : File) (i : Nat) (nm : List Nat) : Prop :=
  IsCStr f.byte f.st_size (f.nameOff i) nm

instance (f : File) (i : Nat) (nm : List Nat) : Decidable (f.secNamed i nm) := by
  unfold File.secNamed
  infer_instance

/-- A NUL byte stands in the file at or after offset `off`. -/
def File.terminated (f : File) (off : Nat) : Prop :=
  ∃ k, k < f.st_size - off ∧ f.byte (off + k) = 0

instance (f : File) (off : Nat) : Decidable (f.terminated off) := by
  unfold File.terminated
  infer_instance

/-- Entry count of section `i` read as a table: byte size over entry size. -/
def File.symCount (f : File) (i : Nat) : Nat :=
  (f.shdr i).sh_size / (f.shdr i).sh_entsize

/-- Symbol record `k` of section `i`. -/
def File.symAt (f : File) (i k : Nat) : Elf64_Sym :=
  decodeSym f.byte ((f.shdr i).sh_offset + 24 * k)

/-- Section `i` is the last section of the table named `nm`. -/
def File.lastNamed (f : File) (i : Nat) (nm : List Nat) : Prop :=
  i < f.ehdr.e_shnum ∧ f.secNamed i nm ∧
    ∀ j, j < f.ehdr.e_shnum → i < j → ¬ f.secNamed j nm

instance (f : File) (i : Nat) (nm : List Nat) : Decidable (f.lastNamed i nm) := by
  unfold File.lastNamed
  infer_instance

/-- The name at offset `name` of the string table called `strName` is in the
file: a section named `strName` exists, and in each one a NUL follows the
offset `name`. -/
def File.strOk (f : File) (strName : List Nat) (name : Nat) : Prop :=
  (∃ j, j < f.ehdr.e_shnum ∧ f.secNamed j strName) ∧
    ∀ j, j < f.ehdr.e_shnum → f.secNamed j strName →
      f.terminated ((f.shdr j).sh_offset + name)

instance (f : File) (a : List Nat) (n : Nat) : Decidable (f.strOk a n) := by
  unfold File.strOk
  infer_instance

/-- Every symbol of every section named `symName` that has a name has it in
the string table called `strName`. -/
def File.symNamesOk (f : File) (symName strName : List Nat) : Prop :=
  ∀ i, i < f.ehdr.e_shnum → f.secNamed i symName →
    ∀ k, k < f.symCount i → (f.symAt i k).st_name ≠ 0 →
      f.strOk strName (f.symAt i k).st_name

instance (f : File) (a b : List Nat) : Decidable (f.symNamesOk a b) := by
  unfold File.symNamesOk
  infer_instance

/-- Well-formedness of a file: every table and string that the header and the
section headers announce lies inside the file. -/
structure WellFormed (f : File) : Prop where
  header : 64 ≤ f.st_size
  phdrs : f.ehdr.e_phoff ≠ 0 → f.ehdr.e_phnum ≠ 0 →
    f.ehdr.e_phoff + 56 * f.ehdr.e_phnum ≤ f.st_size
  shdrs : f.hasSections → f.ehdr.e_shoff + 64 * f.ehdr.e_shnum ≤ f.st_size
  shstrndx : f.hasSections → f.ehdr.e_shstrndx < f.ehdr.e_shnum
  names : f.hasSections → ∀ i, i < f.ehdr.e_shnum → f.terminated (f.nameOff i)
  symsec : f.hasSections → ∀ i, i < f.ehdr.e_shnum →
    f.secNamed i (cstr ".dynsym") ∨ f.secNamed i (cstr ".symtab") →
      (f.shdr i).sh_entsize ≠ 0 ∧ (f.shdr i).sh_offset + 24 * f.symCount i ≤ f.st_size
  dynNames : f.hasSections → f.symNamesOk (cstr ".dynsym") (cstr ".dynstr")
  otherNames : f.hasSections → f.symNamesOk (cstr ".symtab") (cstr ".strtab")

/-- Number of entries of the returned program header collection (an absent
collection has none). -/
def ElfData.phCount (r : ElfData) : Nat :=
  match r.programHeader with
  | none => 0
  | some l => l.length

/-- The outcomes of `open`, `fstat` and `mmap` after which `getELFData`
reports a failure: one of the three calls fails (a file of length zero
cannot be mapped), or the mapped bytes do not start with the ELF magic. -/
def Target.failed : Target → Prop
  | .openFails => True
  | .fstatFails => True
  | .mmapFails _ => True
  | .mapped f => f.st_size = 0 ∨ ¬ f.hasMagic

/-! ## Notions used by the proofs -/

/-- The steps after the magic check, chained as in the code. -/
def Steps (hp : Heap) (f : File) (r : ElfData) : Prop :=
  ∃ secs0 sc,
    r.elfHeader = decodeEhdr f.peek 0 ∧
    copyProgramHeader hp f r.elfHeader = some r.programHeader ∧
    copySections hp f r.elfHeader = some secs0 ∧
    resolveSectionNames hp f r.elfHeader secs0 = some r.sections ∧
    scanSections r.sections = some sc ∧
    copySymbols hp Alloc.dynList Alloc.dynName f
      sc.dynsym_ptr sc.dynsym_str_ptr sc.num_dynsym = some r.dynSymbols ∧
    copySymbols hp Alloc.otherList Alloc.otherName f
      sc.othersym_ptr sc.othersym_str_ptr sc.num_othersym = some r.otherSymbols

/-- The last section of the list whose resolved name is `nm`. -/
def lastSec (nm : List Nat) : List ElfSection → Option ElfSection
  | [] => none
  | s :: l =>
    match lastSec nm l with
    | some t => some t
    | none => if s.sectionName = some nm then some s else none

/-- A local of the scan after the list `l`: the value `val` of the last
section named `nm`, or its former value when no section has that name. -/
def Tracks {α : Type} (nm : List Nat) (l : List ElfSection) (before after : α)
    (val : ElfSection → α) : Prop :=
  (lastSec nm l = none → after = before) ∧ ∀ s, lastSec nm l = some s → after = val s

/-- Entry count that the scan computes for a symbol section. -/
def ElfSection.count (s : ElfSection) : Int :=
  toInt32 (s.sectionHeader.sh_size / s.sectionHeader.sh_entsize)



/-- How the name `nm` of a returned symbol relates to its raw name field:
absent for the field 0, otherwise what `strdup` makes of the string at that
offset of the string table at `strtab`, the copy when the allocator serves the
name pointer `a` and the null pointer when it does not. -/
def SymName (hp : Heap) (a : Alloc) (f : File) (strtab : Option Nat) (st_name : Nat)
    (nm : Option (List Nat)) : Prop :=
  (st_name = 0 ∧ nm = none) ∨
  (st_name ≠ 0 ∧ ∃ t s, strtab = some t ∧ readCString f (t + st_name) = some s ∧
    nm = if hp.serves a then some s else none)



/-- The name that the file gives to a symbol with raw name field `st_name`:
none for the field 0, otherwise the string at that offset of the last section
named `strName`. -/
def File.symNameIs (f : File) (strName : List Nat) (st_name : Nat)
    (nm : Option (List Nat)) : Prop :=
  (st_name = 0 ∧ nm = none) ∨
  (st_name ≠ 0 ∧ ∃ j s, f.lastNamed j strName ∧ nm = some s ∧
    IsCStr f.byte f.st_size ((f.shdr j).sh_offset + st_name) s)

/-- The symbol table that corresponds to section `i` of the file, the count
being held in an `int`. -/
def File.tableOf (f : File) (i : Nat) (strName : List Nat) (sl : ElfSymbolList) : Prop :=
  (toInt32 (f.symCount i) = 0 → sl = { size := 0, list := none }) ∧
  (toInt32 (f.symCount i) < 0 → sl = { size := toInt32 (f.symCount i), list := none }) ∧
  (0 < toInt32 (f.symCount i) → sl.size = toInt32 (f.symCount i) ∧
    ∃ lst, sl.list = some lst ∧ lst.length = (toInt32 (f.symCount i)).toNat ∧
      ∀ k, k < (toInt32 (f.symCount i)).toNat →
        ∃ nm, lst[k]? = some { symbol := f.symAt i k, name := nm } ∧
          f.symNameIs strName (f.symAt i k).st_name nm)

/-- The symbol table `sl` is the one of the last section named `symName`, and
is empty when no section has that name. -/
def File.tableOk (f : File) (symName strName : List Nat) (sl : ElfSymbolList) : Prop :=
  ((∀ i, i < f.ehdr.e_shnum → ¬ f.secNamed i symName) → sl = { size := 0, list := none }) ∧
  ∀ i, f.lastNamed i symName → f.tableOf i strName sl

/-- The section list `l` holds the section headers of the file in table
order, each with its name. -/
def File.sectionsOk (f : File) (l : List ElfSection) : Prop :=
  l.length = f.ehdr.e_shnum ∧ ∀ i, i < f.ehdr.e_shnum →
    ∃ nm, l[i]? = some { sectionHeader := f.shdr i, sectionName := some nm } ∧ f.secNamed i nm

/-- The name that a run gives to a symbol with raw name field `st_name` when
the allocator answers `served` for its name pointer: none for the field 0;
otherwise the string at that offset of the last section named `strName` when
the copy is served, and none when it is refused. -/
def File.symNameOn (f : File) (served : Bool) (strName : List Nat) (st_name : Nat)
    (nm : Option (List Nat)) : Prop :=
  (st_name = 0 ∧ nm = none) ∨
  (st_name ≠ 0 ∧ ∃ j s, f.lastNamed j strName ∧
    IsCStr f.byte f.st_size ((f.shdr j).sh_offset + st_name) s ∧
    nm = if served then some s else none)

/-- The symbol table that a run with the allocator `hp` returns for section
`i` of the file, `mk k` being the name pointer of entry `k`. -/
def File.tableOn (f : File) (hp : Heap) (mk : Nat → Alloc) (i : Nat) (strName : List Nat)
    (sl : ElfSymbolList) : Prop :=
  (toInt32 (f.symCount i) = 0 → sl = { size := 0, list := none }) ∧
  (toInt32 (f.symCount i) < 0 → sl = { size := toInt32 (f.symCount i), list := none }) ∧
  (0 < toInt32 (f.symCount i) → sl.size = toInt32 (f.symCount i) ∧
    ∃ lst, sl.list = some lst ∧ lst.length = (toInt32 (f.symCount i)).toNat ∧
      ∀ k, k < (toInt32 (f.symCount i)).toNat →
        ∃ nm, lst[k]? = some { symbol := f.symAt i k, name := nm } ∧
          f.symNameOn (hp.serves (mk k)) strName (f.symAt i k).st_name nm)

/-- The symbol table `sl` of a run with the allocator `hp` is the one of the
last section named `symName`, and is empty when no section has that name. -/
def File.tableOkOn (f : File) (hp : Heap) (mk : Nat → Alloc) (symName strName : List Nat)
    (sl : ElfSymbolList) : Prop :=
  ((∀ i, i < f.ehdr.e_shnum → ¬ f.secNamed i symName) → sl = { size := 0, list := none }) ∧
  ∀ i, f.lastNamed i symName → f.tableOn hp mk i strName sl

/-- The result `r` of a run with the allocator `hp` holds what the file `f`
contains, but for the symbol names whose copy the allocator refused. -/
def DescribesOn (hp : Heap) (f : File) (r : ElfData) : Prop :=
  r.elfHeader = f.ehdr ∧
  (f.ehdr.e_phoff = 0 ∨ f.ehdr.e_phnum = 0 → r.programHeader = none) ∧
  (f.ehdr.e_phoff ≠ 0 → f.ehdr.e_phnum ≠ 0 →
    r.programHeader = some ((List.range f.ehdr.e_phnum).map f.phdr)) ∧
  (¬ f.hasSections → r.sections = none ∧ r.dynSymbols = { size := 0, list := none } ∧
    r.otherSymbols = { size := 0, list := none }) ∧
  (f.hasSections → ∃ l, r.sections = some l ∧ f.sectionsOk l ∧
    f.tableOkOn hp Alloc.dynName (cstr ".dynsym") (cstr ".dynstr") r.dynSymbols ∧
    f.tableOkOn hp Alloc.otherName (cstr ".symtab") (cstr ".strtab") r.otherSymbols)

/-- The result `r` holds what the file `f` contains. -/
def Describes (f : File) (r : ElfData) : Prop :=
  r.elfHeader = f.ehdr ∧
  (f.ehdr.e_phoff = 0 ∨ f.ehdr.e_phnum = 0 → r.programHeader = none) ∧
  (f.ehdr.e_phoff ≠ 0 → f.ehdr.e_phnum ≠ 0 →
    r.programHeader = some ((List.range f.ehdr.e_phnum).map f.phdr)) ∧
  (¬ f.hasSections → r.sections = none ∧ r.dynSymbols = { size := 0, list := none } ∧
    r.otherSymbols = { size := 0, list := none }) ∧
  (f.hasSections → ∃ l, r.sections = some l ∧ f.sectionsOk l ∧
    f.tableOk (cstr ".dynsym") (cstr ".dynstr") r.dynSymbols ∧
    f.tableOk (cstr ".symtab") (cstr ".strtab") r.otherSymbols)

/-! ## Sample files -/

/-- Little-endian bytes of `v` on `n` bytes. -/
def enc (v : Nat) : Nat → List Nat
  | 0 => []
  | n + 1 => v % 256 :: enc (v / 256) n

/-- The file made of the bytes `l`. -/
def File.ofBytes (l : List Nat) : File :=
  { st_size := l.length, data := fun a => l.getD a 0 }

/-- Bytes of a header record. -/
def encEhdr (h : Elf64_Ehdr) : List Nat :=
  h.e_ident ++ enc h.e_type 2 ++ enc h.e_machine 2 ++ enc h.e_version 4 ++ enc h.e_entry 8
    ++ enc h.e_phoff 8 ++ enc h.e_shoff 8 ++ enc h.e_flags 4 ++ enc h.e_ehsize 2
    ++ enc h.e_phentsize 2 ++ enc h.e_phnum 2 ++ enc h.e_shentsize 2 ++ enc h.e_shnum 2
    ++ enc h.e_shstrndx 2

/-- Bytes of a program header record. -/
def encPhdr (p : Elf64_Phdr) : List Nat :=
  enc p.p_type 4 ++ enc p.p_flags 4 ++ enc p.p_offset 8 ++ enc p.p_vaddr 8 ++ enc p.p_paddr 8
    ++ enc p.p_filesz 8 ++ enc p.p_memsz 8 ++ enc p.p_align 8

/-- Bytes of a section header record. -/
def encShdr (s : Elf64_Shdr) : List Nat :=
  enc s.sh_name 4 ++ enc s.sh_type 4 ++ enc s.sh_flags 8 ++ enc s.sh_addr 8
    ++ enc s.sh_offset 8 ++ enc s.sh_size 8 ++ enc s.sh_link 4 ++ enc s.sh_info 4
    ++ enc s.sh_addralign 8 ++ enc s.sh_entsize 8

/-- Bytes of a symbol record. -/
def encSym (s : Elf64_Sym) : List Nat :=
  enc s.st_name 4 ++ enc s.st_info 1 ++ enc s.st_other 1 ++ enc s.st_shndx 2
    ++ enc s.st_value 8 ++ enc s.st_size 8

/-- A section header with the fields that matter here. -/
def mkShdr (name type off size entsize : Nat) : Elf64_Shdr :=
  { sh_name := name, sh_type := type, sh_flags := 0, sh_addr := 0, sh_offset := off,
    sh_size := size, sh_link := 0, sh_info := 0, sh_addralign := 1, sh_entsize := entsize }

/-- Header of the sample executable: one program header at 64, six section
headers at 120, section names in section 1. -/
def sampleEhdr : Elf64_Ehdr :=
  { e_ident := [0x7f, 69, 76, 70, 2, 1, 1, 0, 0, 0, 0, 0, 0, 0, 0, 0],
    e_type := 2, e_machine := 62, e_version := 1, e_entry := 0x401000,
    e_phoff := 64, e_shoff := 120, e_flags := 0, e_ehsize := 64, e_phentsize := 56,
    e_phnum := 1, e_shentsize := 64, e_shnum := 6, e_shstrndx := 1 }

/-- The program header of the sample. -/
def samplePhdr : Elf64_Phdr :=
  { p_type := 1, p_flags := 5, p_offset := 0, p_vaddr := 0x400000, p_paddr := 0x400000,
    p_filesz := 625, p_memsz := 625, p_align := 4096 }

/-- The section headers of the sample. -/
def sampleShdrs : List Elf64_Shdr :=
  [ mkShdr 0 0 0 0 0, mkShdr 1 3 504 43 0, mkShdr 11 11 547 48 24, mkShdr 19 3 595 3 0,
    mkShdr 27 2 598 24 24, mkShdr 35 3 622 3 0 ]

/-- The section names of the sample, in table order. -/
def sampleNames : List (List Nat) :=
  [[], cstr ".shstrtab", cstr ".dynsym", cstr ".dynstr", cstr ".symtab", cstr ".strtab"]

/-- The section-name string table of the sample. -/
def sampleShstrtab : List Nat :=
  [0] ++ cstr ".shstrtab" ++ [0] ++ cstr ".dynsym" ++ [0] ++ cstr ".dynstr" ++ [0]
    ++ cstr ".symtab" ++ [0] ++ cstr ".strtab" ++ [0]

/-- The dynamic symbols of the sample: one without a name, one named `f`. -/
def sampleDynsym : List Elf64_Sym :=
  [ { st_name := 0, st_info := 0, st_other := 0, st_shndx := 0, st_value := 0, st_size := 0 },
    { st_name := 1, st_info := 18, st_other := 0, st_shndx := 0, st_value := 0, st_size := 0 } ]

/-- The static symbol of the sample, named `g`. -/
def sampleSymtab : List Elf64_Sym :=
  [ { st_name := 1, st_info := 18, st_other := 0, st_shndx := 1, st_value := 0x401000,
      st_size := 5 } ]

/-- The 625 bytes of the sample. -/
def sampleBytes : List Nat :=
  encEhdr sampleEhdr ++ encPhdr samplePhdr ++ (sampleShdrs.map encShdr).flatten
    ++ sampleShstrtab ++ (sampleDynsym.map encSym).flatten ++ [0, 102, 0]
    ++ (sampleSymtab.map encSym).flatten ++ [0, 103, 0]

/-- A small well-formed executable. -/
def sampleFile : File := File.ofBytes sampleBytes

/-- What `getELFData` returns for the sample. -/
def sampleData : ElfData :=
  { elfHeader := sampleEhdr,
    programHeader := some [samplePhdr],
    sections := some (List.zipWith
      (fun h n => { sectionHeader := h, sectionName := some n }) sampleShdrs sampleNames),
    dynSymbols := { size := 2, list := some (List.zipWith
      (fun s n => { symbol := s, name := n }) sampleDynsym [none, some [102]]) },
    otherSymbols := { size := 1, list := some (List.zipWith
      (fun s n => { symbol := s, name := n }) sampleSymtab [some [103]]) } }

/-- The sample without its program header table: `e_phoff` and `e_phnum`
are zero. -/
def noPhdrFile : File :=
  File.ofBytes (encEhdr { sampleEhdr with e_phoff := 0, e_phnum := 0 } ++ sampleBytes.drop 64)

/-- A source file: readable, not an ELF file. -/
def textFile : File := File.ofBytes (cstr "#include <stdio.h>")

/-- Number of symbols of the large file: one more than `2 ^ 32`. -/
def bigCount : Nat := 2 ^ 32 + 1

/-- Header of the large file: no program headers, three section headers at 64. -/
def bigEhdr : Elf64_Ehdr :=
  { e_ident := [0x7f, 69, 76, 70, 2, 1, 1, 0, 0, 0, 0, 0, 0, 0, 0, 0],
    e_type := 3, e_machine := 62, e_version := 1, e_entry := 0,
    e_phoff := 0, e_shoff := 64, e_flags := 0, e_ehsize := 64, e_phentsize := 56,
    e_phnum := 0, e_shentsize := 64, e_shnum := 3, e_shstrndx := 1 }

/-- Section headers of the large file: `.dynsym` holds `bigCount` entries of
24 bytes from offset 4096 on. -/
def bigShdrs : List Elf64_Shdr :=
  [ mkShdr 0 0 0 0 0, mkShdr 1 3 256 19 0, mkShdr 11 11 4096 (24 * bigCount) 24 ]

/-- The first 275 bytes of the large file; all later bytes are zero. -/
def bigHead : List Nat :=
  encEhdr bigEhdr ++ (bigShdrs.map encShdr).flatten
    ++ [0] ++ cstr ".shstrtab" ++ [0] ++ cstr ".dynsym" ++ [0]

/-- A shared object of about 103 GB whose dynamic symbol table has
`2 ^ 32 + 1` entries, all of them the null symbol. -/
def bigFile : File :=
  { st_size := 4096 + 24 * bigCount, data := fun a => bigHead.getD a 0 }

/-! ## `destroyELFData` and the memory that `getELFData` obtains -/

/-- Lines 205-208, 216-220 and 227-231: the loop that frees the names of the
`n` entries from index `i` on.  `nameAt j` is the name pointer of entry `j`,
`none` outside the array.  A null name releases nothing (`free(NULL)` in the
section loop, the test before `free` in the symbol loops). -/
def freeNames (nameAt : Nat → Option (Option (List Nat))) (mk : Nat → Alloc) :
    Nat → Nat → Option (List Alloc)
  | _, 0 => some []
  | i, n + 1 =>
    match nameAt i with
    | none => none
    | some nm =>
      match freeNames nameAt mk (i + 1) n with
      | none => none
      | some rest => some ((if nm.isSome then [mk i] else []) ++ rest)

/-- Lines 214-223 and 225-234: the release of one symbol table. -/
def destroySymbols (sl : ElfSymbolList) (mk : Nat → Alloc) (arr : Alloc) :
    Option (List Alloc) :=
  match sl.list with
  | none => some []
  | some l =>
    (freeNames (fun i => l[i]?.map (fun e => e.name)) mk 0 sl.size.toNat).map
      (fun names => names ++ [arr])

/-- Lines 198-201: the release of the program header array. -/
def destroyProgramHeader (ph : Option (List Elf64_Phdr)) : List Alloc :=
  match ph with
  | none => []
  | some _ => [Alloc.programHeader]

/-- Lines 204-211: the release of the sections, the loop running over
`e_shnum` entries. -/
def destroySections (secs : Option (List ElfSection)) (e_shnum : Nat) :
    Option (List Alloc) :=
  match secs with
  | none => some []
  | some l =>
    (freeNames (fun i => l[i]?.map (fun s => s.sectionName)) Alloc.sectionName 0 e_shnum).map
      (fun names => names ++ [Alloc.sections])

/-- The function `destroyELFData`: the blocks it hands to `free`, in order;
`none` when a loop leaves its array. -/
def destroyELFData (r : ElfData) : Option (List Alloc) :=
  match destroySections r.sections r.elfHeader.e_shnum with
  | none => none
  | some a2 =>
    match destroySymbols r.dynSymbols Alloc.dynName Alloc.dynList with
    | none => none
    | some a3 =>
      match destroySymbols r.otherSymbols Alloc.otherName Alloc.otherList with
      | none => none
      | some a4 => some (destroyProgramHeader r.programHeader ++ a2 ++ a3 ++ a4)

/-- Lines 153-165 and 169-181: the blocks obtained for one symbol table, the
array by `malloc` when the request is served, and then one string for each
symbol whose raw name field is not zero and whose `strdup` is served. -/
def symAllocs (hp : Heap) (f : File) (arr : Alloc) (mk : Nat → Alloc) (ptr : Option Nat)
    (num : Int) : List Alloc :=
  match ptr with
  | none => []
  | some off =>
    if num = 0 then []
    else if mallocOk hp arr (symArrayBytes num) then
      arr :: ((List.range num.toNat).filter
        (fun i => decide ((decodeSym f.peek (off + 24 * i)).st_name ≠ 0)
          && hp.serves (mk i))).map mk
    else []

/-- Lines 65-184: the blocks that a run of the extraction obtains from
`malloc` (lines 71, 87, 154, 170) and `strdup` (lines 103, 163, 180), in
program order: every call that the allocator serves.  A run that passes lines
74 and 90 was given the array it asked for there. -/
def extractAllocs (hp : Heap) (f : File) : Option (List Alloc) :=
  match memcpyFrom f decodeEhdr 0 64 with
  | none => none
  | some eh =>
    if eh.e_ident.take 4 ≠ ELFMAG then some []
    else
      match copyProgramHeader hp f eh with
      | none => none
      | some _ =>
        match copySections hp f eh with
        | none => none
        | some secs0 =>
          match resolveSectionNames hp f eh secs0 with
          | none => none
          | some secs =>
            match scanSections secs with
            | none => none
            | some sc =>
              some
                ((if eh.e_phoff ≠ 0 ∧ eh.e_phnum ≠ 0 then [Alloc.programHeader] else [])
                  ++ (if eh.e_shoff ≠ 0 ∧ eh.e_shnum ≠ 0 then
                        Alloc.sections :: ((List.range eh.e_shnum).filter
                          (fun i => hp.serves (Alloc.sectionName i))).map Alloc.sectionName
                      else [])
                  ++ symAllocs hp f Alloc.dynList Alloc.dynName sc.dynsym_ptr sc.num_dynsym
                  ++ symAllocs hp f Alloc.otherList Alloc.otherName
                      sc.othersym_ptr sc.num_othersym)

/-- The blocks that a call of `getELFData` obtains: none on the failure paths. -/
def getELFData_allocs (hp : Heap) : Target → Option (List Alloc)
  | .openFails => some []
  | .fstatFails => some []
  | .mmapFails _ => some []
  | .mapped f => if f.st_size = 0 then some [] else extractAllocs hp f

/-- Which part of the result a block belongs to. -/
def Alloc.group : Alloc → Nat
  | .programHeader => 0
  | .sections => 1
  | .sectionName _ => 1
  | .dynList => 2
  | .dynName _ => 2
  | .otherList => 3
  | .otherName _ => 3

/-! ## File descriptor and mapping -/

/-- The two resources that `getELFData` takes from the system. -/
inductive Resource where
  | descriptor
  | mapping
  deriving DecidableEq, Repr

/-- A resource is taken (`open`, `mmap` succeed) or given back (`close`,
`munmap`). -/
inductive SysEvent where
  | acquire (r : Resource)
  | release (r : Resource)
  deriving DecidableEq, Repr

/-- The resource events of a call of `getELFData` up to its return, in
program order: `open` (line 22), `mmap` (line 38), `close` (line 39),
`munmap` (line 187).  A run that stops inside the extraction has the events
before it. -/
def getELFData_events (hp : Heap) : Target → List SysEvent
  | .openFails => []
  | .fstatFails => [.acquire .descriptor]
  | .mmapFails _ => [.acquire .descriptor, .release .descriptor]
  | .mapped f =>
    if f.st_size = 0 then [.acquire .descriptor, .release .descriptor]
    else
      [.acquire .descriptor, .acquire .mapping, .release .descriptor] ++
        (match extract hp f with
         | none => []
         | some _ =>
           if (decodeEhdr f.peek 0).e_ident.take 4 ≠ ELFMAG then []
           else [.release .mapping])

/-- Every resource taken is given back exactly once: as many releases as
acquisitions. -/
def Released (evs : List SysEvent) (r : Resource) : Prop :=
  evs.count (.release r) = evs.count (.acquire r)

instance (evs : List SysEvent) (r : Resource) : Decidable (Released evs r) := by
  unfold Released
  infer_instance

/-! ## Further notions and sample files -/

/-- Entry `i` of the list `l` is `s`, the last entry whose resolved name is `nm`. -/
def IsLast (l : List ElfSection) (i : Nat) (s : ElfSection) (nm : List Nat) : Prop :=
  l[i]? = some s ∧ s.sectionName = some nm ∧
    ∀ (j : Nat) (t : ElfSection), i < j → l[j]? = some t → t.sectionName ≠ some nm

/-- The sample with the entry size of `.dynsym` set to zero. -/
def zeroEntsizeFile : File :=
  File.ofBytes (sampleBytes.take (120 + 2 * 64 + 56) ++ enc 0 8
    ++ sampleBytes.drop (120 + 2 * 64 + 64))

/-- The sample with section 4 renamed to `.dynsym` (raw name field 11): two
sections carry that name, section 2 with two entries at 547 and section 4 with
one entry at 598. -/
def dupFile : File :=
  File.ofBytes (sampleBytes.take (120 + 4 * 64) ++ enc 11 4
    ++ sampleBytes.drop (120 + 4 * 64 + 4))

/-- The file `dupFile` with the entry size of its first section named
`.dynsym` (section 2) set to zero; section 4, the last of that name, is as in
`dupFile`. -/
def dupZeroFile : File :=
  File.ofBytes (sampleBytes.take (120 + 2 * 64 + 56) ++ enc 0 8
    ++ (sampleBytes.drop (120 + 2 * 64 + 64)).take 64 ++ enc 11 4
    ++ sampleBytes.drop (120 + 4 * 64 + 4))

/-- The sections that `getELFData` returns for `dupFile`. -/
def dupSections : List ElfSection :=
  List.zipWith (fun h n => { sectionHeader := h, sectionName := some n })
    [ mkShdr 0 0 0 0 0, mkShdr 1 3 504 43 0, mkShdr 11 11 547 48 24, mkShdr 19 3 595 3 0,
      mkShdr 11 2 598 24 24, mkShdr 35 3 622 3 0 ]
    [[], cstr ".shstrtab", cstr ".dynsym", cstr ".dynstr", cstr ".dynsym", cstr ".strtab"]

/-- What `getELFData` returns for `dupFile`: the dynamic symbols are those of
section 4, named in `.dynstr`; there is no static symbol. -/
def dupData : ElfData :=
  { elfHeader := sampleEhdr,
    programHeader := some [samplePhdr],
    sections := some dupSections,
    dynSymbols := { size := 1, list := some (List.zipWith
      (fun s n => { symbol := s, name := n }) sampleSymtab [some [102]]) },
    otherSymbols := { size := 0, list := none } }

/-- Section 4 of `dupFile` as returned. -/
def dupLast : ElfSection :=
  { sectionHeader := mkShdr 11 2 598 24 24, sectionName := some (cstr ".dynsym") }

/-- Section 3 of `dupFile` as returned. -/
def dupStr : ElfSection :=
  { sectionHeader := mkShdr 19 3 595 3 0, sectionName := some (cstr ".dynstr") }

/-- The sections that `getELFData` returns for the sample. -/
def sampleSections : List ElfSection :=
  List.zipWith (fun h n => { sectionHeader := h, sectionName := some n })
    sampleShdrs sampleNames

/-- A value with null pointers and counts that are not zero. -/
def emptyData : ElfData :=
  { elfHeader := sampleEhdr, programHeader := none, sections := none,
    dynSymbols := { size := 5, list := none }, otherSymbols := { size := 7, list := none } }

/-- Header of the large static file: no program headers, four section headers
at 64. -/
def staticEhdr : Elf64_Ehdr :=
  { e_ident := [0x7f, 69, 76, 70, 2, 1, 1, 0, 0, 0, 0, 0, 0, 0, 0, 0],
    e_type := 2, e_machine := 62, e_version := 1, e_entry := 0,
    e_phoff := 0, e_shoff := 64, e_flags := 0, e_ehsize := 64, e_phentsize := 56,
    e_phnum := 0, e_shentsize := 64, e_shnum := 4, e_shstrndx := 1 }

/-- Section headers of the large static file: `.symtab` holds `2 ^ 32`
entries of 24 bytes from offset 4096 on, `.strtab` is the single byte at 347. -/
def staticShdrs : List Elf64_Shdr :=
  [ mkShdr 0 0 0 0 0, mkShdr 1 3 320 27 0, mkShdr 11 2 4096 (24 * 2 ^ 32) 24,
    mkShdr 19 3 347 1 0 ]

/-- The first 348 bytes of the large static file; all later bytes are zero. -/
def staticHead : List Nat :=
  encEhdr staticEhdr ++ (staticShdrs.map encShdr).flatten
    ++ [0] ++ cstr ".shstrtab" ++ [0] ++ cstr ".symtab" ++ [0] ++ cstr ".strtab" ++ [0] ++ [0]

/-- An executable of about 103 GB with a `.symtab`/`.strtab` pair and no
`.dynsym`, whose static symbol table has `2 ^ 32` entries, all of them the
null symbol. -/
def staticFile : File :=
  { st_size := 4096 + 24 * 2 ^ 32, data := fun a => staticHead.getD a 0 }

/-- One part of the result seen from the heap.  Either nothing was obtained
and nothing is released; or an array `arr` and then the strings `names` were
obtained, and the strings are released first, the array last. -/
def Block (arr : Alloc) (allocs frees : List Alloc) : Prop :=
  (allocs = [] ∧ frees = []) ∨
  ∃ names, allocs = arr :: names ∧ frees = names ++ [arr] ∧ names.Nodup ∧ arr ∉ names ∧
    ∀ a, a ∈ names → a.group = arr.group

/-! ## Lemmas -/

/-! ### The mapping -/

theorem mapLen_ge (f : File) : f.st_size ≤ f.mapLen := by
  unfold File.mapLen PAGE_SIZE
  omega

theorem mapLen_pos (f : File) (h : f.st_size ≠ 0) : 4096 ≤ f.mapLen := by
  unfold File.mapLen PAGE_SIZE
  omega

theorem leWord_congr (rd1 rd2 : Nat → Nat) (n : Nat) :
    ∀ off, (∀ k, k < n → rd1 (off + k) = rd2 (off + k)) → leWord rd1 off n = leWord rd2 off n := by
  induction n with
  | zero => intro off _; rfl
  | succ n ih =>
    intro off h
    simp only [leWord]
    rw [ih (off + 1) (fun k hk => by have := h (k + 1) (by omega); simpa [Nat.add_assoc, Nat.add_comm 1 k] using this)]
    have := h 0 (by omega)
    simp at this
    rw [this]

theorem bytesAt_congr (rd1 rd2 : Nat → Nat) (n : Nat) :
    ∀ off, (∀ k, k < n → rd1 (off + k) = rd2 (off + k)) → bytesAt rd1 off n = bytesAt rd2 off n := by
  induction n with
  | zero => intro off _; rfl
  | succ n ih =>
    intro off h
    simp only [bytesAt]
    rw [ih (off + 1) (fun k hk => by have := h (k + 1) (by omega); simpa [Nat.add_assoc, Nat.add_comm 1 k] using this)]
    have := h 0 (by omega)
    simp at this
    rw [this]

theorem peek_eq_byte (f : File) (a : Nat) (h : a < f.st_size) : f.peek a = f.byte a := by
  simp [File.peek, h]

theorem decodeEhdr_file (f : File) (off : Nat) (h : off + 64 ≤ f.st_size) :
    decodeEhdr f.peek off = decodeEhdr f.byte off := by
  have hb : ∀ a n, off ≤ a → a + n ≤ off + 64 → leWord f.peek a n = leWord f.byte a n := by
    intro a n h1 h2
    exact leWord_congr _ _ n a (fun k hk => peek_eq_byte f _ (by omega))
  simp only [decodeEhdr]
  rw [bytesAt_congr f.peek f.byte 16 off (fun k hk => peek_eq_byte f _ (by omega))]
  rw [hb (off+16) 2, hb (off+18) 2, hb (off+20) 4, hb (off+24) 8, hb (off+32) 8, hb (off+40) 8, hb (off+48) 4, hb (off+52) 2, hb (off+54) 2, hb (off+56) 2, hb (off+58) 2, hb (off+60) 2, hb (off+62) 2] <;> omega

theorem take4_ident (rd : Nat → Nat) (off : Nat) :
    (decodeEhdr rd off).e_ident.take 4 = bytesAt rd off 4 := by
  simp [decodeEhdr, bytesAt]

theorem memcpyFrom_some {α : Type} (f : File) (dec : (Nat → Nat) → Nat → α) (off len : Nat)
    (h : off + len ≤ f.mapLen) : memcpyFrom f dec off len = some (dec f.peek off) := by
  simp [memcpyFrom, File.inMap, h]

theorem memcpyFrom_inv {α : Type} (f : File) (dec : (Nat → Nat) → Nat → α) (off len : Nat) (x : α)
    (h : memcpyFrom f dec off len = some x) : off + len ≤ f.mapLen ∧ x = dec f.peek off := by
  unfold memcpyFrom File.inMap at h
  by_cases hb : off + len ≤ f.mapLen
  · simp [hb] at h
    exact ⟨hb, h.symm⟩
  · simp [hb] at h

theorem extract_inv (hp : Heap) (f : File) (r : ElfData) (h : extract hp f = some r) :
    (¬ f.hasMagic ∧ r = zeroElfData) ∨ (f.hasMagic ∧ Steps hp f r) := by
  unfold extract at h
  cases h0 : memcpyFrom f decodeEhdr 0 64 with
  | none => simp [h0] at h
  | some eh =>
    have heh := (memcpyFrom_inv f decodeEhdr 0 64 eh h0).2
    subst heh
    simp only [h0] at h
    by_cases hm : f.hasMagic
    · right
      refine ⟨hm, ?_⟩
      have hm' : ¬ ((decodeEhdr f.peek 0).e_ident.take 4 ≠ ELFMAG) := by
        rw [take4_ident]; exact fun hc => hc hm
      rw [if_neg hm'] at h
      cases h1 : copyProgramHeader hp f (decodeEhdr f.peek 0) with
      | none => simp [h1] at h
      | some ph =>
        cases h2 : copySections hp f (decodeEhdr f.peek 0) with
        | none => simp [h1, h2] at h
        | some secs0 =>
          cases h3 : resolveSectionNames hp f (decodeEhdr f.peek 0) secs0 with
          | none => simp [h1, h2, h3] at h
          | some secs =>
            cases h4 : scanSections secs with
            | none => simp [h1, h2, h3, h4] at h
            | some sc =>
              cases h5 : copySymbols hp Alloc.dynList Alloc.dynName f
                  sc.dynsym_ptr sc.dynsym_str_ptr sc.num_dynsym with
              | none => simp [h1, h2, h3, h4, h5] at h
              | some dyn =>
                cases h6 : copySymbols hp Alloc.otherList Alloc.otherName f
                    sc.othersym_ptr sc.othersym_str_ptr sc.num_othersym with
                | none => simp [h1, h2, h3, h4, h5, h6] at h
                | some oth =>
                  simp [h1, h2, h3, h4, h5, h6] at h
                  subst h
                  exact ⟨secs0, sc, rfl, h1, h2, h3, h4, h5, h6⟩
    · left
      refine ⟨hm, ?_⟩
      have hm' : (decodeEhdr f.peek 0).e_ident.take 4 ≠ ELFMAG := by
        rw [take4_ident]; exact hm
      rw [if_pos hm'] at h
      exact (Option.some.inj h).symm

theorem extract_of_steps (hp : Heap) (f : File) (r : ElfData) (h0 : f.st_size ≠ 0)
    (hm : f.hasMagic) (h : Steps hp f r) : extract hp f = some r := by
  obtain ⟨secs0, sc, he, h1, h2, h3, h4, h5, h6⟩ := h
  have hlen := mapLen_pos f h0
  unfold extract
  rw [memcpyFrom_some f decodeEhdr 0 64 (by omega)]
  have hm' : ¬ ((decodeEhdr f.peek 0).e_ident.take 4 ≠ ELFMAG) := by
    rw [take4_ident]; exact fun hc => hc hm
  simp only [if_neg hm']
  rw [← he, h1, h2]
  simp only [h3, h4, h5, h6]

/-! ### Strings -/

theorem strScan_isCStr (f : File) (fuel : Nat) :
    ∀ off s, strScan f fuel off = some s → IsCStr f.peek (off + fuel) off s := by
  induction fuel with
  | zero => intro off s h; simp [strScan] at h
  | succ n ih =>
    intro off s h
    simp only [strScan] at h
    by_cases hz : f.peek off = 0
    · simp [hz] at h
      subst h
      refine ⟨by simp, by simp, by simp, by simpa using hz⟩
    · simp only [hz, if_false] at h
      cases ht : strScan f n (off + 1) with
      | none => simp [ht] at h
      | some t =>
        simp [ht] at h
        subst h
        obtain ⟨h1, h2, h3, h4⟩ := ih (off + 1) t ht
        refine ⟨by simp; omega, ?_, ?_, ?_⟩
        · intro k hk
          cases k with
          | zero => simp
          | succ k =>
            have := h2 k (by simpa using hk)
            simpa [Nat.add_assoc, Nat.add_comm 1 k] using this
        · intro b hb
          rcases List.mem_cons.mp hb with hb | hb
          · subst hb; exact hz
          · exact h3 b hb
        · simpa [Nat.add_assoc, Nat.add_comm 1 t.length] using h4

theorem isCStr_strScan (f : File) (fuel : Nat) :
    ∀ off s, IsCStr f.peek (off + fuel) off s → strScan f fuel off = some s := by
  induction fuel with
  | zero => intro off s h; have := h.1; omega
  | succ n ih =>
    intro off s h
    obtain ⟨h1, h2, h3, h4⟩ := h
    simp only [strScan]
    cases s with
    | nil =>
      have : f.peek off = 0 := by simpa using h4
      simp [this]
    | cons b t =>
      have hb : f.peek off = b := by simpa using h2 0 (by simp)
      have hb0 : b ≠ 0 := h3 b (by simp)
      have hne : ¬ f.peek off = 0 := by rw [hb]; exact hb0
      simp only [hne, if_false]
      have ht : IsCStr f.peek (off + 1 + n) (off + 1) t := by
        refine ⟨by simp at h1; omega, ?_, ?_, ?_⟩
        · intro k hk
          have := h2 (k + 1) (by simpa using hk)
          simpa [Nat.add_assoc, Nat.add_comm 1 k] using this
        · intro c hc; exact h3 c (List.mem_cons_of_mem _ hc)
        · simpa [Nat.add_assoc, Nat.add_comm 1 t.length] using h4
      rw [ih (off + 1) t ht, hb]
      rfl

theorem readCString_iff (f : File) (off : Nat) (s : List Nat) :
    readCString f off = some s ↔ IsCStr f.peek f.mapLen off s := by
  unfold readCString
  constructor
  · intro h
    have h' := strScan_isCStr f _ off s h
    have hlt : off < f.mapLen := by
      by_contra hc
      have : f.mapLen - off = 0 := by omega
      rw [this] at h
      simp [strScan] at h
    have : off + (f.mapLen - off) = f.mapLen := by omega
    rwa [this] at h'
  · intro h
    have hlt : off < f.mapLen := by have := h.1; omega
    have : off + (f.mapLen - off) = f.mapLen := by omega
    exact isCStr_strScan f _ off s (by rwa [this])

theorem isCStr_file_map (f : File) (off : Nat) (s : List Nat)
    (h : IsCStr f.byte f.st_size off s) : IsCStr f.peek f.mapLen off s := by
  obtain ⟨h1, h2, h3, h4⟩ := h
  have := mapLen_ge f
  refine ⟨by omega, ?_, h3, ?_⟩
  · intro k hk
    rw [peek_eq_byte f _ (by omega)]
    exact h2 k hk
  · rw [peek_eq_byte f _ (by omega)]
    exact h4

theorem isCStr_unique (f : File) (off : Nat) (s t : List Nat)
    (hs : IsCStr f.peek f.mapLen off s) (ht : IsCStr f.peek f.mapLen off t) : s = t := by
  have h1 := (readCString_iff f off s).mpr hs
  have h2 := (readCString_iff f off t).mpr ht
  rw [h1] at h2
  exact Option.some.inj h2

theorem isCStr_len_le (rd : Nat → Nat) (lim off : Nat) (s : List Nat) (k : Nat)
    (h : IsCStr rd lim off s) (hk : rd (off + k) = 0) : s.length ≤ k := by
  by_contra hc
  have hlt : k < s.length := by omega
  obtain ⟨_, h2, h3, _⟩ := h
  have := h2 k hlt
  rw [hk] at this
  have hmem : s.getD k 0 ∈ s := by
    rw [List.getD_eq_getElem _ _ hlt]
    exact List.getElem_mem _
  exact h3 _ hmem this.symm

theorem strScan_total (f : File) (fuel : Nat) :
    ∀ off, (∃ k, k < fuel ∧ f.peek (off + k) = 0) → ∃ s, strScan f fuel off = some s := by
  induction fuel with
  | zero => intro off ⟨k, hk, _⟩; omega
  | succ n ih =>
    intro off ⟨k, hk, hz⟩
    simp only [strScan]
    by_cases h0 : f.peek off = 0
    · exact ⟨[], by simp [h0]⟩
    · cases k with
      | zero => simp at hz; exact absurd hz h0
      | succ k =>
        obtain ⟨s, hs⟩ := ih (off + 1) ⟨k, by omega, by simpa [Nat.add_assoc, Nat.add_comm 1 k] using hz⟩
        exact ⟨f.peek off :: s, by simp [h0, hs]⟩

/-- A name that ends inside the file is read whole, and what is read is the
string of the file. -/
theorem readCString_terminated (f : File) (off : Nat) (h : f.terminated off) :
    ∃ s, readCString f off = some s ∧ IsCStr f.byte f.st_size off s := by
  obtain ⟨k, hk, hz⟩ := h
  have hge := mapLen_ge f
  have hpk : f.peek (off + k) = 0 := by rw [peek_eq_byte f _ (by omega)]; exact hz
  obtain ⟨s, hs⟩ := strScan_total f (f.mapLen - off) off ⟨k, by omega, hpk⟩
  have hs' : readCString f off = some s := hs
  refine ⟨s, hs', ?_⟩
  have hc := (readCString_iff f off s).mp hs'
  have hlen := isCStr_len_le _ _ _ _ k hc hpk
  obtain ⟨h1, h2, h3, h4⟩ := hc
  refine ⟨by omega, ?_, h3, ?_⟩
  · intro j hj
    rw [← peek_eq_byte f _ (by omega)]
    exact h2 j hj
  · rw [← peek_eq_byte f _ (by omega)]
    exact h4

/-- What `strdup` returns: the string read, copied when the block is served. -/
theorem strdup_inv (hp : Heap) (a : Alloc) (f : File) (off : Nat) (nm : Option (List Nat))
    (h : strdup hp a f off = some nm) :
    ∃ s, readCString f off = some s ∧ nm = if hp.serves a then some s else none := by
  unfold strdup at h
  cases hs : readCString f off with
  | none => simp [hs] at h
  | some s =>
    simp only [hs, Option.some.injEq] at h
    exact ⟨s, rfl, h.symm⟩

theorem strdup_of_read (hp : Heap) (a : Alloc) (f : File) (off : Nat) (s : List Nat)
    (h : readCString f off = some s) :
    strdup hp a f off = some (if hp.serves a then some s else none) := by
  unfold strdup
  rw [h]

theorem leWord_lt (rd : Nat → Nat) (hrd : ∀ a, rd a < 256) (n : Nat) :
    ∀ off, leWord rd off n < 256 ^ n := by
  induction n with
  | zero => intro off; simp [leWord]
  | succ n ih =>
    intro off
    simp only [leWord]
    have h1 := hrd off
    have h2 := ih (off + 1)
    rw [pow_succ]
    omega

theorem peek_lt (f : File) (a : Nat) : f.peek a < 256 := by
  unfold File.peek File.byte
  split
  · exact Nat.mod_lt _ (by norm_num)
  · norm_num

theorem mallocOk_of_lt (hp : Heap) (a : Alloc) (bytes : Nat) (h : bytes < 2 ^ 63)
    (hs : hp.serves a = true) : mallocOk hp a bytes = true := by
  unfold mallocOk
  rw [decide_eq_true h, hs]
  rfl

theorem mallocOk_serves (hp : Heap) (a : Alloc) (bytes : Nat)
    (h : mallocOk hp a bytes = true) : hp.serves a = true := by
  simp [mallocOk] at h
  exact h.2

theorem e_phnum_lt (f : File) : (decodeEhdr f.peek 0).e_phnum < 65536 := by
  have := leWord_lt f.peek (peek_lt f) 2 (0 + 56)
  simpa [decodeEhdr] using this

theorem e_shnum_lt (f : File) : (decodeEhdr f.peek 0).e_shnum < 65536 := by
  have := leWord_lt f.peek (peek_lt f) 2 (0 + 60)
  simpa [decodeEhdr] using this

/-! ### Program headers and sections -/

theorem decodePhdr_file (f : File) (off : Nat) (h : off + 56 ≤ f.st_size) :
    decodePhdr f.peek off = decodePhdr f.byte off := by
  have hb : ∀ a n, off ≤ a → a + n ≤ off + 56 → leWord f.peek a n = leWord f.byte a n := by
    intro a n h1 h2
    exact leWord_congr _ _ n a (fun k hk => peek_eq_byte f _ (by omega))
  simp only [decodePhdr]
  rw [hb off 4, hb (off+4) 4, hb (off+8) 8, hb (off+16) 8, hb (off+24) 8, hb (off+32) 8,
    hb (off+40) 8, hb (off+48) 8] <;> omega

theorem decodeShdr_file (f : File) (off : Nat) (h : off + 64 ≤ f.st_size) :
    decodeShdr f.peek off = decodeShdr f.byte off := by
  have hb : ∀ a n, off ≤ a → a + n ≤ off + 64 → leWord f.peek a n = leWord f.byte a n := by
    intro a n h1 h2
    exact leWord_congr _ _ n a (fun k hk => peek_eq_byte f _ (by omega))
  simp only [decodeShdr]
  rw [hb off 4, hb (off+4) 4, hb (off+8) 8, hb (off+16) 8, hb (off+24) 8, hb (off+32) 8,
    hb (off+40) 4, hb (off+44) 4, hb (off+48) 8, hb (off+56) 8] <;> omega

theorem decodeSym_file (f : File) (off : Nat) (h : off + 24 ≤ f.st_size) :
    decodeSym f.peek off = decodeSym f.byte off := by
  have hb : ∀ a n, off ≤ a → a + n ≤ off + 24 → leWord f.peek a n = leWord f.byte a n := by
    intro a n h1 h2
    exact leWord_congr _ _ n a (fun k hk => peek_eq_byte f _ (by omega))
  simp only [decodeSym]
  rw [hb off 4, hb (off+4) 1, hb (off+5) 1, hb (off+6) 2, hb (off+8) 8, hb (off+16) 8] <;> omega

theorem copyProgramHeader_absent (hp : Heap) (f : File) (h : Elf64_Ehdr)
    (h0 : h.e_phoff = 0 ∨ h.e_phnum = 0) : copyProgramHeader hp f h = some none := by
  unfold copyProgramHeader
  have : ¬ (h.e_phoff ≠ 0 ∧ h.e_phnum ≠ 0) := by
    rcases h0 with h0 | h0 <;> simp [h0]
  rw [if_neg this]

theorem copyProgramHeader_present (hp : Heap) (f : File) (h : Elf64_Ehdr)
    (h1 : h.e_phoff ≠ 0) (h2 : h.e_phnum ≠ 0)
    (hs : mallocOk hp Alloc.programHeader (h.e_phnum * 56) = true)
    (hin : h.e_phoff + 56 * h.e_phnum ≤ f.mapLen) :
    copyProgramHeader hp f h = some (some ((List.range h.e_phnum).map
      (fun i => decodePhdr f.peek (h.e_phoff + 56 * i)))) := by
  unfold copyProgramHeader
  rw [if_pos ⟨h1, h2⟩, if_pos hs]
  have : f.inMap h.e_phoff (h.e_phnum * 56) = true := by
    simp [File.inMap]; omega
  rw [if_pos this]

theorem copyProgramHeader_inv (hp : Heap) (f : File) (h : Elf64_Ehdr)
    (ph : Option (List Elf64_Phdr)) (hc : copyProgramHeader hp f h = some ph) :
    ((h.e_phoff = 0 ∨ h.e_phnum = 0) ∧ ph = none) ∨
    (h.e_phoff ≠ 0 ∧ h.e_phnum ≠ 0 ∧ h.e_phoff + 56 * h.e_phnum ≤ f.mapLen ∧
      hp.serves Alloc.programHeader = true ∧
      ph = some ((List.range h.e_phnum).map (fun i => decodePhdr f.peek (h.e_phoff + 56 * i)))) := by
  by_cases hq : h.e_phoff ≠ 0 ∧ h.e_phnum ≠ 0
  · right
    by_cases hs : mallocOk hp Alloc.programHeader (h.e_phnum * 56) = true
    · by_cases hin : h.e_phoff + 56 * h.e_phnum ≤ f.mapLen
      · rw [copyProgramHeader_present hp f h hq.1 hq.2 hs hin] at hc
        exact ⟨hq.1, hq.2, hin, mallocOk_serves _ _ _ hs, (Option.some.inj hc).symm⟩
      · unfold copyProgramHeader at hc
        rw [if_pos hq, if_pos hs] at hc
        have : ¬ (f.inMap h.e_phoff (h.e_phnum * 56) = true) := by
          simp [File.inMap]; omega
        rw [if_neg this] at hc
        exact absurd hc (by simp)
    · unfold copyProgramHeader at hc
      rw [if_pos hq, if_neg hs] at hc
      exact absurd hc (by simp)
  · left
    have h0 : h.e_phoff = 0 ∨ h.e_phnum = 0 := by
      by_contra hc'
      exact hq ⟨fun h => hc' (Or.inl h), fun h => hc' (Or.inr h)⟩
    rw [copyProgramHeader_absent hp f h h0] at hc
    exact ⟨h0, (Option.some.inj hc).symm⟩

theorem readSections_inv (f : File) (n : Nat) :
    ∀ off l, readSections f off n = some l →
      l.length = n ∧ ∀ i, i < n → off + 64 * (i + 1) ≤ f.mapLen ∧
        l[i]? = some { sectionHeader := decodeShdr f.peek (off + 64 * i), sectionName := none } := by
  induction n with
  | zero =>
    intro off l h
    simp [readSections] at h
    subst h
    simp
  | succ n ih =>
    intro off l h
    simp only [readSections] at h
    cases h1 : memcpyFrom f decodeShdr off 64 with
    | none => simp [h1] at h
    | some sh =>
      cases h2 : readSections f (off + 64) n with
      | none => simp [h1, h2] at h
      | some tl =>
        simp [h1, h2] at h
        subst h
        obtain ⟨hlen, hsh⟩ := memcpyFrom_inv f decodeShdr off 64 sh h1
        obtain ⟨htl, hall⟩ := ih (off + 64) tl h2
        refine ⟨by simp [htl], ?_⟩
        intro i hi
        cases i with
        | zero => exact ⟨by omega, by simp [hsh]⟩
        | succ i =>
          obtain ⟨ha, hb⟩ := hall i (by omega)
          refine ⟨by omega, ?_⟩
          simp only [List.getElem?_cons_succ]
          rw [hb]
          have : off + 64 + 64 * i = off + 64 * (i + 1) := by omega
          rw [this]

theorem readSections_total (f : File) (n : Nat) :
    ∀ off, off + 64 * n ≤ f.mapLen → ∃ l, readSections f off n = some l := by
  induction n with
  | zero => intro off _; exact ⟨[], by simp [readSections]⟩
  | succ n ih =>
    intro off h
    obtain ⟨tl, htl⟩ := ih (off + 64) (by omega)
    simp only [readSections]
    rw [memcpyFrom_some f decodeShdr off 64 (by omega), htl]
    exact ⟨_, rfl⟩

theorem mapOpt_inv {α β : Type} (g : α → Option β) :
    ∀ (l : List α) (l' : List β), mapOpt g l = some l' →
      l'.length = l.length ∧
        ∀ (i : Nat) (a : α), l[i]? = some a → ∃ b, l'[i]? = some b ∧ g a = some b := by
  intro l
  induction l with
  | nil =>
    intro l' h
    simp [mapOpt] at h
    subst h
    simp
  | cons a l ih =>
    intro l' h
    simp only [mapOpt] at h
    cases h1 : g a with
    | none => simp [h1] at h
    | some b =>
      cases h2 : mapOpt g l with
      | none => simp [h1, h2] at h
      | some bs =>
        simp [h1, h2] at h
        subst h
        obtain ⟨hl, hall⟩ := ih bs h2
        refine ⟨by simp [hl], ?_⟩
        intro i x hx
        cases i with
        | zero =>
          simp at hx
          subst hx
          exact ⟨b, by simp, h1⟩
        | succ i =>
          simp only [List.getElem?_cons_succ] at hx ⊢
          exact hall i x hx

theorem mapOpt_total {α β : Type} (g : α → Option β) :
    ∀ (l : List α), (∀ a, a ∈ l → ∃ b, g a = some b) → ∃ l', mapOpt g l = some l' := by
  intro l
  induction l with
  | nil => intro _; exact ⟨[], rfl⟩
  | cons a l ih =>
    intro h
    obtain ⟨b, hb⟩ := h a (by simp)
    obtain ⟨bs, hbs⟩ := ih (fun x hx => h x (List.mem_cons_of_mem _ hx))
    exact ⟨b :: bs, by simp [mapOpt, hb, hbs]⟩

/-! ### The scan for the symbol sections -/

theorem tracks_nil {α : Type} (nm : List Nat) (a : α) (val : ElfSection → α) :
    Tracks nm [] a a val := by
  refine ⟨fun _ => rfl, ?_⟩
  intro s h
  simp [lastSec] at h

theorem tracks_cons {α : Type} (nm nm0 : List Nat) (s : ElfSection) (l : List ElfSection)
    (before mid after : α) (val : ElfSection → α)
    (hs : s.sectionName = some nm0)
    (hmid : mid = if nm0 = nm then val s else before)
    (h : Tracks nm l mid after val) : Tracks nm (s :: l) before after val := by
  obtain ⟨h1, h2⟩ := h
  constructor
  · intro hn
    simp only [lastSec] at hn
    cases hl : lastSec nm l with
    | some t => simp [hl] at hn
    | none =>
      simp only [hl, hs] at hn
      have hne : ¬ nm0 = nm := by
        intro hc; subst hc; simp at hn
      rw [h1 hl, hmid, if_neg hne]
  · intro t ht
    simp only [lastSec] at ht
    cases hl : lastSec nm l with
    | some u =>
      simp only [hl] at ht
      rw [← Option.some.inj ht]
      exact h2 u hl
    | none =>
      simp only [hl, hs] at ht
      by_cases hc : nm0 = nm
      · subst hc
        simp at ht
        subst ht
        rw [h1 hl, hmid, if_pos rfl]
      · have : ¬ (some nm0 = some nm) := fun h => hc (Option.some.inj h)
        simp [this] at ht

theorem scanStep_inv (st st1 : SymScan) (s : ElfSection) (h : scanStep st s = some st1) :
    ∃ nm, s.sectionName = some nm ∧
      ((nm = cstr ".dynsym" ∨ nm = cstr ".symtab") → s.sectionHeader.sh_entsize ≠ 0) ∧
      st1.dynsym_ptr = (if nm = cstr ".dynsym" then some s.sectionHeader.sh_offset else st.dynsym_ptr) ∧
      st1.num_dynsym = (if nm = cstr ".dynsym" then s.count else st.num_dynsym) ∧
      st1.othersym_ptr = (if nm = cstr ".symtab" then some s.sectionHeader.sh_offset else st.othersym_ptr) ∧
      st1.num_othersym = (if nm = cstr ".symtab" then s.count else st.num_othersym) ∧
      st1.dynsym_str_ptr = (if nm = cstr ".dynstr" then some s.sectionHeader.sh_offset else st.dynsym_str_ptr) ∧
      st1.othersym_str_ptr = (if nm = cstr ".strtab" then some s.sectionHeader.sh_offset else st.othersym_str_ptr) := by
  unfold scanStep at h
  cases hn : s.sectionName with
  | none => simp [hn] at h
  | some nm =>
    refine ⟨nm, rfl, ?_⟩
    simp only [hn] at h
    by_cases h1 : nm = cstr ".dynsym" <;> by_cases h2 : nm = cstr ".symtab" <;>
      by_cases h3 : nm = cstr ".dynstr" <;> by_cases h4 : nm = cstr ".strtab" <;>
      by_cases he : s.sectionHeader.sh_entsize = 0 <;>
      (first | simp only [if_pos h1] at h ⊢ | simp only [if_neg h1] at h ⊢) <;>
      (first | simp only [if_pos h2] at h ⊢ | simp only [if_neg h2] at h ⊢) <;>
      (first | simp only [if_pos h3] at h ⊢ | simp only [if_neg h3] at h ⊢) <;>
      (first | simp only [if_pos h4] at h ⊢ | simp only [if_neg h4] at h ⊢) <;>
      (first | simp only [if_pos he] at h | simp only [if_neg he] at h | skip) <;>
      first
        | (simp only [Option.some.injEq] at h
           subst h
           simp [he, ElfSection.count]
           try exact ⟨h1, h2⟩)
        | simp at h

theorem scanFrom_inv (l : List ElfSection) :
    ∀ st st1, scanFrom st l = some st1 →
      (∀ s, s ∈ l → ∃ nm, s.sectionName = some nm ∧
        ((nm = cstr ".dynsym" ∨ nm = cstr ".symtab") → s.sectionHeader.sh_entsize ≠ 0)) ∧
      Tracks (cstr ".dynsym") l st.dynsym_ptr st1.dynsym_ptr
        (fun s => some s.sectionHeader.sh_offset) ∧
      Tracks (cstr ".dynsym") l st.num_dynsym st1.num_dynsym ElfSection.count ∧
      Tracks (cstr ".symtab") l st.othersym_ptr st1.othersym_ptr
        (fun s => some s.sectionHeader.sh_offset) ∧
      Tracks (cstr ".symtab") l st.num_othersym st1.num_othersym ElfSection.count ∧
      Tracks (cstr ".dynstr") l st.dynsym_str_ptr st1.dynsym_str_ptr
        (fun s => some s.sectionHeader.sh_offset) ∧
      Tracks (cstr ".strtab") l st.othersym_str_ptr st1.othersym_str_ptr
        (fun s => some s.sectionHeader.sh_offset) := by
  induction l with
  | nil =>
    intro st st1 h
    simp only [scanFrom, Option.some.injEq] at h
    subst h
    exact ⟨by simp, tracks_nil _ _ _, tracks_nil _ _ _, tracks_nil _ _ _, tracks_nil _ _ _,
      tracks_nil _ _ _, tracks_nil _ _ _⟩
  | cons s l ih =>
    intro st st1 h
    simp only [scanFrom] at h
    cases hs : scanStep st s with
    | none => simp [hs] at h
    | some st2 =>
      simp only [hs] at h
      obtain ⟨nm, hnm, hent, e1, e2, e3, e4, e5, e6⟩ := scanStep_inv st st2 s hs
      obtain ⟨hall, t1, t2, t3, t4, t5, t6⟩ := ih st2 st1 h
      refine ⟨?_, tracks_cons _ nm s l _ _ _ _ hnm e1 t1, tracks_cons _ nm s l _ _ _ _ hnm e2 t2,
        tracks_cons _ nm s l _ _ _ _ hnm e3 t3, tracks_cons _ nm s l _ _ _ _ hnm e4 t4,
        tracks_cons _ nm s l _ _ _ _ hnm e5 t5, tracks_cons _ nm s l _ _ _ _ hnm e6 t6⟩
      intro x hx
      rcases List.mem_cons.mp hx with hx | hx
      · subst hx; exact ⟨nm, hnm, hent⟩
      · exact hall x hx

theorem scanStep_total (st : SymScan) (s : ElfSection) (nm : List Nat)
    (hn : s.sectionName = some nm)
    (he : (nm = cstr ".dynsym" ∨ nm = cstr ".symtab") → s.sectionHeader.sh_entsize ≠ 0) :
    ∃ st1, scanStep st s = some st1 := by
  unfold scanStep
  simp only [hn]
  by_cases h1 : nm = cstr ".dynsym" <;> by_cases h2 : nm = cstr ".symtab" <;>
    (first | simp only [if_pos h1] | simp only [if_neg h1]) <;>
    (first | simp only [if_pos h2] | simp only [if_neg h2]) <;>
    (first
      | (have he' := he (Or.inl h1)
         simp only [if_neg he']
         exact ⟨_, rfl⟩)
      | (have he' := he (Or.inr h2)
         simp only [if_neg he']
         exact ⟨_, rfl⟩)
      | exact ⟨_, rfl⟩)

theorem scanFrom_total (l : List ElfSection) :
    ∀ st, (∀ s, s ∈ l → ∃ nm, s.sectionName = some nm ∧
        ((nm = cstr ".dynsym" ∨ nm = cstr ".symtab") → s.sectionHeader.sh_entsize ≠ 0)) →
      ∃ st1, scanFrom st l = some st1 := by
  induction l with
  | nil => intro st _; exact ⟨st, rfl⟩
  | cons s l ih =>
    intro st h
    obtain ⟨nm, hn, he⟩ := h s (by simp)
    obtain ⟨st2, hst2⟩ := scanStep_total st s nm hn he
    obtain ⟨st1, hst1⟩ := ih st2 (fun x hx => h x (List.mem_cons_of_mem _ hx))
    exact ⟨st1, by simp only [scanFrom, hst2, hst1]⟩

theorem lastSec_none (nm : List Nat) (l : List ElfSection)
    (h : ∀ s, s ∈ l → s.sectionName ≠ some nm) : lastSec nm l = none := by
  induction l with
  | nil => rfl
  | cons s l ih =>
    simp only [lastSec]
    rw [ih (fun x hx => h x (List.mem_cons_of_mem _ hx))]
    simp [h s (by simp)]

theorem lastSec_some_inv (nm : List Nat) (l : List ElfSection) :
    ∀ s, lastSec nm l = some s →
      s.sectionName = some nm ∧ ∃ i : Nat, l[i]? = some s ∧
        ∀ (j : Nat) (t : ElfSection), i < j → l[j]? = some t → t.sectionName ≠ some nm := by
  induction l with
  | nil => intro s h; simp [lastSec] at h
  | cons a l ih =>
    intro s h
    simp only [lastSec] at h
    cases hl : lastSec nm l with
    | some t =>
      simp only [hl, Option.some.injEq] at h
      subst h
      obtain ⟨h1, i, h2, h3⟩ := ih t hl
      refine ⟨h1, i + 1, by simpa using h2, ?_⟩
      intro j u hj hu
      cases j with
      | zero => omega
      | succ j =>
        simp only [List.getElem?_cons_succ] at hu
        exact h3 j u (by omega) hu
    | none =>
      simp only [hl] at h
      by_cases ha : a.sectionName = some nm
      · simp only [ha, if_true, Option.some.injEq] at h
        subst h
        refine ⟨ha, 0, by simp, ?_⟩
        intro j u hj hu
        cases j with
        | zero => omega
        | succ j =>
          simp only [List.getElem?_cons_succ] at hu
          intro hc
          have : lastSec nm l ≠ none := by
            intro hn
            clear hj
            induction l generalizing j with
            | nil => simp at hu
            | cons b l ih2 =>
              simp only [lastSec] at hn
              cases hl2 : lastSec nm l with
              | some _ => simp [hl2] at hn
              | none =>
                simp only [hl2] at hn
                cases j with
                | zero =>
                  simp at hu
                  subst hu
                  simp [hc] at hn
                | succ j =>
                  simp only [List.getElem?_cons_succ] at hu
                  exact ih2 (fun _ h => by simp [hl2] at h) hl2 j hu hl2
          exact this hl
      · simp [ha] at h

theorem lastSec_of_index (nm : List Nat) (l : List ElfSection) (i : Nat) (s : ElfSection)
    (hi : l[i]? = some s) (hs : s.sectionName = some nm)
    (hlast : ∀ (j : Nat) (t : ElfSection), i < j → l[j]? = some t → t.sectionName ≠ some nm) :
    lastSec nm l = some s := by
  induction l generalizing i with
  | nil => simp at hi
  | cons a l ih =>
    simp only [lastSec]
    cases i with
    | zero =>
      simp at hi
      subst hi
      have : lastSec nm l = none := by
        apply lastSec_none
        intro x hx
        obtain ⟨j, hj⟩ := List.getElem?_of_mem hx
        exact hlast (j + 1) x (by omega) (by simpa using hj)
      rw [this]
      simp [hs]
    | succ i =>
      simp only [List.getElem?_cons_succ] at hi
      rw [ih i hi (fun j t hj ht => hlast (j + 1) t (by omega) (by simpa using ht))]

/-! ### Symbols -/

theorem toInt32_range (q : Nat) : -2 ^ 31 ≤ toInt32 q ∧ toInt32 q < 2 ^ 31 := by
  unfold toInt32
  split <;> omega

theorem toInt32_small (q : Nat) (h : q < 2 ^ 31) : toInt32 q = (q : Int) := by
  unfold toInt32
  have : q % 2 ^ 32 = q := Nat.mod_eq_of_lt (by omega)
  rw [this, if_pos h]

theorem toInt32_le (q : Nat) : toInt32 q ≤ (q : Int) := by
  unfold toInt32
  have : q % 2 ^ 32 ≤ q := Nat.mod_le _ _
  split <;> omega

theorem mallocOk_pos (hp : Heap) (a : Alloc) (num : Int) (h0 : 0 < num) (h1 : num < 2 ^ 31) :
    mallocOk hp a (symArrayBytes num) = hp.serves a := by
  have : symArrayBytes num < 2 ^ 63 := by
    unfold symArrayBytes
    omega
  unfold mallocOk
  rw [decide_eq_true this]
  simp

theorem mallocOk_neg (hp : Heap) (a : Alloc) (num : Int) (h0 : num < 0) (h1 : -2 ^ 31 ≤ num) :
    mallocOk hp a (symArrayBytes num) = false := by
  have : ¬ symArrayBytes num < 2 ^ 63 := by
    unfold symArrayBytes
    omega
  unfold mallocOk
  rw [decide_eq_false this]
  simp

theorem readSymbols_inv (hp : Heap) (mk : Nat → Alloc) (f : File) (strtab : Option Nat)
    (n : Nat) :
    ∀ off i0 l, readSymbols hp mk f strtab off i0 n = some l →
      l.length = n ∧ ∀ i, i < n → off + 24 * (i + 1) ≤ f.mapLen ∧
        ∃ nm, l[i]? = some { symbol := decodeSym f.peek (off + 24 * i), name := nm } ∧
          SymName hp (mk (i0 + i)) f strtab (decodeSym f.peek (off + 24 * i)).st_name nm := by
  induction n with
  | zero =>
    intro off i0 l h
    simp [readSymbols] at h
    subst h
    simp
  | succ n ih =>
    intro off i0 l h
    simp only [readSymbols] at h
    cases h1 : memcpyFrom f decodeSym off 24 with
    | none => simp [h1] at h
    | some sym =>
      obtain ⟨hlen, hsym⟩ := memcpyFrom_inv f decodeSym off 24 sym h1
      subst hsym
      simp only [h1] at h
      have hname : ∀ nm : Option (List Nat),
          (if (decodeSym f.peek off).st_name ≠ 0 then
            match strtab with
            | none => none
            | some t => strdup hp (mk i0) f (t + (decodeSym f.peek off).st_name)
          else some none) = some nm →
            SymName hp (mk i0) f strtab (decodeSym f.peek off).st_name nm := by
        intro nm hnm
        by_cases hz : (decodeSym f.peek off).st_name = 0
        · left
          simp [hz] at hnm
          exact ⟨hz, hnm.symm⟩
        · right
          rw [if_pos hz] at hnm
          cases strtab with
          | none => simp at hnm
          | some t =>
            simp only at hnm
            obtain ⟨s, hs, hn⟩ := strdup_inv hp _ f _ nm hnm
            exact ⟨hz, t, s, rfl, hs, hn⟩
      generalize hg : (if (decodeSym f.peek off).st_name ≠ 0 then
            match strtab with
            | none => none
            | some t => strdup hp (mk i0) f (t + (decodeSym f.peek off).st_name)
          else some none) = onm at h hname
      cases onm with
      | none => simp at h
      | some nm =>
        simp only at h
        cases h2 : readSymbols hp mk f strtab (off + 24) (i0 + 1) n with
        | none => simp [h2] at h
        | some tl =>
          simp [h2] at h
          subst h
          obtain ⟨htl, hall⟩ := ih (off + 24) (i0 + 1) tl h2
          refine ⟨by simp [htl], ?_⟩
          intro i hi
          cases i with
          | zero => exact ⟨by omega, nm, by simp, hname nm rfl⟩
          | succ i =>
            obtain ⟨ha, nm', hb, hc⟩ := hall i (by omega)
            have e : off + 24 + 24 * i = off + 24 * (i + 1) := by omega
            have e2 : i0 + 1 + i = i0 + (i + 1) := by omega
            rw [e] at hb hc
            rw [e2] at hc
            exact ⟨by omega, nm', by simpa using hb, hc⟩

theorem readSymbols_total (hp : Heap) (mk : Nat → Alloc) (f : File) (strtab : Option Nat)
    (n : Nat) :
    ∀ off i0, (∀ i, i < n → off + 24 * (i + 1) ≤ f.mapLen ∧
        ((decodeSym f.peek (off + 24 * i)).st_name ≠ 0 →
          ∃ t s, strtab = some t ∧
            readCString f (t + (decodeSym f.peek (off + 24 * i)).st_name) = some s)) →
      ∃ l, readSymbols hp mk f strtab off i0 n = some l := by
  induction n with
  | zero => intro off i0 _; exact ⟨[], by simp [readSymbols]⟩
  | succ n ih =>
    intro off i0 h
    obtain ⟨h0, hn0⟩ := h 0 (by omega)
    simp only [Nat.mul_zero, Nat.add_zero] at hn0
    obtain ⟨tl, htl⟩ := ih (off + 24) (i0 + 1) (fun i hi => by
      obtain ⟨ha, hb⟩ := h (i + 1) (by omega)
      have e : off + 24 + 24 * i = off + 24 * (i + 1) := by omega
      rw [e]
      exact ⟨by omega, hb⟩)
    simp only [readSymbols]
    rw [memcpyFrom_some f decodeSym off 24 (by omega)]
    by_cases hz : (decodeSym f.peek off).st_name = 0
    · simp [hz, htl]
    · obtain ⟨t, s, ht, hs⟩ := hn0 hz
      subst ht
      simp [hz, strdup_of_read hp _ f _ s hs, htl]

theorem copySymbols_absent (hp : Heap) (arr : Alloc) (mk : Nat → Alloc) (f : File)
    (ptr strtab : Option Nat) (num : Int) (h : ptr = none ∨ num = 0) :
    copySymbols hp arr mk f ptr strtab num = some { size := 0, list := none } := by
  unfold copySymbols
  cases ptr with
  | none => rfl
  | some off =>
    rcases h with h | h
    · simp at h
    · simp [h]

theorem copySymbols_pos (hp : Heap) (arr : Alloc) (mk : Nat → Alloc) (f : File) (off : Nat)
    (strtab : Option Nat) (num : Int) (h0 : 0 < num) (h1 : num < 2 ^ 31)
    (hs : hp.serves arr = true) :
    copySymbols hp arr mk f (some off) strtab num =
      (readSymbols hp mk f strtab off 0 num.toNat).map
        (fun l => { size := num, list := some l }) := by
  unfold copySymbols
  have hne : num ≠ 0 := by omega
  simp only [hne, if_false, mallocOk_pos hp arr num h0 h1, hs, if_true]
  cases readSymbols hp mk f strtab off 0 num.toNat <;> rfl

/-- A refused array with a positive count: the first iteration of the loop
writes through the null pointer. -/
theorem copySymbols_refused (hp : Heap) (arr : Alloc) (mk : Nat → Alloc) (f : File) (off : Nat)
    (strtab : Option Nat) (num : Int) (h0 : 0 < num) (hs : hp.serves arr = false) :
    copySymbols hp arr mk f (some off) strtab num = none := by
  unfold copySymbols
  have hne : num ≠ 0 := by omega
  have ht : num.toNat ≠ 0 := by omega
  simp [hne, mallocOk, hs, ht]

theorem copySymbols_neg (hp : Heap) (arr : Alloc) (mk : Nat → Alloc) (f : File) (off : Nat)
    (strtab : Option Nat) (num : Int) (h0 : num < 0) (h1 : -2 ^ 31 ≤ num) :
    copySymbols hp arr mk f (some off) strtab num = some { size := num, list := none } := by
  unfold copySymbols
  have hne : num ≠ 0 := by omega
  have ht : num.toNat = 0 := by omega
  simp [hne, mallocOk_neg hp arr num h0 h1, ht]

/-! ### Sections of a well-formed file -/

theorem ehdr_wf (f : File) (wf : WellFormed f) : decodeEhdr f.peek 0 = f.ehdr :=
  decodeEhdr_file f 0 (by have := wf.header; omega)

theorem copySections_absent (hp : Heap) (f : File) (h : Elf64_Ehdr)
    (h0 : ¬ (h.e_shoff ≠ 0 ∧ h.e_shnum ≠ 0)) : copySections hp f h = some none := by
  unfold copySections
  rw [if_neg h0]

theorem copySections_inv (hp : Heap) (f : File) (h : Elf64_Ehdr)
    (secs0 : Option (List ElfSection)) (hc : copySections hp f h = some secs0) :
    (¬ (h.e_shoff ≠ 0 ∧ h.e_shnum ≠ 0) ∧ secs0 = none) ∨
    ((h.e_shoff ≠ 0 ∧ h.e_shnum ≠ 0) ∧ hp.serves Alloc.sections = true ∧
      ∃ l, secs0 = some l ∧ readSections f h.e_shoff h.e_shnum = some l) := by
  by_cases hs : h.e_shoff ≠ 0 ∧ h.e_shnum ≠ 0
  · right
    unfold copySections at hc
    rw [if_pos hs] at hc
    by_cases hm : mallocOk hp Alloc.sections (h.e_shnum * 72) = true
    · rw [if_pos hm] at hc
      cases hr : readSections f h.e_shoff h.e_shnum with
      | none => simp [hr] at hc
      | some l =>
        simp [hr] at hc
        exact ⟨hs, mallocOk_serves _ _ _ hm, l, hc.symm, rfl⟩
    · rw [if_neg hm] at hc
      exact absurd hc (by simp)
  · left
    rw [copySections_absent hp f h hs] at hc
    exact ⟨hs, (Option.some.inj hc).symm⟩

theorem resolveName_inv (hp : Heap) (f : File) (secs : List ElfSection) (idx : Nat)
    (p : Nat × ElfSection) (s1 : ElfSection) (h : resolveName hp f secs idx p = some s1) :
    ∃ tab nm, secs[idx]? = some tab ∧
      readCString f (tab.sectionHeader.sh_offset + p.2.sectionHeader.sh_name) = some nm ∧
      s1 = { sectionHeader := p.2.sectionHeader,
             sectionName := if hp.serves (Alloc.sectionName p.1) then some nm else none } := by
  unfold resolveName at h
  cases ht : secs[idx]? with
  | none => simp [ht] at h
  | some tab =>
    simp only [ht] at h
    cases hn : strdup hp (Alloc.sectionName p.1) f
        (tab.sectionHeader.sh_offset + p.2.sectionHeader.sh_name) with
    | none => simp [hn] at h
    | some nm =>
      simp only [hn, Option.some.injEq] at h
      obtain ⟨s, hs, hnm⟩ := strdup_inv hp _ f _ nm hn
      subst hnm
      exact ⟨tab, s, rfl, hs, h.symm⟩

/-- What the two passes over the section table leave, in terms of the
mapping: the headers in table order, each with the string read at the offset
of the name table plus the raw name field, or with a null name when the
allocator refused the copy. -/
theorem sections_raw (hp : Heap) (f : File) (h : Elf64_Ehdr)
    (secs0 secs : Option (List ElfSection))
    (h1 : copySections hp f h = some secs0)
    (h2 : resolveSectionNames hp f h secs0 = some secs) :
    (¬ (h.e_shoff ≠ 0 ∧ h.e_shnum ≠ 0) ∧ secs = none) ∨
    ((h.e_shoff ≠ 0 ∧ h.e_shnum ≠ 0) ∧ h.e_shstrndx < h.e_shnum ∧
      hp.serves Alloc.sections = true ∧ ∃ l, secs = some l ∧
      l.length = h.e_shnum ∧ ∀ i, i < h.e_shnum → h.e_shoff + 64 * (i + 1) ≤ f.mapLen ∧
        ∃ nm, l[i]? = some { sectionHeader := decodeShdr f.peek (h.e_shoff + 64 * i),
                             sectionName :=
                               if hp.serves (Alloc.sectionName i) then some nm else none } ∧
          readCString f ((decodeShdr f.peek (h.e_shoff + 64 * h.e_shstrndx)).sh_offset +
            (decodeShdr f.peek (h.e_shoff + 64 * i)).sh_name) = some nm) := by
  rcases copySections_inv hp f h secs0 h1 with ⟨hs, he⟩ | ⟨hs, hsv, l0, he, hr⟩
  · left
    subst he
    simp only [resolveSectionNames, Option.some.injEq] at h2
    exact ⟨hs, h2.symm⟩
  · right
    subst he
    simp only [resolveSectionNames] at h2
    cases hm : mapOpt (resolveName hp f l0 h.e_shstrndx) l0.enum with
    | none => simp [hm] at h2
    | some l =>
      simp [hm] at h2
      subst h2
      obtain ⟨hlen0, hall0⟩ := readSections_inv f h.e_shnum h.e_shoff l0 hr
      obtain ⟨hlen, hall⟩ := mapOpt_inv _ l0.enum l hm
      have hen : ∀ (i : Nat) (s : ElfSection), l0[i]? = some s → l0.enum[i]? = some (i, s) := by
        intro i s hi
        rw [List.getElem?_enum, hi]
        rfl
      have hn0 : 0 < h.e_shnum := Nat.pos_of_ne_zero hs.2
      -- the entry of the name table was read in the first pass
      obtain ⟨b0, _, hb0⟩ := hall 0 _ (hen 0 _ (hall0 0 hn0).2)
      obtain ⟨tab, _, htab, _, _⟩ := resolveName_inv hp f l0 _ _ _ hb0
      have hidx : h.e_shstrndx < h.e_shnum := by
        have := (List.getElem?_eq_some_iff.mp htab).1
        omega
      have htab' := (hall0 _ hidx).2
      refine ⟨hs, hidx, hsv, l, rfl, by simpa [hlen0] using hlen, ?_⟩
      intro i hi
      obtain ⟨hin, hi0⟩ := hall0 i hi
      obtain ⟨b, hb, hg⟩ := hall i _ (hen i _ hi0)
      obtain ⟨tab2, nm, htab2, hnm, hb2⟩ := resolveName_inv hp f l0 _ _ _ hg
      rw [htab'] at htab2
      have := Option.some.inj htab2
      subst this
      subst hb2
      exact ⟨hin, nm, hb, hnm⟩

theorem sections_total (hp : Heap) (f : File) (h : Elf64_Ehdr)
    (hs : h.e_shoff ≠ 0 ∧ h.e_shnum ≠ 0)
    (hm : mallocOk hp Alloc.sections (h.e_shnum * 72) = true)
    (hin : h.e_shoff + 64 * h.e_shnum ≤ f.mapLen) (hidx : h.e_shstrndx < h.e_shnum)
    (hnames : ∀ i, i < h.e_shnum → ∃ nm,
      readCString f ((decodeShdr f.peek (h.e_shoff + 64 * h.e_shstrndx)).sh_offset +
        (decodeShdr f.peek (h.e_shoff + 64 * i)).sh_name) = some nm) :
    ∃ l0 l, copySections hp f h = some (some l0) ∧
      resolveSectionNames hp f h (some l0) = some (some l) := by
  obtain ⟨l0, hl0⟩ := readSections_total f h.e_shnum h.e_shoff hin
  obtain ⟨hlen0, hall0⟩ := readSections_inv f h.e_shnum h.e_shoff l0 hl0
  have htab := (hall0 _ hidx).2
  have : ∃ l, mapOpt (resolveName hp f l0 h.e_shstrndx) l0.enum = some l := by
    apply mapOpt_total
    intro a ha
    have hi : l0[a.1]? = some a.2 := List.mem_enum_iff_getElem?.mp ha
    have hlt : a.1 < h.e_shnum := by
      have := (List.getElem?_eq_some_iff.mp hi).1
      omega
    have hi' := (hall0 a.1 hlt).2
    rw [hi] at hi'
    have ha2 := Option.some.inj hi'
    obtain ⟨nm, hnm⟩ := hnames a.1 hlt
    refine ⟨{ sectionHeader := decodeShdr f.peek (h.e_shoff + 64 * a.1),
              sectionName := if hp.serves (Alloc.sectionName a.1) then some nm else none }, ?_⟩
    simp only [resolveName, htab, ha2]
    rw [strdup_of_read hp _ f _ nm hnm]
  obtain ⟨l, hl⟩ := this
  refine ⟨l0, l, ?_, ?_⟩
  · unfold copySections
    rw [if_pos hs, if_pos hm, hl0]
    rfl
  · simp only [resolveSectionNames, hl]
    rfl

/-! ### From the returned sections to the sections of the file -/

theorem secNamed_unique (f : File) (i : Nat) (a b : List Nat)
    (ha : f.secNamed i a) (hb : f.secNamed i b) : a = b :=
  isCStr_unique f _ a b (isCStr_file_map f _ a ha) (isCStr_file_map f _ b hb)

theorem sectionsOk_name (f : File) (l : List ElfSection) (hl : f.sectionsOk l)
    (i : Nat) (hi : i < f.ehdr.e_shnum) (s : ElfSection) (hs : l[i]? = some s) (nm : List Nat) :
    s.sectionHeader = f.shdr i ∧ (s.sectionName = some nm ↔ f.secNamed i nm) := by
  obtain ⟨nm0, h0, hn0⟩ := hl.2 i hi
  rw [hs] at h0
  have := Option.some.inj h0
  subst this
  refine ⟨rfl, ?_, ?_⟩
  · intro h
    simp only [Option.some.injEq] at h
    subst h
    exact hn0
  · intro h
    rw [secNamed_unique f i nm0 nm hn0 h]

theorem lastSec_none_inv (nm : List Nat) (l : List ElfSection) (h : lastSec nm l = none) :
    ∀ s, s ∈ l → s.sectionName ≠ some nm := by
  induction l with
  | nil => intro s hs; simp at hs
  | cons a l ih =>
    simp only [lastSec] at h
    cases hl : lastSec nm l with
    | some t => simp [hl] at h
    | none =>
      simp only [hl] at h
      intro s hs
      rcases List.mem_cons.mp hs with hs | hs
      · subst hs
        intro hc
        simp [hc] at h
      · exact ih hl s hs

theorem lastSec_file_none (f : File) (l : List ElfSection) (hl : f.sectionsOk l) (nm : List Nat)
    (h : lastSec nm l = none) : ∀ i, i < f.ehdr.e_shnum → ¬ f.secNamed i nm := by
  intro i hi hc
  obtain ⟨nm0, h0, hn0⟩ := hl.2 i hi
  have hmem : ({ sectionHeader := f.shdr i, sectionName := some nm0 } : ElfSection) ∈ l :=
    List.getElem?_mem h0
  have := lastSec_none_inv nm l h _ hmem
  exact this (by rw [secNamed_unique f i nm0 nm hn0 hc])

theorem lastSec_file_some (f : File) (l : List ElfSection) (hl : f.sectionsOk l) (nm : List Nat)
    (s : ElfSection) (h : lastSec nm l = some s) :
    ∃ i, f.lastNamed i nm ∧ s.sectionHeader = f.shdr i := by
  obtain ⟨hs, i, hi, hlast⟩ := lastSec_some_inv nm l s h
  have hlt : i < f.ehdr.e_shnum := by
    have := (List.getElem?_eq_some_iff.mp hi).1
    have := hl.1
    omega
  obtain ⟨e1, e2⟩ := sectionsOk_name f l hl i hlt s hi nm
  refine ⟨i, ⟨hlt, e2.mp hs, ?_⟩, e1⟩
  intro j hj hij hc
  obtain ⟨nm0, h0, hn0⟩ := hl.2 j hj
  have := hlast j _ hij h0
  exact this (by rw [secNamed_unique f j nm0 nm hn0 hc])

theorem lastNamed_unique (f : File) (nm : List Nat) (i j : Nat)
    (hi : f.lastNamed i nm) (hj : f.lastNamed j nm) : i = j := by
  obtain ⟨a1, a2, a3⟩ := hi
  obtain ⟨b1, b2, b3⟩ := hj
  by_contra hne
  rcases Nat.lt_or_gt_of_ne hne with h | h
  · exact a3 j b1 h b2
  · exact b3 i a1 h a2

theorem lastSec_of_lastNamed (f : File) (l : List ElfSection) (hl : f.sectionsOk l)
    (nm : List Nat) (i : Nat) (hi : f.lastNamed i nm) :
    lastSec nm l = some { sectionHeader := f.shdr i, sectionName := some nm } := by
  obtain ⟨a1, a2, a3⟩ := hi
  obtain ⟨nm0, h0, hn0⟩ := hl.2 i a1
  have e := secNamed_unique f i nm0 nm hn0 a2
  subst e
  apply lastSec_of_index nm0 l i _ h0 rfl
  intro j t hij ht hc
  have hlt : j < f.ehdr.e_shnum := by
    have := (List.getElem?_eq_some_iff.mp ht).1
    have := hl.1
    omega
  exact a3 j hlt hij ((sectionsOk_name f l hl j hlt t ht nm0).2.mp hc)

/-! ### Extraction from a well-formed file -/

theorem shdr_wf (f : File) (wf : WellFormed f) (hs : f.hasSections) (i : Nat)
    (hi : i < f.ehdr.e_shnum) :
    decodeShdr f.peek (f.ehdr.e_shoff + 64 * i) = f.shdr i := by
  have := wf.shdrs hs
  exact decodeShdr_file f _ (by omega)

/-- What the two passes over the section table return when the scan that
follows them completes: every name was copied, since the scan stops at a null
name. -/
theorem sections_inv (hp : Heap) (f : File) (h : Elf64_Ehdr)
    (secs0 secs : Option (List ElfSection)) (sc : SymScan)
    (h1 : copySections hp f h = some secs0)
    (h2 : resolveSectionNames hp f h secs0 = some secs)
    (h3 : scanSections secs = some sc) :
    (¬ (h.e_shoff ≠ 0 ∧ h.e_shnum ≠ 0) ∧ secs = none) ∨
    ((h.e_shoff ≠ 0 ∧ h.e_shnum ≠ 0) ∧ h.e_shstrndx < h.e_shnum ∧
      hp.serves Alloc.sections = true ∧ ∃ l, secs = some l ∧
      l.length = h.e_shnum ∧ ∀ i, i < h.e_shnum → h.e_shoff + 64 * (i + 1) ≤ f.mapLen ∧
        hp.serves (Alloc.sectionName i) = true ∧
        ∃ nm, l[i]? = some { sectionHeader := decodeShdr f.peek (h.e_shoff + 64 * i),
                             sectionName := some nm } ∧
          readCString f ((decodeShdr f.peek (h.e_shoff + 64 * h.e_shstrndx)).sh_offset +
            (decodeShdr f.peek (h.e_shoff + 64 * i)).sh_name) = some nm) := by
  rcases sections_raw hp f h secs0 secs h1 h2 with hc | ⟨hc, hidx, hsv, l, hl, hlen, hall⟩
  · exact Or.inl hc
  · right
    subst hl
    obtain ⟨hnames, _⟩ := scanFrom_inv l _ _ h3
    refine ⟨hc, hidx, hsv, l, rfl, hlen, ?_⟩
    intro i hi
    obtain ⟨hin, nm, ha, hb⟩ := hall i hi
    obtain ⟨nm', hn', _⟩ := hnames _ (List.getElem?_mem ha)
    have hserved : hp.serves (Alloc.sectionName i) = true := by
      by_contra hc'
      simp only [hc'] at hn'
      simp at hn'
    rw [hserved] at ha
    exact ⟨hin, hserved, nm, ha, hb⟩

/-- The copied names of a well-formed file are the names of its sections. -/
theorem sectionsOk_of_read (f : File) (wf : WellFormed f) (hs : f.hasSections)
    (l : List ElfSection) (hlen : l.length = f.ehdr.e_shnum)
    (hall : ∀ i, i < f.ehdr.e_shnum →
      ∃ nm, l[i]? = some { sectionHeader := decodeShdr f.peek (f.ehdr.e_shoff + 64 * i),
                           sectionName := some nm } ∧
        readCString f
          ((decodeShdr f.peek (f.ehdr.e_shoff + 64 * f.ehdr.e_shstrndx)).sh_offset +
            (decodeShdr f.peek (f.ehdr.e_shoff + 64 * i)).sh_name) = some nm) :
    f.sectionsOk l := by
  have hidx := wf.shstrndx hs
  refine ⟨hlen, ?_⟩
  intro i hi
  obtain ⟨nm, ha, hb⟩ := hall i hi
  rw [shdr_wf f wf hs _ hidx, shdr_wf f wf hs i hi] at hb
  rw [shdr_wf f wf hs i hi] at ha
  obtain ⟨s, h1, h2⟩ := readCString_terminated f _ (wf.names hs i hi)
  have e : f.nameOff i = (f.shdr f.ehdr.e_shstrndx).sh_offset + (f.shdr i).sh_name := rfl
  rw [e, hb] at h1
  have := Option.some.inj h1
  subst this
  exact ⟨nm, ha, h2⟩

/-- The sections that a run on a well-formed file returns are the sections
of the file, whatever the allocator answers. -/
theorem sections_wf_inv (hp : Heap) (f : File) (wf : WellFormed f) (hs : f.hasSections)
    (secs0 secs : Option (List ElfSection)) (sc : SymScan)
    (h1 : copySections hp f f.ehdr = some secs0)
    (h2 : resolveSectionNames hp f f.ehdr secs0 = some secs)
    (h3 : scanSections secs = some sc) :
    ∃ l, secs = some l ∧ f.sectionsOk l := by
  rcases sections_inv hp f f.ehdr secs0 secs sc h1 h2 h3 with ⟨hc, _⟩ |
    ⟨_, _, _, l, hl, hlen, hall⟩
  · exact absurd hs hc
  · refine ⟨l, hl, sectionsOk_of_read f wf hs l hlen ?_⟩
    intro i hi
    obtain ⟨_, _, nm, ha, hb⟩ := hall i hi
    exact ⟨nm, ha, hb⟩

theorem sections_wf (hp : Heap) (f : File) (wf : WellFormed f) (hs : f.hasSections)
    (hsv : hp.servesAll) :
    ∃ l0 l, copySections hp f f.ehdr = some (some l0) ∧
      resolveSectionNames hp f f.ehdr (some l0) = some (some l) ∧ f.sectionsOk l := by
  have hge := mapLen_ge f
  have hin := wf.shdrs hs
  have hidx := wf.shstrndx hs
  have hnames : ∀ i, i < f.ehdr.e_shnum → ∃ nm,
      readCString f ((decodeShdr f.peek (f.ehdr.e_shoff + 64 * f.ehdr.e_shstrndx)).sh_offset +
        (decodeShdr f.peek (f.ehdr.e_shoff + 64 * i)).sh_name) = some nm := by
    intro i hi
    rw [shdr_wf f wf hs _ hidx, shdr_wf f wf hs i hi]
    obtain ⟨s, h1, _⟩ := readCString_terminated f _ (wf.names hs i hi)
    exact ⟨s, h1⟩
  have hnum : f.ehdr.e_shnum < 65536 := by
    rw [← ehdr_wf f wf]
    exact e_shnum_lt f
  obtain ⟨l0, l, h1, h2⟩ := sections_total hp f f.ehdr hs
    (mallocOk_of_lt hp _ _ (by omega) (hsv _)) (by omega) hidx hnames
  refine ⟨l0, l, h1, h2, ?_⟩
  rcases sections_raw hp f f.ehdr _ _ h1 h2 with ⟨hc, _⟩ | ⟨_, _, _, l', hl', hlen, hall⟩
  · exact absurd hs hc
  · have := Option.some.inj hl'
    subst this
    apply sectionsOk_of_read f wf hs _ hlen
    intro i hi
    obtain ⟨_, nm, ha, hb⟩ := hall i hi
    rw [hsv (Alloc.sectionName i)] at ha
    exact ⟨nm, ha, hb⟩

theorem scan_wf (f : File) (wf : WellFormed f) (hs : f.hasSections) (l : List ElfSection)
    (hl : f.sectionsOk l) : ∃ sc, scanFrom SymScan.init l = some sc := by
  apply scanFrom_total
  intro s hmem
  obtain ⟨i, hi⟩ := List.getElem?_of_mem hmem
  have hlt : i < f.ehdr.e_shnum := by
    have := (List.getElem?_eq_some_iff.mp hi).1
    have := hl.1
    omega
  obtain ⟨nm, h0, hn⟩ := hl.2 i hlt
  rw [hi] at h0
  have := Option.some.inj h0
  subst this
  refine ⟨nm, rfl, ?_⟩
  intro hnm
  have : f.secNamed i (cstr ".dynsym") ∨ f.secNamed i (cstr ".symtab") := by
    rcases hnm with h | h
    · left; rw [← h]; exact hn
    · right; rw [← h]; exact hn
  exact (wf.symsec hs i hlt this).1

/-- The string table that the scan retains holds every name that the file
places in a section named `strName`. -/
theorem strtab_wf (f : File) (l : List ElfSection) (hl : f.sectionsOk l) (strName : List Nat)
    (strptr : Option Nat)
    (t3 : Tracks strName l none strptr (fun s => some s.sectionHeader.sh_offset))
    (name : Nat) (hok : f.strOk strName name) :
    ∃ j s, f.lastNamed j strName ∧ strptr = some (f.shdr j).sh_offset ∧
      readCString f ((f.shdr j).sh_offset + name) = some s ∧
      IsCStr f.byte f.st_size ((f.shdr j).sh_offset + name) s := by
  obtain ⟨⟨j0, hj0, hn0⟩, hterm⟩ := hok
  cases hls : lastSec strName l with
  | none => exact absurd hn0 (lastSec_file_none f l hl strName hls j0 hj0)
  | some s2 =>
    obtain ⟨j, hj, hsh⟩ := lastSec_file_some f l hl strName s2 hls
    have hp := t3.2 s2 hls
    simp only [hsh] at hp
    obtain ⟨s, h1, h2⟩ := readCString_terminated f _ (hterm j hj.1 hj.2.1)
    exact ⟨j, s, hj, hp, h1, h2⟩

/-- The symbol table that a run on a well-formed file returns, whatever the
allocator answers. -/
theorem table_wf_inv (hp : Heap) (arr : Alloc) (mk : Nat → Alloc) (f : File)
    (l : List ElfSection) (hl : f.sectionsOk l) (symName strName : List Nat)
    (hsym : ∀ i, i < f.ehdr.e_shnum → f.secNamed i symName →
      (f.shdr i).sh_entsize ≠ 0 ∧ (f.shdr i).sh_offset + 24 * f.symCount i ≤ f.st_size)
    (hnames : f.symNamesOk symName strName)
    (ptr strptr : Option Nat) (num : Int)
    (t1 : Tracks symName l none ptr (fun s => some s.sectionHeader.sh_offset))
    (t2 : Tracks symName l 0 num ElfSection.count)
    (t3 : Tracks strName l none strptr (fun s => some s.sectionHeader.sh_offset))
    (sl : ElfSymbolList) (h : copySymbols hp arr mk f ptr strptr num = some sl) :
    f.tableOkOn hp mk symName strName sl := by
  have hge := mapLen_ge f
  cases hls : lastSec symName l with
  | none =>
    have hq := t1.1 hls
    subst hq
    rw [copySymbols_absent hp arr mk f none strptr num (Or.inl rfl)] at h
    have hsl := (Option.some.inj h).symm
    refine ⟨fun _ => hsl, ?_⟩
    intro i hi
    exact absurd hi.2.1 (lastSec_file_none f l hl symName hls i hi.1)
  | some s =>
    obtain ⟨i0, hi0, hsh⟩ := lastSec_file_some f l hl symName s hls
    have hq := t1.2 s hls
    have hnum := t2.2 s hls
    simp only [hsh] at hq
    simp only [ElfSection.count, hsh] at hnum
    have hnum' : num = toInt32 (f.symCount i0) := hnum
    subst hq
    obtain ⟨hent, hin⟩ := hsym i0 hi0.1 hi0.2.1
    obtain ⟨hr1, hr2⟩ := toInt32_range (f.symCount i0)
    have hle := toInt32_le (f.symCount i0)
    have key : f.tableOn hp mk i0 strName sl := by
      rcases lt_trichotomy num 0 with hneg | hz | hpos
      · rw [copySymbols_neg hp arr mk f _ strptr num hneg (by omega)] at h
        have hsl := (Option.some.inj h).symm
        rw [hnum'] at hneg hsl
        exact ⟨fun h => by omega, fun _ => hsl, fun h => by omega⟩
      · rw [copySymbols_absent hp arr mk f _ strptr num (Or.inr hz)] at h
        have hsl := (Option.some.inj h).symm
        rw [hnum'] at hz
        exact ⟨fun _ => hsl, fun h => by omega, fun h => by omega⟩
      · by_cases hsv : hp.serves arr = true
        · rw [copySymbols_pos hp arr mk f _ strptr num hpos (by omega) hsv] at h
          cases hlst : readSymbols hp mk f strptr (f.shdr i0).sh_offset 0 num.toNat with
          | none => simp [hlst] at h
          | some lst =>
            simp only [hlst, Option.map_some', Option.some.injEq] at h
            subst h
            have hkk : ∀ k, k < num.toNat → k < f.symCount i0 ∧
                (f.shdr i0).sh_offset + 24 * (k + 1) ≤ f.st_size ∧
                decodeSym f.peek ((f.shdr i0).sh_offset + 24 * k) = f.symAt i0 k := by
              intro k hk
              have h1 : k < f.symCount i0 := by omega
              have h2 : (f.shdr i0).sh_offset + 24 * (k + 1) ≤ f.st_size := by omega
              exact ⟨h1, h2, decodeSym_file f _ (by omega)⟩
            obtain ⟨hlen, hall⟩ := readSymbols_inv hp mk f strptr num.toNat _ 0 lst hlst
            rw [hnum'] at hpos hlen hall hkk
            refine ⟨fun h => by omega, fun h => by omega, fun _ => ⟨hnum', lst, rfl, hlen, ?_⟩⟩
            intro k hk'
            obtain ⟨h1, h2, h3⟩ := hkk k hk'
            obtain ⟨_, nm, ha, hb⟩ := hall k hk'
            rw [h3, Nat.zero_add] at hb
            rw [h3] at ha
            refine ⟨nm, ha, ?_⟩
            rcases hb with ⟨hz, hn⟩ | ⟨hne, t, s', ht, hd, hn⟩
            · exact Or.inl ⟨hz, hn⟩
            · right
              obtain ⟨j, s2, hj, hq, hd2, hc⟩ :=
                strtab_wf f l hl strName strptr t3 _ (hnames i0 hi0.1 hi0.2.1 k h1 hne)
              rw [hq] at ht
              have := Option.some.inj ht
              subst this
              rw [hd2] at hd
              have := Option.some.inj hd
              subst this
              exact ⟨hne, j, s2, hj, hc, hn⟩
        · have hsv' : hp.serves arr = false := by simpa using hsv
          rw [copySymbols_refused hp arr mk f _ strptr num hpos hsv'] at h
          exact absurd h (by simp)
    refine ⟨?_, ?_⟩
    · intro hnone
      exact absurd hi0.2.1 (hnone i0 hi0.1)
    · intro i hi
      rw [lastNamed_unique f symName i i0 hi hi0]
      exact key

/-- The copy of a symbol table of a well-formed file completes when the
allocator serves its array. -/
theorem table_wf_total (hp : Heap) (arr : Alloc) (mk : Nat → Alloc) (f : File)
    (l : List ElfSection) (hl : f.sectionsOk l) (symName strName : List Nat)
    (hsym : ∀ i, i < f.ehdr.e_shnum → f.secNamed i symName →
      (f.shdr i).sh_entsize ≠ 0 ∧ (f.shdr i).sh_offset + 24 * f.symCount i ≤ f.st_size)
    (hnames : f.symNamesOk symName strName)
    (ptr strptr : Option Nat) (num : Int)
    (t1 : Tracks symName l none ptr (fun s => some s.sectionHeader.sh_offset))
    (t2 : Tracks symName l 0 num ElfSection.count)
    (t3 : Tracks strName l none strptr (fun s => some s.sectionHeader.sh_offset))
    (hsv : hp.serves arr = true) :
    ∃ sl, copySymbols hp arr mk f ptr strptr num = some sl := by
  have hge := mapLen_ge f
  cases hls : lastSec symName l with
  | none =>
    have hq := t1.1 hls
    subst hq
    exact ⟨_, copySymbols_absent hp arr mk f none strptr num (Or.inl rfl)⟩
  | some s =>
    obtain ⟨i0, hi0, hsh⟩ := lastSec_file_some f l hl symName s hls
    have hq := t1.2 s hls
    have hnum := t2.2 s hls
    simp only [hsh] at hq
    simp only [ElfSection.count, hsh] at hnum
    have hnum' : num = toInt32 (f.symCount i0) := hnum
    subst hq
    obtain ⟨hent, hin⟩ := hsym i0 hi0.1 hi0.2.1
    obtain ⟨hr1, hr2⟩ := toInt32_range (f.symCount i0)
    have hle := toInt32_le (f.symCount i0)
    rcases lt_trichotomy num 0 with hneg | hz | hpos
    · exact ⟨_, copySymbols_neg hp arr mk f _ strptr num hneg (by omega)⟩
    · exact ⟨_, copySymbols_absent hp arr mk f _ strptr num (Or.inr hz)⟩
    · rw [copySymbols_pos hp arr mk f _ strptr num hpos (by omega) hsv]
      obtain ⟨lst, hlst⟩ := readSymbols_total hp mk f strptr num.toNat
          (f.shdr i0).sh_offset 0 (by
        intro k hk
        have h1 : k < f.symCount i0 := by omega
        have h3 : decodeSym f.peek ((f.shdr i0).sh_offset + 24 * k) = f.symAt i0 k :=
          decodeSym_file f _ (by omega)
        refine ⟨by omega, ?_⟩
        rw [h3]
        intro hne
        obtain ⟨j, s', _, hq, hd, _⟩ :=
          strtab_wf f l hl strName strptr t3 _ (hnames i0 hi0.1 hi0.2.1 k h1 hne)
        exact ⟨_, s', hq, hd⟩)
      exact ⟨{ size := num, list := some lst }, by rw [hlst]; rfl⟩

theorem programHeader_wf_inv (hp : Heap) (f : File) (wf : WellFormed f)
    (ph : Option (List Elf64_Phdr)) (h : copyProgramHeader hp f f.ehdr = some ph) :
    (f.ehdr.e_phoff = 0 ∨ f.ehdr.e_phnum = 0 → ph = none) ∧
    (f.ehdr.e_phoff ≠ 0 → f.ehdr.e_phnum ≠ 0 →
      ph = some ((List.range f.ehdr.e_phnum).map f.phdr)) := by
  have hge := mapLen_ge f
  rcases copyProgramHeader_inv hp f f.ehdr ph h with ⟨h0, hq⟩ | ⟨h1, h2, _, _, hq⟩
  · refine ⟨fun _ => hq, ?_⟩
    intro h1 h2
    rcases h0 with h0 | h0
    · exact absurd h0 h1
    · exact absurd h0 h2
  · have hin := wf.phdrs h1 h2
    refine ⟨?_, ?_⟩
    · intro h0
      rcases h0 with h0 | h0
      · exact absurd h0 h1
      · exact absurd h0 h2
    · intro _ _
      rw [hq]
      refine congrArg some (List.map_congr_left ?_)
      intro i hi
      have hi' : i < f.ehdr.e_phnum := List.mem_range.mp hi
      exact decodePhdr_file f _ (by omega)

theorem programHeader_wf (hp : Heap) (f : File) (wf : WellFormed f)
    (hsv : hp.serves Alloc.programHeader = true) :
    ∃ ph, copyProgramHeader hp f f.ehdr = some ph := by
  have hge := mapLen_ge f
  by_cases hq : f.ehdr.e_phoff ≠ 0 ∧ f.ehdr.e_phnum ≠ 0
  · have hin := wf.phdrs hq.1 hq.2
    have hnum : f.ehdr.e_phnum < 65536 := by
      rw [← ehdr_wf f wf]
      exact e_phnum_lt f
    exact ⟨_, copyProgramHeader_present hp f f.ehdr hq.1 hq.2
      (mallocOk_of_lt hp _ _ (by omega) hsv) (by omega)⟩
  · have h0 : f.ehdr.e_phoff = 0 ∨ f.ehdr.e_phnum = 0 := by
      by_contra hc
      exact hq ⟨fun h => hc (Or.inl h), fun h => hc (Or.inr h)⟩
    exact ⟨none, copyProgramHeader_absent hp f f.ehdr h0⟩

theorem getELFData_mapped (hp : Heap) (f : File) (h : f.st_size ≠ 0) :
    getELFData hp (.mapped f) = extract hp f := by
  simp [getELFData, h]

/-- Whatever the allocator answers, what a run on a well-formed ELF file
returns is what the file contains, but for the symbol names whose copy was
refused. -/
theorem steps_wf (hp : Heap) (f : File) (wf : WellFormed f) (r : ElfData)
    (h : Steps hp f r) : DescribesOn hp f r := by
  obtain ⟨secs0, sc, he, h1, h2, h3, h4, h5, h6⟩ := h
  have he' : r.elfHeader = f.ehdr := by rw [he]; exact ehdr_wf f wf
  rw [he'] at h1 h2 h3
  obtain ⟨hph0, hph1⟩ := programHeader_wf_inv hp f wf _ h1
  refine ⟨he', hph0, hph1, ?_, ?_⟩
  · intro hs
    rcases sections_raw hp f f.ehdr _ _ h2 h3 with ⟨_, hn⟩ | ⟨hc, _⟩
    · rw [hn] at h4
      simp only [scanSections, Option.some.injEq] at h4
      subst h4
      have e5 := copySymbols_absent hp Alloc.dynList Alloc.dynName f
        SymScan.init.dynsym_ptr SymScan.init.dynsym_str_ptr SymScan.init.num_dynsym
        (Or.inl rfl)
      have e6 := copySymbols_absent hp Alloc.otherList Alloc.otherName f
        SymScan.init.othersym_ptr SymScan.init.othersym_str_ptr SymScan.init.num_othersym
        (Or.inl rfl)
      rw [e5] at h5
      rw [e6] at h6
      exact ⟨hn, (Option.some.inj h5).symm, (Option.some.inj h6).symm⟩
    · exact absurd hc hs
  · intro hs
    obtain ⟨l, hl, hok⟩ := sections_wf_inv hp f wf hs _ _ sc h2 h3 h4
    rw [hl] at h4
    obtain ⟨_, t1, t2, t3, t4, t5, t6⟩ := scanFrom_inv l _ _ h4
    exact ⟨l, hl, hok,
      table_wf_inv hp _ _ f l hok (cstr ".dynsym") (cstr ".dynstr")
        (fun i hi hn => wf.symsec hs i hi (Or.inl hn)) (wf.dynNames hs) _ _ _ t1 t2 t5 _ h5,
      table_wf_inv hp _ _ f l hok (cstr ".symtab") (cstr ".strtab")
        (fun i hi hn => wf.symsec hs i hi (Or.inr hn)) (wf.otherNames hs) _ _ _ t3 t4 t6 _ h6⟩

/-- Extraction from a well-formed ELF file returns when the allocator serves
every request. -/
theorem extract_total (hp : Heap) (f : File) (wf : WellFormed f) (hm : f.hasMagic)
    (hsv : hp.servesAll) : ∃ r, extract hp f = some r := by
  have hsz : f.st_size ≠ 0 := by have := wf.header; omega
  obtain ⟨ph, hph⟩ := programHeader_wf hp f wf (hsv _)
  by_cases hs : f.hasSections
  · obtain ⟨l0, l, hl0, hl, hok⟩ := sections_wf hp f wf hs hsv
    obtain ⟨sc, hsc⟩ := scan_wf f wf hs l hok
    obtain ⟨_, t1, t2, t3, t4, t5, t6⟩ := scanFrom_inv l _ _ hsc
    obtain ⟨dyn, hdyn⟩ := table_wf_total hp Alloc.dynList Alloc.dynName f l hok
      (cstr ".dynsym") (cstr ".dynstr")
      (fun i hi hn => wf.symsec hs i hi (Or.inl hn)) (wf.dynNames hs) _ _ _ t1 t2 t5 (hsv _)
    obtain ⟨oth, hoth⟩ := table_wf_total hp Alloc.otherList Alloc.otherName f l hok
      (cstr ".symtab") (cstr ".strtab")
      (fun i hi hn => wf.symsec hs i hi (Or.inr hn)) (wf.otherNames hs) _ _ _ t3 t4 t6 (hsv _)
    refine ⟨{ elfHeader := f.ehdr, programHeader := ph, sections := some l,
              dynSymbols := dyn, otherSymbols := oth }, ?_⟩
    apply extract_of_steps hp f _ hsz hm
    exact ⟨some l0, sc, (ehdr_wf f wf).symm, hph, hl0, hl, hsc, hdyn, hoth⟩
  · refine ⟨{ elfHeader := f.ehdr, programHeader := ph, sections := none,
              dynSymbols := { size := 0, list := none },
              otherSymbols := { size := 0, list := none } }, ?_⟩
    apply extract_of_steps hp f _ hsz hm
    exact ⟨none, SymScan.init, (ehdr_wf f wf).symm, hph, copySections_absent hp f f.ehdr hs,
      rfl, rfl, rfl, rfl⟩

theorem symNameOn_served (f : File) (strName : List Nat) (st_name : Nat)
    (nm : Option (List Nat)) (h : f.symNameOn true strName st_name nm) :
    f.symNameIs strName st_name nm := by
  rcases h with h | ⟨hne, j, s, hj, hc, hn⟩
  · exact Or.inl h
  · exact Or.inr ⟨hne, j, s, hj, by simpa using hn, hc⟩

theorem tableOk_of_on (hp : Heap) (mk : Nat → Alloc) (f : File) (symName strName : List Nat)
    (sl : ElfSymbolList) (hsv : hp.servesAll) (h : f.tableOkOn hp mk symName strName sl) :
    f.tableOk symName strName sl := by
  refine ⟨h.1, ?_⟩
  intro i hi
  obtain ⟨a, b, c⟩ := h.2 i hi
  refine ⟨a, b, ?_⟩
  intro hpos
  obtain ⟨c1, lst, c2, c3, c4⟩ := c hpos
  refine ⟨c1, lst, c2, c3, ?_⟩
  intro k hk
  obtain ⟨nm, d1, d2⟩ := c4 k hk
  rw [hsv (mk k)] at d2
  exact ⟨nm, d1, symNameOn_served f _ _ _ d2⟩

/-- With every request served the result holds the symbol names too. -/
theorem describes_of_on (hp : Heap) (f : File) (r : ElfData) (hsv : hp.servesAll)
    (h : DescribesOn hp f r) : Describes f r := by
  obtain ⟨a, b, c, d, e⟩ := h
  refine ⟨a, b, c, d, ?_⟩
  intro hs
  obtain ⟨l, e1, e2, e3, e4⟩ := e hs
  exact ⟨l, e1, e2, tableOk_of_on hp _ f _ _ _ hsv e3, tableOk_of_on hp _ f _ _ _ hsv e4⟩

/-- What a run on a well-formed ELF file returns, whatever the allocator
answers. -/
theorem getELFData_wf_inv (hp : Heap) (f : File) (wf : WellFormed f) (hm : f.hasMagic)
    (r : ElfData) (h : getELFData hp (.mapped f) = some r) : DescribesOn hp f r := by
  have hsz : f.st_size ≠ 0 := by have := wf.header; omega
  rw [getELFData_mapped hp f hsz] at h
  rcases extract_inv hp f r h with ⟨hn, _⟩ | ⟨_, hs⟩
  · exact absurd hm hn
  · exact steps_wf hp f wf r hs

theorem getELFData_total (hp : Heap) (f : File) (wf : WellFormed f) (hm : f.hasMagic)
    (hsv : hp.servesAll) : ∃ r, getELFData hp (.mapped f) = some r := by
  have hsz : f.st_size ≠ 0 := by have := wf.header; omega
  rw [getELFData_mapped hp f hsz]
  exact extract_total hp f wf hm hsv

/-- A run on a well-formed ELF file returns when every request is served, and
what it returns is what the file contains. -/
theorem getELFData_wf (hp : Heap) (f : File) (wf : WellFormed f) (hm : f.hasMagic)
    (hsv : hp.servesAll) :
    ∃ r, getELFData hp (.mapped f) = some r ∧ Describes f r := by
  obtain ⟨r, hr⟩ := getELFData_total hp f wf hm hsv
  exact ⟨r, hr, describes_of_on hp f r hsv (getELFData_wf_inv hp f wf hm r hr)⟩

/-! ## Runs on the sample files -/

set_option maxRecDepth 1000000 in
theorem sample_run : getELFData Heap.ample (.mapped sampleFile) = some sampleData := by
  decide

set_option maxRecDepth 1000000 in
theorem text_run : getELFData Heap.ample (.mapped textFile) = some zeroElfData := by
  decide

set_option maxRecDepth 1000000 in
theorem big_run :
    (getELFData Heap.ample (.mapped bigFile)).map (fun r => r.dynSymbols.size) = some 1 := by
  decide

theorem ample_servesAll : Heap.ample.servesAll := fun _ => rfl

set_option maxRecDepth 1000000 in
theorem sample_magic : sampleFile.hasMagic := by decide

set_option maxRecDepth 1000000 in
theorem sample_hasSections : sampleFile.hasSections := by decide

set_option maxRecDepth 1000000 in
theorem sample_wf : WellFormed sampleFile :=
  { header := by decide
    phdrs := by decide
    shdrs := by decide
    shstrndx := by decide
    names := by decide
    symsec := by decide
    dynNames := by decide
    otherNames := by decide }

/-! ## The failure sentinel -/

theorem extract_not_magic (hp : Heap) (f : File) (h0 : f.st_size ≠ 0) (h : ¬ f.hasMagic) :
    extract hp f = some zeroElfData := by
  have hlen := mapLen_pos f h0
  unfold extract
  rw [memcpyFrom_some f decodeEhdr 0 64 (by omega)]
  have hm : (decodeEhdr f.peek 0).e_ident.take 4 ≠ ELFMAG := by
    rw [take4_ident]; exact h
  simp only [if_pos hm]

/-- C1: for every mapped file whose first 4 bytes are not the ELF magic,
`getELFData` returns the zeroed sentinel, whatever the allocator would answer:
the header is all zero, the program header and section pointers are null, and
both symbol tables have a null list and size 0. -/
theorem getELFData_not_elf (hp : Heap) (f : File) (h : ¬ f.hasMagic) :
    ∃ r, getELFData hp (.mapped f) = some r ∧ r = zeroElfData ∧
      r.elfHeader.e_ident = List.replicate 16 0 ∧ r.elfHeader = zeroEhdr ∧
      r.programHeader = none ∧ r.sections = none ∧
      r.dynSymbols.list = none ∧ r.dynSymbols.size = 0 ∧
      r.otherSymbols.list = none ∧ r.otherSymbols.size = 0 := by
  refine ⟨zeroElfData, ?_, rfl, rfl, rfl, rfl, rfl, rfl, rfl, rfl, rfl⟩
  by_cases h0 : f.st_size = 0
  · simp [getELFData, h0]
  · rw [getELFData_mapped hp f h0]
    exact extract_not_magic hp f h0 h

set_option maxRecDepth 1000000 in
theorem getELFData_not_elf_witness :
    ¬ textFile.hasMagic ∧
    ∃ r, getELFData Heap.ample (.mapped textFile) = some r ∧ r = zeroElfData ∧
      r.elfHeader.e_ident = List.replicate 16 0 ∧ r.elfHeader = zeroEhdr ∧
      r.programHeader = none ∧ r.sections = none ∧
      r.dynSymbols.list = none ∧ r.dynSymbols.size = 0 ∧
      r.otherSymbols.list = none ∧ r.otherSymbols.size = 0 :=
  ⟨by decide, getELFData_not_elf Heap.ample textFile (by decide)⟩

/-- C2: when `open`, `fstat` or `mmap` fails, `getELFData` returns the
zeroed sentinel, whatever the file holds and whatever the allocator would
answer; a file of length zero is a case of the last kind. -/
theorem getELFData_no_mapping (hp : Heap) :
    getELFData hp .openFails = some zeroElfData ∧
    getELFData hp .fstatFails = some zeroElfData ∧
    (∀ f : File, getELFData hp (.mmapFails f) = some zeroElfData) ∧
    ∀ data : Nat → Nat,
      getELFData hp (.mapped { st_size := 0, data := data }) = some zeroElfData :=
  ⟨rfl, rfl, fun _ => rfl, fun _ => rfl⟩

theorem steps_ne_zero (hp : Heap) (f : File) (r : ElfData) (hm : f.hasMagic)
    (h : Steps hp f r) :
    r.elfHeader.e_ident.take 4 = ELFMAG ∧ r ≠ zeroElfData := by
  obtain ⟨_, _, he, _⟩ := h
  have h4 : r.elfHeader.e_ident.take 4 = ELFMAG := by
    rw [he, take4_ident]; exact hm
  refine ⟨h4, ?_⟩
  intro hc
  rw [hc] at h4
  exact absurd h4 (by decide)

/-- C3: comparing the result with zero detects failure exactly: whatever the
allocator answers, a returned result is the zeroed sentinel if and only if
`open`, `fstat` or `mmap` failed or the magic did not match, and in the other
case the first 4 bytes of its header are the ELF magic. -/
theorem getELFData_zero_iff_failed (hp : Heap) (t : Target) (r : ElfData)
    (h : getELFData hp t = some r) :
    (r = zeroElfData ↔ t.failed) ∧ (¬ t.failed → r.elfHeader.e_ident.take 4 = ELFMAG) := by
  cases t with
  | openFails =>
    simp only [getELFData, Option.some.injEq] at h
    simp [Target.failed, h]
  | fstatFails =>
    simp only [getELFData, Option.some.injEq] at h
    simp [Target.failed, h]
  | mmapFails f =>
    simp only [getELFData, Option.some.injEq] at h
    simp [Target.failed, h]
  | mapped f =>
    by_cases h0 : f.st_size = 0
    · simp only [getELFData, h0, if_true, Option.some.injEq] at h
      simp [Target.failed, h0, h]
    · rw [getELFData_mapped hp f h0] at h
      rcases extract_inv hp f r h with ⟨hm, hr⟩ | ⟨hm, hs⟩
      · simp [Target.failed, hm, hr]
      · obtain ⟨h4, hne⟩ := steps_ne_zero hp f r hm hs
        refine ⟨⟨fun hc => absurd hc hne, ?_⟩, fun _ => h4⟩
        intro hf
        rcases hf with hf | hf
        · exact absurd hf h0
        · exact absurd hm hf

theorem getELFData_zero_iff_failed_witness :
    (sampleData = zeroElfData ↔ (Target.mapped sampleFile).failed) ∧
    (¬ (Target.mapped sampleFile).failed → sampleData.elfHeader.e_ident.take 4 = ELFMAG) :=
  getELFData_zero_iff_failed Heap.ample (.mapped sampleFile) sampleData sample_run

/-! ## The header -/

/-- C4: for every mapped file of at least 64 bytes that starts with the ELF
magic, the header of every returned result is the 64-byte record at offset 0
of the file, field for field, whatever the allocator answers; and a result is
returned when the file is well formed and every allocation is served. -/
theorem getELFData_header (f : File) (hsz : 64 ≤ f.st_size) (hm : f.hasMagic) :
    (∀ hp r, getELFData hp (.mapped f) = some r →
      r.elfHeader.e_ident = bytesAt f.byte 0 16 ∧
      r.elfHeader.e_type = leWord f.byte 16 2 ∧
      r.elfHeader.e_machine = leWord f.byte 18 2 ∧
      r.elfHeader.e_version = leWord f.byte 20 4 ∧
      r.elfHeader.e_entry = leWord f.byte 24 8 ∧
      r.elfHeader.e_phoff = leWord f.byte 32 8 ∧
      r.elfHeader.e_shoff = leWord f.byte 40 8 ∧
      r.elfHeader.e_flags = leWord f.byte 48 4 ∧
      r.elfHeader.e_ehsize = leWord f.byte 52 2 ∧
      r.elfHeader.e_phentsize = leWord f.byte 54 2 ∧
      r.elfHeader.e_phnum = leWord f.byte 56 2 ∧
      r.elfHeader.e_shentsize = leWord f.byte 58 2 ∧
      r.elfHeader.e_shnum = leWord f.byte 60 2 ∧
      r.elfHeader.e_shstrndx = leWord f.byte 62 2) ∧
    (WellFormed f → ∀ hp : Heap, hp.servesAll → ∃ r, getELFData hp (.mapped f) = some r) := by
  constructor
  · intro hp r h
    have h0 : f.st_size ≠ 0 := by omega
    rw [getELFData_mapped hp f h0] at h
    rcases extract_inv hp f r h with ⟨hn, _⟩ | ⟨_, _, _, he, _⟩
    · exact absurd hm hn
    · rw [he, decodeEhdr_file f 0 (by omega)]
      simp [decodeEhdr]
  · intro wf hp hsv
    exact getELFData_total hp f wf hm hsv

set_option maxRecDepth 1000000 in
theorem getELFData_header_witness :
    64 ≤ sampleFile.st_size ∧ sampleFile.hasMagic ∧
    sampleData.elfHeader.e_ident = bytesAt sampleFile.byte 0 16 ∧
    sampleData.elfHeader.e_phoff = leWord sampleFile.byte 32 8 ∧
    sampleData.elfHeader.e_shnum = leWord sampleFile.byte 60 2 :=
  have h := (getELFData_header sampleFile (by decide) sample_magic).1 Heap.ample sampleData
    sample_run
  ⟨by decide, sample_magic, h.1, h.2.2.2.2.2.1, h.2.2.2.2.2.2.2.2.2.2.2.2.1⟩

/-! ## Program headers -/

/-- C5: for every well-formed ELF file (a header that announces program
headers also gives their offset), the program header collection of every
returned result has exactly `e_phnum` entries, and entry `i` is the 56-byte
record at file offset `e_phoff + 56 * i`, whatever the allocator answers; and
a result is returned when every allocation is served. -/
theorem getELFData_programHeader (f : File) (wf : WellFormed f) (hm : f.hasMagic)
    (hv : f.ehdr.e_phnum ≠ 0 → f.ehdr.e_phoff ≠ 0) :
    (∀ hp r, getELFData hp (.mapped f) = some r →
      r.elfHeader.e_phnum = f.ehdr.e_phnum ∧ r.phCount = f.ehdr.e_phnum ∧
      ∀ i, i < f.ehdr.e_phnum → ∃ l, r.programHeader = some l ∧
        l[i]? = some (decodePhdr f.byte (f.ehdr.e_phoff + 56 * i))) ∧
    ∀ hp : Heap, hp.servesAll → ∃ r, getELFData hp (.mapped f) = some r := by
  refine ⟨?_, fun hp hsv => getELFData_total hp f wf hm hsv⟩
  intro hp r hr
  obtain ⟨he, hp0, hp1, _⟩ := getELFData_wf_inv hp f wf hm r hr
  refine ⟨by rw [he], ?_, ?_⟩
  · by_cases hn : f.ehdr.e_phnum = 0
    · simp [ElfData.phCount, hp0 (Or.inr hn), hn]
    · simp [ElfData.phCount, hp1 (hv hn) hn]
  · intro i hi
    have hn : f.ehdr.e_phnum ≠ 0 := by omega
    refine ⟨_, hp1 (hv hn) hn, ?_⟩
    simp [List.getElem?_map, List.getElem?_range hi, File.phdr]

theorem getELFData_programHeader_witness :
    (∃ r, getELFData Heap.ample (.mapped sampleFile) = some r) ∧
    sampleData.elfHeader.e_phnum = sampleFile.ehdr.e_phnum ∧
    sampleData.phCount = sampleFile.ehdr.e_phnum ∧
    ∀ i, i < sampleFile.ehdr.e_phnum → ∃ l, sampleData.programHeader = some l ∧
      l[i]? = some (decodePhdr sampleFile.byte (sampleFile.ehdr.e_phoff + 56 * i)) :=
  have h := getELFData_programHeader sampleFile sample_wf sample_magic (by decide)
  ⟨h.2 Heap.ample ample_servesAll, h.1 Heap.ample sampleData sample_run⟩

theorem hasMagic_size (f : File) (hm : f.hasMagic) : f.st_size ≠ 0 := by
  intro h0
  have : bytesAt f.peek 0 4 = [0, 0, 0, 0] := by
    simp [bytesAt, File.peek, h0]
  rw [File.hasMagic, this] at hm
  exact absurd hm (by decide)

/-- C6: for every mapped file that starts with the ELF magic and whose
header has `e_phoff = 0` or `e_phnum = 0`, a returned result has no program
header collection, is not the failure sentinel, and its header, sections and
symbol tables are the values of the same steps as in the other case, whatever
the allocator answers; for a well-formed file a result is returned when every
allocation is served, and it holds what the file contains. -/
theorem getELFData_no_programHeader (f : File) (hm : f.hasMagic)
    (h0 : (decodeEhdr f.peek 0).e_phoff = 0 ∨ (decodeEhdr f.peek 0).e_phnum = 0) :
    (∀ hp r, getELFData hp (.mapped f) = some r →
      r.programHeader = none ∧ r ≠ zeroElfData ∧ Steps hp f r) ∧
    (WellFormed f → ∀ hp : Heap, hp.servesAll →
      ∃ r, getELFData hp (.mapped f) = some r ∧ r.programHeader = none ∧ Describes f r) := by
  have hsz := hasMagic_size f hm
  have key : ∀ hp r, getELFData hp (.mapped f) = some r →
      r.programHeader = none ∧ r ≠ zeroElfData ∧ Steps hp f r := by
    intro hp r h
    rw [getELFData_mapped hp f hsz] at h
    rcases extract_inv hp f r h with ⟨hn, _⟩ | ⟨_, hs⟩
    · exact absurd hm hn
    · refine ⟨?_, (steps_ne_zero hp f r hm hs).2, hs⟩
      obtain ⟨_, _, he, hq, _⟩ := hs
      rw [he, copyProgramHeader_absent hp f _ h0] at hq
      exact (Option.some.inj hq).symm
  refine ⟨key, ?_⟩
  intro wf hp hsv
  obtain ⟨r, hr, hd⟩ := getELFData_wf hp f wf hm hsv
  exact ⟨r, hr, (key hp r hr).1, hd⟩

set_option maxRecDepth 1000000 in
theorem getELFData_no_programHeader_witness :
    noPhdrFile.hasMagic ∧
    ((decodeEhdr noPhdrFile.peek 0).e_phoff = 0 ∨ (decodeEhdr noPhdrFile.peek 0).e_phnum = 0) ∧
    (getELFData Heap.ample (.mapped noPhdrFile)).isSome = true ∧
    ∀ hp r, getELFData hp (.mapped noPhdrFile) = some r →
      r.programHeader = none ∧ r ≠ zeroElfData ∧ Steps hp noPhdrFile r :=
  ⟨by decide, by decide, by decide,
    (getELFData_no_programHeader noPhdrFile (by decide) (by decide)).1⟩

/-! ## Sections -/

/-- C7: for every well-formed ELF file whose header declares a non-zero
`e_shoff` and a non-zero `e_shnum`, the section collection of every returned
result has exactly `e_shnum` entries, and the raw header of entry `i` is the
64-byte record at file offset `e_shoff + 64 * i`; when `e_shoff` or `e_shnum`
is zero the collection is absent; all of this whatever the allocator answers,
and a result is returned when every allocation is served. -/
theorem getELFData_sections (f : File) (wf : WellFormed f) (hm : f.hasMagic) :
    (∀ hp r, getELFData hp (.mapped f) = some r →
      (f.ehdr.e_shoff ≠ 0 ∧ f.ehdr.e_shnum ≠ 0 →
        ∃ l, r.sections = some l ∧ l.length = f.ehdr.e_shnum ∧
          ∀ i, i < f.ehdr.e_shnum → ∃ s, l[i]? = some s ∧
            s.sectionHeader = decodeShdr f.byte (f.ehdr.e_shoff + 64 * i)) ∧
      (f.ehdr.e_shoff = 0 ∨ f.ehdr.e_shnum = 0 → r.sections = none)) ∧
    ∀ hp : Heap, hp.servesAll → ∃ r, getELFData hp (.mapped f) = some r := by
  refine ⟨?_, fun hp hsv => getELFData_total hp f wf hm hsv⟩
  intro hp r hr
  obtain ⟨_, _, _, hno, hyes⟩ := getELFData_wf_inv hp f wf hm r hr
  constructor
  · intro hs
    obtain ⟨l, hl, hok, _⟩ := hyes hs
    refine ⟨l, hl, hok.1, ?_⟩
    intro i hi
    obtain ⟨nm, h1, _⟩ := hok.2 i hi
    exact ⟨_, h1, rfl⟩
  · intro h0
    have : ¬ f.hasSections := by
      intro hs
      rcases h0 with h0 | h0
      · exact hs.1 h0
      · exact hs.2 h0
    exact (hno this).1

theorem getELFData_sections_witness :
    (∃ r, getELFData Heap.ample (.mapped sampleFile) = some r) ∧
    ∃ l, sampleData.sections = some l ∧ l.length = sampleFile.ehdr.e_shnum ∧
      ∀ i, i < sampleFile.ehdr.e_shnum → ∃ s, l[i]? = some s ∧
        s.sectionHeader = decodeShdr sampleFile.byte (sampleFile.ehdr.e_shoff + 64 * i) :=
  have h := getELFData_sections sampleFile sample_wf sample_magic
  ⟨h.2 Heap.ample ample_servesAll, (h.1 Heap.ample sampleData sample_run).1 sample_hasSections⟩

/-- C8: for every well-formed ELF file with a section table, in every
returned result the resolved name of every section `i` is the NUL-terminated
string of the file at offset (`sh_offset` of the section at index
`e_shstrndx`) + (`sh_name` of section `i`), whatever the allocator answers;
and a result is returned when every allocation is served. -/
theorem getELFData_sectionNames (f : File) (wf : WellFormed f) (hm : f.hasMagic)
    (hs : f.hasSections) :
    (∀ hp r, getELFData hp (.mapped f) = some r →
      ∃ l, r.sections = some l ∧
        ∀ i, i < f.ehdr.e_shnum → ∃ s nm, l[i]? = some s ∧ s.sectionName = some nm ∧
          IsCStr f.byte f.st_size
            ((f.shdr f.ehdr.e_shstrndx).sh_offset + (f.shdr i).sh_name) nm) ∧
    ∀ hp : Heap, hp.servesAll → ∃ r, getELFData hp (.mapped f) = some r := by
  refine ⟨?_, fun hp hsv => getELFData_total hp f wf hm hsv⟩
  intro hp r hr
  obtain ⟨_, _, _, _, hyes⟩ := getELFData_wf_inv hp f wf hm r hr
  obtain ⟨l, hl, hok, _⟩ := hyes hs
  refine ⟨l, hl, ?_⟩
  intro i hi
  obtain ⟨nm, h1, h2⟩ := hok.2 i hi
  exact ⟨_, nm, h1, rfl, h2⟩

theorem getELFData_sectionNames_witness :
    (∃ r, getELFData Heap.ample (.mapped sampleFile) = some r) ∧
    ∃ l, sampleData.sections = some l ∧
      ∀ i, i < sampleFile.ehdr.e_shnum → ∃ s nm, l[i]? = some s ∧ s.sectionName = some nm ∧
        IsCStr sampleFile.byte sampleFile.st_size
          ((sampleFile.shdr sampleFile.ehdr.e_shstrndx).sh_offset +
            (sampleFile.shdr i).sh_name) nm :=
  have h := getELFData_sectionNames sampleFile sample_wf sample_magic sample_hasSections
  ⟨h.2 Heap.ample ample_servesAll, h.1 Heap.ample sampleData sample_run⟩

/-! ## Symbols -/

theorem tableOn_size (hp : Heap) (mk : Nat → Alloc) (f : File) (i : Nat) (strName : List Nat)
    (sl : ElfSymbolList) (h : f.tableOn hp mk i strName sl) :
    sl.size = toInt32 (f.symCount i) := by
  obtain ⟨h0, hneg, hpos⟩ := h
  rcases lt_trichotomy (toInt32 (f.symCount i)) 0 with hc | hc | hc
  · rw [hneg hc]
  · rw [h0 hc, hc]
  · exact (hpos hc).1

set_option maxRecDepth 1000000 in
theorem big_facts :
    bigFile.ehdr.e_shnum = 3 ∧ bigFile.hasMagic ∧ bigFile.hasSections ∧
    bigFile.secNamed 2 (cstr ".dynsym") ∧ ¬ bigFile.secNamed 0 (cstr ".dynsym") ∧
    ¬ bigFile.secNamed 1 (cstr ".dynsym") ∧ ¬ bigFile.secNamed 0 (cstr ".symtab") ∧
    ¬ bigFile.secNamed 1 (cstr ".symtab") ∧ ¬ bigFile.secNamed 2 (cstr ".symtab") ∧
    (bigFile.shdr 2).sh_offset = 4096 ∧ bigFile.symCount 2 = 2 ^ 32 + 1 ∧
    (bigFile.shdr 2).sh_entsize ≠ 0 := by
  decide

theorem leWord_zero (rd : Nat → Nat) (n : Nat) :
    ∀ off, (∀ k, k < n → rd (off + k) = 0) → leWord rd off n = 0 := by
  induction n with
  | zero => intro off _; rfl
  | succ n ih =>
    intro off h
    simp only [leWord]
    rw [ih (off + 1) (fun k hk => by
      have := h (k + 1) (by omega)
      simpa [Nat.add_assoc, Nat.add_comm 1 k] using this)]
    have := h 0 (by omega)
    simp at this
    rw [this]

set_option maxRecDepth 1000000 in
theorem bigHead_length : bigHead.length = 275 := by decide

theorem big_byte_zero (a : Nat) (h : 275 ≤ a) : bigFile.byte a = 0 := by
  have hlen := bigHead_length
  have h0 : bigHead.getD a 0 = 0 := by
    rw [List.getD_eq_getElem?_getD, List.getElem?_eq_none (by omega)]
    rfl
  show bigHead.getD a 0 % 256 = 0
  rw [h0]

theorem big_sym_nameless (k : Nat) : (bigFile.symAt 2 k).st_name = 0 := by
  obtain ⟨_, _, _, _, _, _, _, _, _, hoff, _⟩ := big_facts
  simp only [File.symAt, decodeSym, hoff]
  apply leWord_zero
  intro j _
  exact big_byte_zero _ (by omega)

set_option maxRecDepth 1000000 in
theorem big_wf : WellFormed bigFile := by
  obtain ⟨hn, _, _, h2, d0, d1, s0, s1, s2, hoff, hcnt, hent⟩ := big_facts
  refine
    { header := by decide
      phdrs := by decide
      shdrs := by decide
      shstrndx := by decide
      names := ?_
      symsec := ?_
      dynNames := ?_
      otherNames := ?_ }
  · intro _ i hi
    rw [hn] at hi
    interval_cases i
    · exact ⟨0, by decide, by decide⟩
    · exact ⟨9, by decide, by decide⟩
    · exact ⟨7, by decide, by decide⟩
  · intro _ i hi hnm
    rw [hn] at hi
    interval_cases i
    · exact absurd hnm (by intro h; rcases h with h | h; exact d0 h; exact s0 h)
    · exact absurd hnm (by intro h; rcases h with h | h; exact d1 h; exact s1 h)
    · refine ⟨hent, ?_⟩
      rw [hoff, hcnt]
      decide
  · intro _ i hi hnm k _ hne
    rw [hn] at hi
    interval_cases i
    · exact absurd hnm d0
    · exact absurd hnm d1
    · exact absurd (big_sym_nameless k) hne
  · intro _ i hi hnm
    rw [hn] at hi
    interval_cases i
    · exact absurd hnm s0
    · exact absurd hnm s1
    · exact absurd hnm s2

/-- C9: the entry count goes through an `int` local before it reaches
`size`.  In a well-formed shared object whose only section named `.dynsym`
has `2 ^ 32 + 1` entries of 24 bytes, the quotient `sh_size / sh_entsize` is
`2 ^ 32 + 1` and the `dynSymbols.size` that `getELFData` returns, every
allocation being served, is 1. -/
theorem symbolCount_truncated :
    WellFormed bigFile ∧ bigFile.hasMagic ∧ bigFile.hasSections ∧
    bigFile.lastNamed 2 (cstr ".dynsym") ∧
    (bigFile.shdr 2).sh_size / (bigFile.shdr 2).sh_entsize = 2 ^ 32 + 1 ∧
    (getELFData Heap.ample (.mapped bigFile)).map (fun r => r.dynSymbols.size) = some 1 := by
  obtain ⟨hn, hm, hs, h2, _, _, _, _, _, _, hcnt, _⟩ := big_facts
  refine ⟨big_wf, hm, hs, ⟨by rw [hn]; decide, h2, ?_⟩, hcnt, big_run⟩
  intro j hj hlt
  rw [hn] at hj
  omega

/-- Below `2 ^ 31` entries the returned counts are the quotients
`sh_size / sh_entsize` of the last sections named `.dynsym` and `.symtab`. -/
theorem symbolCount_small (hp : Heap) (f : File) (wf : WellFormed f) (hm : f.hasMagic)
    (hs : f.hasSections) (r : ElfData) (h : getELFData hp (.mapped f) = some r) :
    (∀ i, f.lastNamed i (cstr ".dynsym") →
      (f.shdr i).sh_size / (f.shdr i).sh_entsize < 2 ^ 31 →
        r.dynSymbols.size = (((f.shdr i).sh_size / (f.shdr i).sh_entsize : Nat) : Int)) ∧
    (∀ i, f.lastNamed i (cstr ".symtab") →
      (f.shdr i).sh_size / (f.shdr i).sh_entsize < 2 ^ 31 →
        r.otherSymbols.size = (((f.shdr i).sh_size / (f.shdr i).sh_entsize : Nat) : Int)) := by
  obtain ⟨_, _, _, _, hyes⟩ := getELFData_wf_inv hp f wf hm r h
  obtain ⟨l, _, _, hdyn, hoth⟩ := hyes hs
  constructor
  · intro i hi hq
    rw [tableOn_size hp _ f i _ _ (hdyn.2 i hi)]
    exact toInt32_small _ hq
  · intro i hi hq
    rw [tableOn_size hp _ f i _ _ (hoth.2 i hi)]
    exact toInt32_small _ hq

theorem copySymbols_inv (hp : Heap) (arr : Alloc) (mk : Nat → Alloc) (f : File)
    (ptr strtab : Option Nat) (num : Int) (sl : ElfSymbolList)
    (h : copySymbols hp arr mk f ptr strtab num = some sl) :
    ((ptr = none ∨ num = 0) ∧ sl = { size := 0, list := none }) ∨
    (∃ off l, ptr = some off ∧ num ≠ 0 ∧ mallocOk hp arr (symArrayBytes num) = true ∧
      readSymbols hp mk f strtab off 0 num.toNat = some l ∧
      sl = { size := num, list := some l }) ∨
    (∃ off, ptr = some off ∧ num ≠ 0 ∧ mallocOk hp arr (symArrayBytes num) = false ∧
      num.toNat = 0 ∧ sl = { size := num, list := none }) := by
  cases ptr with
  | none =>
    left
    rw [copySymbols_absent hp arr mk f none strtab num (Or.inl rfl)] at h
    exact ⟨Or.inl rfl, (Option.some.inj h).symm⟩
  | some off =>
    by_cases h0 : num = 0
    · left
      rw [copySymbols_absent hp arr mk f _ strtab num (Or.inr h0)] at h
      exact ⟨Or.inr h0, (Option.some.inj h).symm⟩
    · right
      unfold copySymbols at h
      simp only [h0, if_false] at h
      by_cases hm : mallocOk hp arr (symArrayBytes num) = true
      · left
        simp only [hm, if_true] at h
        cases hr : readSymbols hp mk f strtab off 0 num.toNat with
        | none => simp [hr] at h
        | some l =>
          simp only [hr, Option.some.injEq] at h
          exact ⟨off, l, rfl, h0, hm, hr, h.symm⟩
      · right
        have hm' : mallocOk hp arr (symArrayBytes num) = false := by simpa using hm
        simp only [hm', Bool.false_eq_true, if_false] at h
        by_cases ht : num.toNat = 0
        · simp only [ht, if_true, Option.some.injEq] at h
          exact ⟨off, rfl, h0, hm', ht, h.symm⟩
        · simp [ht] at h

/-- In a returned symbol table every entry is a record of the mapping, with
the name that `strdup` made of its raw name field. -/
theorem copySymbols_entries (hp : Heap) (arr : Alloc) (mk : Nat → Alloc) (f : File)
    (ptr strtab : Option Nat) (num : Int) (sl : ElfSymbolList)
    (h : copySymbols hp arr mk f ptr strtab num = some sl) (l : List ElfSymbol)
    (hl : sl.list = some l) :
    ∃ off, ptr = some off ∧ sl.size = num ∧ l.length = num.toNat ∧
      ∀ i, i < l.length → ∃ nm,
        l[i]? = some { symbol := decodeSym f.peek (off + 24 * i), name := nm } ∧
        SymName hp (mk i) f strtab (decodeSym f.peek (off + 24 * i)).st_name nm := by
  rcases copySymbols_inv hp arr mk f ptr strtab num sl h with ⟨_, hs⟩ |
    ⟨off, l', hq, _, _, hr, hs⟩ | ⟨_, _, _, _, _, hs⟩
  · rw [hs] at hl; simp at hl
  · rw [hs] at hl
    simp only [Option.some.injEq] at hl
    subst hl
    obtain ⟨hlen, hall⟩ := readSymbols_inv hp mk f strtab num.toNat off 0 l' hr
    refine ⟨off, hq, by rw [hs], hlen, ?_⟩
    intro i hi
    have := (hall i (by omega)).2
    rwa [Nat.zero_add] at this
  · rw [hs] at hl; simp at hl

/-- A returned name is null exactly when the raw name field is zero or the
allocator refused the copy. -/
theorem symName_absent_iff (hp : Heap) (a : Alloc) (f : File) (strtab : Option Nat)
    (st_name : Nat) (nm : Option (List Nat)) (h : SymName hp a f strtab st_name nm) :
    nm = none ↔ st_name = 0 ∨ hp.serves a = false := by
  rcases h with ⟨h0, hn⟩ | ⟨h0, _, s, _, _, hn⟩
  · simp [h0, hn]
  · cases hs : hp.serves a <;> simp [h0, hn, hs]

theorem exists_lastNamed (f : File) (nm : List Nat) :
    ∀ n, n ≤ f.ehdr.e_shnum → (∃ i, i < n ∧ f.secNamed i nm) →
      ∃ i, i < n ∧ f.secNamed i nm ∧ ∀ j, j < n → i < j → ¬ f.secNamed j nm := by
  intro n
  induction n with
  | zero => intro _ ⟨i, hi, _⟩; omega
  | succ n ih =>
    intro hn ⟨i, hi, hs⟩
    by_cases hlast : f.secNamed n nm
    · exact ⟨n, by omega, hlast, fun j hj hlt => by omega⟩
    · have hi' : i < n := by
        rcases Nat.lt_or_ge i n with h | h
        · exact h
        · have : i = n := by omega
          subst this
          exact absurd hs hlast
      obtain ⟨k, hk, hks, hkl⟩ := ih (by omega) ⟨i, hi', hs⟩
      refine ⟨k, by omega, hks, ?_⟩
      intro j hj hlt
      rcases Nat.lt_or_ge j n with h | h
      · exact hkl j h hlt
      · have : j = n := by omega
        subst this
        exact hlast

theorem lastNamed_of_exists (f : File) (nm : List Nat)
    (h : ∃ i, i < f.ehdr.e_shnum ∧ f.secNamed i nm) : ∃ i, f.lastNamed i nm := by
  obtain ⟨i, hi, hs, hl⟩ := exists_lastNamed f nm f.ehdr.e_shnum (Nat.le_refl _) h
  exact ⟨i, hi, hs, hl⟩

/-- The entries of a non-empty table of a well-formed file. -/
theorem tableOkOn_entries (hp : Heap) (mk : Nat → Alloc) (f : File) (symName strName : List Nat)
    (sl : ElfSymbolList) (hok : f.tableOkOn hp mk symName strName sl) (l : List ElfSymbol)
    (hl : sl.list = some l) :
    ∃ i, f.lastNamed i symName ∧ 0 < toInt32 (f.symCount i) ∧
      (l.length : Int) = toInt32 (f.symCount i) ∧
      ∀ k, k < l.length → ∃ nm, l[k]? = some { symbol := f.symAt i k, name := nm } ∧
        f.symNameOn (hp.serves (mk k)) strName (f.symAt i k).st_name nm := by
  by_cases hex : ∃ i, i < f.ehdr.e_shnum ∧ f.secNamed i symName
  · obtain ⟨i, hi⟩ := lastNamed_of_exists f symName hex
    obtain ⟨h0, hneg, hpos⟩ := hok.2 i hi
    rcases lt_trichotomy (toInt32 (f.symCount i)) 0 with hc | hc | hc
    · rw [hneg hc] at hl; simp at hl
    · rw [h0 hc] at hl; simp at hl
    · obtain ⟨_, lst, h1, h2, h3⟩ := hpos hc
      rw [h1] at hl
      simp only [Option.some.injEq] at hl
      subst hl
      exact ⟨i, hi, hc, by omega, fun k hk => h3 k (by omega)⟩
  · have : sl = { size := 0, list := none } :=
      hok.1 (fun i hi hs => hex ⟨i, hi, hs⟩)
    rw [this] at hl
    simp at hl

theorem steps_of_returned (hp : Heap) (f : File) (hm : f.hasMagic) (r : ElfData)
    (h : getELFData hp (.mapped f) = some r) : Steps hp f r := by
  rw [getELFData_mapped hp f (hasMagic_size f hm)] at h
  rcases extract_inv hp f r h with ⟨hn, _⟩ | ⟨_, hs⟩
  · exact absurd hm hn
  · exact hs

theorem entries_name_absent_iff (hp : Heap) (arr : Alloc) (mk : Nat → Alloc) (f : File)
    (ptr strtab : Option Nat) (num : Int) (sl : ElfSymbolList)
    (h : copySymbols hp arr mk f ptr strtab num = some sl) (l : List ElfSymbol)
    (hl : sl.list = some l) (k : Nat) (e : ElfSymbol) (he : l[k]? = some e) :
    e.name = none ↔ e.symbol.st_name = 0 ∨ hp.serves (mk k) = false := by
  obtain ⟨off, _, _, _, hall⟩ := copySymbols_entries hp arr mk f ptr strtab num sl h l hl
  have hlt : k < l.length := (List.getElem?_eq_some_iff.mp he).1
  obtain ⟨nm, h1, h2⟩ := hall k hlt
  rw [he] at h1
  rw [Option.some.inj h1]
  exact symName_absent_iff hp _ f strtab _ nm h2

theorem entries_name_string (hp : Heap) (mk : Nat → Alloc) (f : File)
    (symName strName : List Nat) (sl : ElfSymbolList)
    (hok : f.tableOkOn hp mk symName strName sl) (l : List ElfSymbol) (hl : sl.list = some l)
    (e : ElfSymbol) (he : e ∈ l) (s : List Nat) (hs : e.name = some s) :
    ∃ j, f.lastNamed j strName ∧
      IsCStr f.byte f.st_size ((f.shdr j).sh_offset + e.symbol.st_name) s := by
  obtain ⟨i, _, _, _, hall⟩ := tableOkOn_entries hp mk f symName strName sl hok l hl
  obtain ⟨k, hk⟩ := List.getElem?_of_mem he
  have hlt : k < l.length := (List.getElem?_eq_some_iff.mp hk).1
  obtain ⟨nm, h1, h2⟩ := hall k hlt
  rw [hk] at h1
  have := Option.some.inj h1
  subst this
  rcases h2 with ⟨_, hn⟩ | ⟨_, j, s', hj, hc, hn⟩
  · simp only at hs
    rw [hn] at hs
    exact absurd hs (by simp)
  · simp only at hs
    rw [hn] at hs
    cases hsv : hp.serves (mk k) with
    | false => simp [hsv] at hs
    | true =>
      simp only [hsv, if_true, Option.some.injEq] at hs
      subst hs
      exact ⟨j, hj, hc⟩

/-! ## Symbol names -/

/-- C11, amended: in every result returned for a mapped ELF file, the name of
the symbol at index `k` of the dynamic table, respectively of the static
table, is absent if and only if its raw `st_name` is 0 or the allocator
refused the copy of the name; so it is absent if and only if `st_name` is 0
when every allocation is served.  In a well-formed file a name that is
present is the NUL-terminated string at file offset (`.dynstr` `sh_offset` +
`st_name`) for a dynamic symbol and at (`.strtab` `sh_offset` + `st_name`)
for a static symbol; and a well-formed file does return when every
allocation is served. -/
theorem getELFData_symbolNames (f : File) (hm : f.hasMagic) :
    (∀ hp r, getELFData hp (.mapped f) = some r →
      (∀ l k e, r.dynSymbols.list = some l → l[k]? = some e →
        (e.name = none ↔ e.symbol.st_name = 0 ∨ hp.serves (Alloc.dynName k) = false)) ∧
      (∀ l k e, r.otherSymbols.list = some l → l[k]? = some e →
        (e.name = none ↔ e.symbol.st_name = 0 ∨ hp.serves (Alloc.otherName k) = false)) ∧
      (hp.servesAll →
        ∀ l e, r.dynSymbols.list = some l ∨ r.otherSymbols.list = some l → e ∈ l →
          (e.name = none ↔ e.symbol.st_name = 0)) ∧
      (WellFormed f →
        (∀ l e s, r.dynSymbols.list = some l → e ∈ l → e.name = some s →
          ∃ j, f.lastNamed j (cstr ".dynstr") ∧
            IsCStr f.byte f.st_size ((f.shdr j).sh_offset + e.symbol.st_name) s) ∧
        (∀ l e s, r.otherSymbols.list = some l → e ∈ l → e.name = some s →
          ∃ j, f.lastNamed j (cstr ".strtab") ∧
            IsCStr f.byte f.st_size ((f.shdr j).sh_offset + e.symbol.st_name) s))) ∧
    (WellFormed f → ∀ hp : Heap, hp.servesAll → ∃ r, getELFData hp (.mapped f) = some r) := by
  constructor
  · intro hp r h
    obtain ⟨_, sc, _, _, _, _, _, hdyn, hoth⟩ := steps_of_returned hp f hm r h
    have hd := fun l k e hl he =>
      entries_name_absent_iff hp _ _ f _ _ _ _ hdyn l hl k e he
    have ho := fun l k e hl he =>
      entries_name_absent_iff hp _ _ f _ _ _ _ hoth l hl k e he
    refine ⟨hd, ho, ?_, ?_⟩
    · intro hsv l e hl he
      obtain ⟨k, hk⟩ := List.getElem?_of_mem he
      rcases hl with hl | hl
      · rw [hd l k e hl hk, hsv (Alloc.dynName k)]
        simp
      · rw [ho l k e hl hk, hsv (Alloc.otherName k)]
        simp
    · intro wf
      obtain ⟨_, _, _, hno, hyes⟩ := getELFData_wf_inv hp f wf hm r h
      by_cases hs : f.hasSections
      · obtain ⟨_, _, _, hd, ho⟩ := hyes hs
        exact ⟨fun l e s hl he hn => entries_name_string hp _ f _ _ _ hd l hl e he s hn,
          fun l e s hl he hn => entries_name_string hp _ f _ _ _ ho l hl e he s hn⟩
      · obtain ⟨_, hd, ho⟩ := hno hs
        constructor
        · intro l e s hl
          rw [hd] at hl
          simp at hl
        · intro l e s hl
          rw [ho] at hl
          simp at hl
  · intro wf hp hsv
    exact getELFData_total hp f wf hm hsv

/-! ## Absent symbol sections -/

theorem scan_of_steps (hp : Heap) (f : File) (r : ElfData) (h : Steps hp f r) :
    ∃ sc, scanSections r.sections = some sc ∧
      copySymbols hp Alloc.dynList Alloc.dynName f
        sc.dynsym_ptr sc.dynsym_str_ptr sc.num_dynsym = some r.dynSymbols ∧
      copySymbols hp Alloc.otherList Alloc.otherName f
        sc.othersym_ptr sc.othersym_str_ptr sc.num_othersym = some r.otherSymbols := by
  obtain ⟨_, sc, _, _, _, _, h4, h5, h6⟩ := h
  exact ⟨sc, h4, h5, h6⟩

theorem scanSections_tracks (secs : Option (List ElfSection)) (sc : SymScan)
    (h : scanSections secs = some sc) (l : List ElfSection) (hl : secs = some l) :
    Tracks (cstr ".dynsym") l none sc.dynsym_ptr (fun s => some s.sectionHeader.sh_offset) ∧
    Tracks (cstr ".dynsym") l 0 sc.num_dynsym ElfSection.count ∧
    Tracks (cstr ".symtab") l none sc.othersym_ptr (fun s => some s.sectionHeader.sh_offset) ∧
    Tracks (cstr ".symtab") l 0 sc.num_othersym ElfSection.count ∧
    Tracks (cstr ".dynstr") l none sc.dynsym_str_ptr
      (fun s => some s.sectionHeader.sh_offset) ∧
    Tracks (cstr ".strtab") l none sc.othersym_str_ptr
      (fun s => some s.sectionHeader.sh_offset) := by
  subst hl
  exact (scanFrom_inv l SymScan.init sc h).2

theorem scan_absent (secs : Option (List ElfSection)) (sc : SymScan)
    (h : scanSections secs = some sc) :
    ((∀ l s, secs = some l → s ∈ l → s.sectionName ≠ some (cstr ".dynsym")) →
      sc.dynsym_ptr = none) ∧
    ((∀ l s, secs = some l → s ∈ l → s.sectionName ≠ some (cstr ".symtab")) →
      sc.othersym_ptr = none) := by
  cases secs with
  | none =>
    simp only [scanSections, Option.some.injEq] at h
    subst h
    exact ⟨fun _ => rfl, fun _ => rfl⟩
  | some l =>
    obtain ⟨t1, _, t3, _⟩ := scanSections_tracks _ sc h l rfl
    exact ⟨fun hn => t1.1 (lastSec_none _ l (fun s hs => hn l s rfl hs)),
      fun hn => t3.1 (lastSec_none _ l (fun s hs => hn l s rfl hs))⟩

/-- In every result returned for a mapped ELF file, a table whose section
name (`.dynsym`, respectively `.symtab`) is the resolved name of no returned
section, in particular when there is no section table, is empty: list null
and size 0. -/
theorem symbols_absent (hp : Heap) (f : File) (hm : f.hasMagic) (r : ElfData)
    (h : getELFData hp (.mapped f) = some r) :
    ((∀ l s, r.sections = some l → s ∈ l → s.sectionName ≠ some (cstr ".dynsym")) →
      r.dynSymbols = { size := 0, list := none }) ∧
    ((∀ l s, r.sections = some l → s ∈ l → s.sectionName ≠ some (cstr ".symtab")) →
      r.otherSymbols = { size := 0, list := none }) := by
  obtain ⟨sc, hsc, hdyn, hoth⟩ := scan_of_steps hp f r (steps_of_returned hp f hm r h)
  obtain ⟨a1, a2⟩ := scan_absent _ sc hsc
  constructor
  · intro hn
    rw [copySymbols_absent hp _ _ f _ _ _ (Or.inl (a1 hn))] at hdyn
    exact (Option.some.inj hdyn).symm
  · intro hn
    rw [copySymbols_absent hp _ _ f _ _ _ (Or.inl (a2 hn))] at hoth
    exact (Option.some.inj hoth).symm

/-! ## After the magic check -/

/-- C13, amended: for every well-formed mapped file that starts with the ELF
magic, `getELFData` returns a result whenever the allocator serves every
request of the call; and every result that it returns for such a file,
whatever the allocator answers, is not the failure sentinel, absent program
headers, sections or symbol sections only leaving the corresponding
collection empty. -/
theorem getELFData_returns (f : File) (wf : WellFormed f) (hm : f.hasMagic) :
    (∀ hp : Heap, hp.servesAll → ∃ r, getELFData hp (.mapped f) = some r) ∧
    ∀ hp r, getELFData hp (.mapped f) = some r →
      r ≠ zeroElfData ∧
      (f.ehdr.e_phoff = 0 ∨ f.ehdr.e_phnum = 0 → r.programHeader = none) ∧
      (¬ f.hasSections → r.sections = none ∧ r.dynSymbols = { size := 0, list := none } ∧
        r.otherSymbols = { size := 0, list := none }) ∧
      (f.hasSections →
        ((∀ i, i < f.ehdr.e_shnum → ¬ f.secNamed i (cstr ".dynsym")) →
          r.dynSymbols = { size := 0, list := none }) ∧
        ((∀ i, i < f.ehdr.e_shnum → ¬ f.secNamed i (cstr ".symtab")) →
          r.otherSymbols = { size := 0, list := none })) := by
  refine ⟨fun hp hsv => getELFData_total hp f wf hm hsv, ?_⟩
  intro hp r hr
  obtain ⟨_, hp0, _, hno, hyes⟩ := getELFData_wf_inv hp f wf hm r hr
  refine ⟨(steps_ne_zero hp f r hm (steps_of_returned hp f hm r hr)).2, hp0, hno, ?_⟩
  intro hs
  obtain ⟨_, _, _, hd, ho⟩ := hyes hs
  exact ⟨hd.1, ho.1⟩

/-! ## Descriptor and mapping -/

/-- On the paths that reach the end of the function, and on the failures of
`open` and `mmap`, the descriptor and the mapping are given back. -/
theorem events_released (hp : Heap) (t : Target) (r : ElfData) (h : getELFData hp t = some r)
    (hok : ¬ t.failed ∨ t = .openFails ∨ (∃ f, t = .mmapFails f)) :
    Released (getELFData_events hp t) .descriptor ∧
      Released (getELFData_events hp t) .mapping := by
  cases t with
  | openFails =>
    simp only [getELFData_events]
    exact ⟨by decide, by decide⟩
  | fstatFails =>
    rcases hok with hok | hok | ⟨f, hok⟩
    · exact absurd trivial hok
    · exact absurd hok (by simp)
    · exact absurd hok (by simp)
  | mmapFails f =>
    simp only [getELFData_events]
    exact ⟨by decide, by decide⟩
  | mapped f =>
    rcases hok with hok | hok | ⟨g, hok⟩
    · have h0 : f.st_size ≠ 0 := fun hc => hok (Or.inl hc)
      have hm : f.hasMagic := by
        by_contra hc
        exact hok (Or.inr hc)
      rw [getELFData_mapped hp f h0] at h
      have hm' : ¬ ((decodeEhdr f.peek 0).e_ident.take 4 ≠ ELFMAG) := by
        rw [take4_ident]; exact fun hc => hc hm
      simp only [getELFData_events, h0, if_false, h, hm']
      exact ⟨by decide, by decide⟩
    · exact absurd hok (by simp)
    · exact absurd hok (by simp)

/-! ## Teardown -/

theorem freeNames_mem (nameAt : Nat → Option (Option (List Nat))) (mk : Nat → Alloc) (n : Nat) :
    ∀ i l, freeNames nameAt mk i n = some l → ∀ a, a ∈ l → ∃ j, a = mk j := by
  induction n with
  | zero =>
    intro i l h a ha
    simp only [freeNames, Option.some.injEq] at h
    subst h
    simp at ha
  | succ n ih =>
    intro i l h a ha
    simp only [freeNames] at h
    cases h1 : nameAt i with
    | none => simp [h1] at h
    | some nm =>
      cases h2 : freeNames nameAt mk (i + 1) n with
      | none => simp [h1, h2] at h
      | some rest =>
        simp only [h1, h2, Option.some.injEq] at h
        subst h
        rcases List.mem_append.mp ha with ha | ha
        · by_cases hs : nm.isSome = true
          · simp only [hs, if_true, List.mem_singleton] at ha
            exact ⟨i, ha⟩
          · simp [hs] at ha
        · exact ih (i + 1) rest h2 a ha

theorem freeNames_eq (nameAt : Nat → Option (Option (List Nat))) (mk : Nat → Alloc)
    (p : Nat → Bool) (n : Nat) :
    ∀ i, (∀ j, i ≤ j → j < i + n → ∃ nm, nameAt j = some nm ∧ nm.isSome = p j) →
      freeNames nameAt mk i n = some (((List.range' i n).filter p).map mk) := by
  induction n with
  | zero => intro i _; simp [freeNames]
  | succ n ih =>
    intro i h
    obtain ⟨nm, h1, h2⟩ := h i (Nat.le_refl _) (by omega)
    have h3 := ih (i + 1) (fun j hj hlt => h j (by omega) (by omega))
    simp only [freeNames, h1, h3, List.range'_succ, List.filter_cons, h2]
    cases p i <;> simp

theorem destroySymbols_absent (sl : ElfSymbolList) (mk : Nat → Alloc) (arr : Alloc)
    (h : sl.list = none) : destroySymbols sl mk arr = some [] := by
  simp [destroySymbols, h]

theorem destroySymbols_mem (sl : ElfSymbolList) (mk : Nat → Alloc) (arr : Alloc)
    (l : List Alloc) (h : destroySymbols sl mk arr = some l) :
    (sl.list = none → l = []) ∧ ∀ a, a ∈ l → a = arr ∨ ∃ j, a = mk j := by
  unfold destroySymbols at h
  cases hl : sl.list with
  | none =>
    simp only [hl, Option.some.injEq] at h
    subst h
    exact ⟨fun _ => rfl, fun a ha => by simp at ha⟩
  | some lst =>
    simp only [hl] at h
    cases hf : freeNames (fun i => lst[i]?.map (fun e => e.name)) mk 0 sl.size.toNat with
    | none => simp [hf] at h
    | some names =>
      simp only [hf, Option.map_some', Option.some.injEq] at h
      subst h
      refine ⟨fun hc => by simp at hc, ?_⟩
      intro a ha
      rcases List.mem_append.mp ha with ha | ha
      · exact Or.inr (freeNames_mem _ mk _ 0 names hf a ha)
      · exact Or.inl (List.mem_singleton.mp ha)

theorem destroySections_mem (secs : Option (List ElfSection)) (n : Nat) (l : List Alloc)
    (h : destroySections secs n = some l) :
    (secs = none → l = []) ∧ ∀ a, a ∈ l → a = Alloc.sections ∨ ∃ j, a = Alloc.sectionName j := by
  unfold destroySections at h
  cases secs with
  | none =>
    simp only [Option.some.injEq] at h
    subst h
    exact ⟨fun _ => rfl, fun a ha => by simp at ha⟩
  | some lst =>
    simp only at h
    cases hf : freeNames (fun i => lst[i]?.map (fun s => s.sectionName))
        Alloc.sectionName 0 n with
    | none => simp [hf] at h
    | some names =>
      simp only [hf, Option.map_some', Option.some.injEq] at h
      subst h
      refine ⟨fun hc => by simp at hc, ?_⟩
      intro a ha
      rcases List.mem_append.mp ha with ha | ha
      · exact Or.inr (freeNames_mem _ _ _ 0 names hf a ha)
      · exact Or.inl (List.mem_singleton.mp ha)

/-- The shape of what `destroyELFData` releases, for any value. -/
theorem destroyELFData_inv (r : ElfData) (frees : List Alloc)
    (h : destroyELFData r = some frees) :
    ∃ a1 a2 a3 a4, frees = a1 ++ a2 ++ a3 ++ a4 ∧
      (r.programHeader = none → a1 = []) ∧ (∀ a, a ∈ a1 → a = Alloc.programHeader) ∧
      (r.sections = none → a2 = []) ∧
      (∀ a, a ∈ a2 → a = Alloc.sections ∨ ∃ j, a = Alloc.sectionName j) ∧
      (r.dynSymbols.list = none → a3 = []) ∧
      (∀ a, a ∈ a3 → a = Alloc.dynList ∨ ∃ j, a = Alloc.dynName j) ∧
      (r.otherSymbols.list = none → a4 = []) ∧
      (∀ a, a ∈ a4 → a = Alloc.otherList ∨ ∃ j, a = Alloc.otherName j) := by
  unfold destroyELFData at h
  cases h2 : destroySections r.sections r.elfHeader.e_shnum with
  | none => simp [h2] at h
  | some a2 =>
    cases h3 : destroySymbols r.dynSymbols Alloc.dynName Alloc.dynList with
    | none => simp [h2, h3] at h
    | some a3 =>
      cases h4 : destroySymbols r.otherSymbols Alloc.otherName Alloc.otherList with
      | none => simp [h2, h3, h4] at h
      | some a4 =>
        simp only [h2, h3, h4, Option.some.injEq] at h
        obtain ⟨s1, s2⟩ := destroySections_mem _ _ a2 h2
        obtain ⟨d1, d2⟩ := destroySymbols_mem _ _ _ a3 h3
        obtain ⟨o1, o2⟩ := destroySymbols_mem _ _ _ a4 h4
        refine ⟨_, a2, a3, a4, h.symm, ?_, ?_, s1, s2, d1, d2, o1, o2⟩
        · intro hq; simp [destroyProgramHeader, hq]
        · intro a ha
          cases hq : r.programHeader with
          | none => simp [destroyProgramHeader, hq] at ha
          | some _ => simpa [destroyProgramHeader, hq] using ha

/-- C15: `destroyELFData` applied to the zero sentinel, or to any value whose
program header, section and symbol list pointers are all null, releases
nothing; and each null collection is skipped, whatever the counts say: nothing
that belongs to it is released. -/
theorem destroyELFData_absent :
    destroyELFData zeroElfData = some [] ∧
    (∀ r : ElfData, r.programHeader = none → r.sections = none →
      r.dynSymbols.list = none → r.otherSymbols.list = none → destroyELFData r = some []) ∧
    (∀ (r : ElfData) (frees : List Alloc), destroyELFData r = some frees →
      (r.programHeader = none → Alloc.programHeader ∉ frees) ∧
      (r.sections = none →
        Alloc.sections ∉ frees ∧ ∀ i, Alloc.sectionName i ∉ frees) ∧
      (r.dynSymbols.list = none →
        Alloc.dynList ∉ frees ∧ ∀ i, Alloc.dynName i ∉ frees) ∧
      (r.otherSymbols.list = none →
        Alloc.otherList ∉ frees ∧ ∀ i, Alloc.otherName i ∉ frees)) := by
  refine ⟨rfl, ?_, ?_⟩
  · intro r h1 h2 h3 h4
    simp [destroyELFData, destroySections, destroyProgramHeader, destroySymbols, h1, h2, h3, h4]
  · intro r frees h
    obtain ⟨a1, a2, a3, a4, hf, p0, p1, s0, s1, d0, d1, o0, o1⟩ := destroyELFData_inv r frees h
    subst hf
    have key : ∀ a, a ∈ a1 ++ a2 ++ a3 ++ a4 → a ∈ a1 ∨ a ∈ a2 ∨ a ∈ a3 ∨ a ∈ a4 := by
      intro a ha
      simp only [List.mem_append] at ha
      tauto
    refine ⟨?_, ?_, ?_, ?_⟩
    · intro hn ha
      rcases key _ ha with ha | ha | ha | ha
      · rw [p0 hn] at ha; simp at ha
      · rcases s1 _ ha with hc | ⟨_, hc⟩ <;> simp at hc
      · rcases d1 _ ha with hc | ⟨_, hc⟩ <;> simp at hc
      · rcases o1 _ ha with hc | ⟨_, hc⟩ <;> simp at hc
    · intro hn
      have hfree : ∀ a, a ∈ a1 ++ a2 ++ a3 ++ a4 → a.group ≠ 1 := by
        intro a ha
        rcases key _ ha with ha | ha | ha | ha
        · rw [p1 _ ha]; decide
        · rw [s0 hn] at ha; simp at ha
        · rcases d1 _ ha with hc | ⟨_, hc⟩ <;> rw [hc] <;> simp [Alloc.group]
        · rcases o1 _ ha with hc | ⟨_, hc⟩ <;> rw [hc] <;> simp [Alloc.group]
      exact ⟨fun ha => hfree _ ha rfl, fun i ha => hfree _ ha rfl⟩
    · intro hn
      have hfree : ∀ a, a ∈ a1 ++ a2 ++ a3 ++ a4 → a.group ≠ 2 := by
        intro a ha
        rcases key _ ha with ha | ha | ha | ha
        · rw [p1 _ ha]; decide
        · rcases s1 _ ha with hc | ⟨_, hc⟩ <;> rw [hc] <;> simp [Alloc.group]
        · rw [d0 hn] at ha; simp at ha
        · rcases o1 _ ha with hc | ⟨_, hc⟩ <;> rw [hc] <;> simp [Alloc.group]
      exact ⟨fun ha => hfree _ ha rfl, fun i ha => hfree _ ha rfl⟩
    · intro hn
      have hfree : ∀ a, a ∈ a1 ++ a2 ++ a3 ++ a4 → a.group ≠ 3 := by
        intro a ha
        rcases key _ ha with ha | ha | ha | ha
        · rw [p1 _ ha]; decide
        · rcases s1 _ ha with hc | ⟨_, hc⟩ <;> rw [hc] <;> simp [Alloc.group]
        · rcases d1 _ ha with hc | ⟨_, hc⟩ <;> rw [hc] <;> simp [Alloc.group]
        · rw [o0 hn] at ha; simp at ha
      exact ⟨fun ha => hfree _ ha rfl, fun i ha => hfree _ ha rfl⟩

theorem block_perm (arr : Alloc) (a f : List Alloc) (h : Block arr a f) : f.Perm a := by
  rcases h with ⟨ha, hf⟩ | ⟨names, ha, hf, _⟩
  · rw [ha, hf]
  · rw [ha, hf]
    exact List.perm_append_singleton arr names

theorem block_nodup (arr : Alloc) (a f : List Alloc) (h : Block arr a f) : f.Nodup := by
  rcases h with ⟨_, hf⟩ | ⟨names, _, hf, hn, hnot, _⟩
  · rw [hf]; exact List.nodup_nil
  · rw [hf]
    apply List.Nodup.append hn (List.nodup_singleton arr)
    intro x hx hx'
    rw [List.mem_singleton.mp hx'] at hx
    exact hnot hx

theorem block_group (arr : Alloc) (a f : List Alloc) (h : Block arr a f) :
    ∀ x, x ∈ f → x.group = arr.group := by
  rcases h with ⟨_, hf⟩ | ⟨names, _, hf, _, _, hg⟩
  · intro x hx; rw [hf] at hx; simp at hx
  · intro x hx
    rw [hf] at hx
    rcases List.mem_append.mp hx with hx | hx
    · exact hg x hx
    · rw [List.mem_singleton.mp hx]

theorem block_order (arr : Alloc) (a f : List Alloc) (h : Block arr a f) :
    ∀ x, x ∈ f → x ≠ arr → [x, arr].Sublist f := by
  rcases h with ⟨_, hf⟩ | ⟨names, _, hf, _, _, _⟩
  · intro x hx; rw [hf] at hx; simp at hx
  · intro x hx hne
    rw [hf] at hx ⊢
    rcases List.mem_append.mp hx with hx | hx
    · have h1 : [x].Sublist names := List.singleton_sublist.mpr hx
      exact List.Sublist.append h1 (List.Sublist.refl [arr])
    · exact absurd (List.mem_singleton.mp hx) hne

theorem programHeader_block (hp : Heap) (f : File) (eh : Elf64_Ehdr)
    (ph : Option (List Elf64_Phdr)) (h : copyProgramHeader hp f eh = some ph) :
    Block Alloc.programHeader
      (if eh.e_phoff ≠ 0 ∧ eh.e_phnum ≠ 0 then [Alloc.programHeader] else [])
      (destroyProgramHeader ph) := by
  rcases copyProgramHeader_inv hp f eh ph h with ⟨h0, hq⟩ | ⟨h1, h2, _, _, hq⟩
  · left
    have : ¬ (eh.e_phoff ≠ 0 ∧ eh.e_phnum ≠ 0) := by
      rcases h0 with h0 | h0 <;> simp [h0]
    rw [if_neg this, hq]
    exact ⟨rfl, rfl⟩
  · right
    rw [if_pos ⟨h1, h2⟩, hq]
    exact ⟨[], rfl, rfl, List.nodup_nil, by simp, by simp⟩

theorem filter_all {α : Type} (p : α → Bool) (l : List α) (h : ∀ a, a ∈ l → p a = true) :
    l.filter p = l :=
  List.filter_eq_self.mpr h

theorem sections_block (hp : Heap) (f : File) (eh : Elf64_Ehdr)
    (secs0 secs : Option (List ElfSection)) (sc : SymScan)
    (h1 : copySections hp f eh = some secs0)
    (h2 : resolveSectionNames hp f eh secs0 = some secs)
    (h3 : scanSections secs = some sc) :
    ∃ frees, destroySections secs eh.e_shnum = some frees ∧
      Block Alloc.sections
        (if eh.e_shoff ≠ 0 ∧ eh.e_shnum ≠ 0 then
          Alloc.sections :: ((List.range eh.e_shnum).filter
            (fun i => hp.serves (Alloc.sectionName i))).map Alloc.sectionName
        else []) frees := by
  rcases sections_inv hp f eh secs0 secs sc h1 h2 h3 with ⟨hc, hs⟩ |
    ⟨hc, _, _, l, hs, hlen, hall⟩
  · subst hs
    exact ⟨[], rfl, Or.inl ⟨by rw [if_neg hc], rfl⟩⟩
  · subst hs
    have hfree := freeNames_eq (fun i => l[i]?.map (fun s => s.sectionName)) Alloc.sectionName
      (fun _ => true) eh.e_shnum 0 (by
        intro j _ hj
        obtain ⟨_, _, nm, hj1, _⟩ := hall j (by omega)
        exact ⟨some nm, by simp [hj1], rfl⟩)
    have hnames : ((List.range' 0 eh.e_shnum).filter (fun _ => true)).map Alloc.sectionName =
        (List.range eh.e_shnum).map Alloc.sectionName := by
      rw [List.range_eq_range']
      simp
    rw [hnames] at hfree
    have hserved : (List.range eh.e_shnum).filter (fun i => hp.serves (Alloc.sectionName i)) =
        List.range eh.e_shnum := by
      apply filter_all
      intro i hi
      exact (hall i (List.mem_range.mp hi)).2.1
    rw [hserved]
    refine ⟨_, by simp only [destroySections, hfree]; rfl, Or.inr ⟨_, by rw [if_pos hc], rfl, ?_, ?_, ?_⟩⟩
    · exact (List.nodup_range _).map (fun a b hab => by injection hab)
    · intro hmem
      obtain ⟨_, _, hc'⟩ := List.mem_map.mp hmem
      exact absurd hc' (by simp)
    · intro a ha
      obtain ⟨_, _, hc'⟩ := List.mem_map.mp ha
      rw [← hc']
      rfl

theorem symbols_block (hp : Heap) (f : File) (ptr strtab : Option Nat) (num : Int)
    (sl : ElfSymbolList) (mk : Nat → Alloc) (arr : Alloc)
    (h : copySymbols hp arr mk f ptr strtab num = some sl)
    (hinj : Function.Injective mk) (hne : ∀ i, mk i ≠ arr)
    (hg : ∀ i, (mk i).group = arr.group) :
    ∃ frees, destroySymbols sl mk arr = some frees ∧
      Block arr (symAllocs hp f arr mk ptr num) frees := by
  rcases copySymbols_inv hp arr mk f ptr strtab num sl h with ⟨h0, hs⟩ |
    ⟨off, l, hq, hn, hm, hr, hs⟩ | ⟨off, hq, hn, hm, _, hs⟩
  · subst hs
    refine ⟨[], rfl, Or.inl ⟨?_, rfl⟩⟩
    cases ptr with
    | none => rfl
    | some off =>
      rcases h0 with h0 | h0
      · simp at h0
      · simp [symAllocs, h0]
  · subst hs hq
    obtain ⟨hlen, hall⟩ := readSymbols_inv hp mk f strtab num.toNat off 0 l hr
    have hfree := freeNames_eq (fun i => l[i]?.map (fun e => e.name)) mk
      (fun i => decide ((decodeSym f.peek (off + 24 * i)).st_name ≠ 0) && hp.serves (mk i))
      num.toNat 0 (by
        intro j _ hj
        obtain ⟨_, nm, hj1, hj2⟩ := hall j (by omega)
        rw [Nat.zero_add] at hj2
        refine ⟨nm, by simp [hj1], ?_⟩
        have := symName_absent_iff hp _ f strtab _ nm hj2
        cases nm with
        | none =>
          rcases this.mp rfl with h0 | h0
          · simp [h0]
          · simp [h0]
        | some s =>
          have hne0 : (decodeSym f.peek (off + 24 * j)).st_name ≠ 0 := by
            intro hc
            exact absurd (this.mpr (Or.inl hc)) (by simp)
          have hsv : hp.serves (mk j) = true := by
            by_contra hc
            have hc' : hp.serves (mk j) = false := by simpa using hc
            exact absurd (this.mpr (Or.inr hc')) (by simp)
          simp [hne0, hsv])
    rw [← List.range_eq_range'] at hfree
    refine ⟨_, by simp only [destroySymbols, hfree]; rfl, Or.inr ⟨_, ?_, rfl, ?_, ?_, ?_⟩⟩
    · simp only [symAllocs, hn, if_false, hm, if_true]
    · exact ((List.nodup_range _).filter _).map hinj
    · intro hmem
      obtain ⟨i, _, hc'⟩ := List.mem_map.mp hmem
      exact hne i hc'
    · intro a ha
      obtain ⟨i, _, hc'⟩ := List.mem_map.mp ha
      rw [← hc']
      exact hg i
  · subst hs hq
    refine ⟨[], rfl, Or.inl ⟨?_, rfl⟩⟩
    simp [symAllocs, hn, hm]

theorem extractAllocs_of_steps (hp : Heap) (f : File) (r : ElfData) (h0 : f.st_size ≠ 0)
    (hm : f.hasMagic) (h : Steps hp f r) :
    ∃ sc, scanSections r.sections = some sc ∧
      extractAllocs hp f = some
        ((if r.elfHeader.e_phoff ≠ 0 ∧ r.elfHeader.e_phnum ≠ 0 then [Alloc.programHeader]
          else [])
          ++ (if r.elfHeader.e_shoff ≠ 0 ∧ r.elfHeader.e_shnum ≠ 0 then
                Alloc.sections :: ((List.range r.elfHeader.e_shnum).filter
                  (fun i => hp.serves (Alloc.sectionName i))).map Alloc.sectionName
              else [])
          ++ symAllocs hp f Alloc.dynList Alloc.dynName sc.dynsym_ptr sc.num_dynsym
          ++ symAllocs hp f Alloc.otherList Alloc.otherName
              sc.othersym_ptr sc.num_othersym) := by
  obtain ⟨secs0, sc, he, h1, h2, h3, h4, _, _⟩ := h
  refine ⟨sc, h4, ?_⟩
  have hlen := mapLen_pos f h0
  have hm' : ¬ ((decodeEhdr f.peek 0).e_ident.take 4 ≠ ELFMAG) := by
    rw [take4_ident]; exact fun hc => hc hm
  unfold extractAllocs
  rw [memcpyFrom_some f decodeEhdr 0 64 (by omega)]
  simp only [if_neg hm']
  rw [← he, h1, h2]
  simp only [h3, h4]

/-- Four parts, one after the other: what is released is what was obtained,
nothing twice, and in each part the strings go before the array. -/
theorem blocks_released (a0 a1 a2 a3 f0 f1 f2 f3 : List Alloc)
    (b0 : Block Alloc.programHeader a0 f0) (b1 : Block Alloc.sections a1 f1)
    (b2 : Block Alloc.dynList a2 f2) (b3 : Block Alloc.otherList a3 f3) :
    (f0 ++ f1 ++ f2 ++ f3).Perm (a0 ++ a1 ++ a2 ++ a3) ∧ (f0 ++ f1 ++ f2 ++ f3).Nodup ∧
    (∀ i, Alloc.sectionName i ∈ f0 ++ f1 ++ f2 ++ f3 →
      [Alloc.sectionName i, Alloc.sections].Sublist (f0 ++ f1 ++ f2 ++ f3)) ∧
    (∀ i, Alloc.dynName i ∈ f0 ++ f1 ++ f2 ++ f3 →
      [Alloc.dynName i, Alloc.dynList].Sublist (f0 ++ f1 ++ f2 ++ f3)) ∧
    (∀ i, Alloc.otherName i ∈ f0 ++ f1 ++ f2 ++ f3 →
      [Alloc.otherName i, Alloc.otherList].Sublist (f0 ++ f1 ++ f2 ++ f3)) := by
  have g0 := block_group _ _ _ b0
  have g1 := block_group _ _ _ b1
  have g2 := block_group _ _ _ b2
  have g3 := block_group _ _ _ b3
  have key : ∀ a, a ∈ f0 ++ f1 ++ f2 ++ f3 → a ∈ f0 ∨ a ∈ f1 ∨ a ∈ f2 ∨ a ∈ f3 := by
    intro a ha
    simp only [List.mem_append] at ha
    tauto
  refine ⟨?_, ?_, ?_, ?_, ?_⟩
  · exact (((block_perm _ _ _ b0).append (block_perm _ _ _ b1)).append
      (block_perm _ _ _ b2)).append (block_perm _ _ _ b3)
  · apply List.Nodup.append
    · apply List.Nodup.append
      · apply List.Nodup.append (block_nodup _ _ _ b0) (block_nodup _ _ _ b1)
        intro x h0 h1
        have e0 := g0 x h0
        have e1 := g1 x h1
        rw [e0] at e1
        exact absurd e1 (by simp [Alloc.group])
      · exact block_nodup _ _ _ b2
      · intro x h01 h2
        have e2 := g2 x h2
        rcases List.mem_append.mp h01 with h | h
        · have e := g0 x h; rw [e] at e2; exact absurd e2 (by simp [Alloc.group])
        · have e := g1 x h; rw [e] at e2; exact absurd e2 (by simp [Alloc.group])
    · exact block_nodup _ _ _ b3
    · intro x h012 h3
      have e3 := g3 x h3
      simp only [List.mem_append] at h012
      rcases h012 with (h | h) | h
      · have e := g0 x h; rw [e] at e3; exact absurd e3 (by simp [Alloc.group])
      · have e := g1 x h; rw [e] at e3; exact absurd e3 (by simp [Alloc.group])
      · have e := g2 x h; rw [e] at e3; exact absurd e3 (by simp [Alloc.group])
  · intro i hi
    rcases key _ hi with h | h | h | h
    · exact absurd (g0 _ h) (by simp [Alloc.group])
    · have hs := block_order _ _ _ b1 _ h (by simp)
      have : f0 ++ f1 ++ f2 ++ f3 = f0 ++ (f1 ++ (f2 ++ f3)) := by simp
      rw [this]
      exact (hs.trans (List.sublist_append_left f1 (f2 ++ f3))).trans
        (List.sublist_append_right f0 _)
    · exact absurd (g2 _ h) (by simp [Alloc.group])
    · exact absurd (g3 _ h) (by simp [Alloc.group])
  · intro i hi
    rcases key _ hi with h | h | h | h
    · exact absurd (g0 _ h) (by simp [Alloc.group])
    · exact absurd (g1 _ h) (by simp [Alloc.group])
    · have hs := block_order _ _ _ b2 _ h (by simp)
      have : f0 ++ f1 ++ f2 ++ f3 = (f0 ++ f1) ++ (f2 ++ f3) := by simp
      rw [this]
      exact (hs.trans (List.sublist_append_left f2 f3)).trans
        (List.sublist_append_right (f0 ++ f1) _)
    · exact absurd (g3 _ h) (by simp [Alloc.group])
  · intro i hi
    rcases key _ hi with h | h | h | h
    · exact absurd (g0 _ h) (by simp [Alloc.group])
    · exact absurd (g1 _ h) (by simp [Alloc.group])
    · exact absurd (g2 _ h) (by simp [Alloc.group])
    · have hs := block_order _ _ _ b3 _ h (by simp)
      exact hs.trans (List.sublist_append_right (f0 ++ f1 ++ f2) f3)

/-- C16: for every result `r` that `getELFData` returns, `destroyELFData r`
releases exactly the blocks that the call obtained (the program header array,
the section array, each section name, each symbol array, each symbol name
that is not null), each exactly once and nothing else, and releases every
section name and every symbol name before the array that contains it; this
whatever the allocator answered during the call. -/
theorem destroyELFData_releases (hp : Heap) (t : Target) (r : ElfData)
    (h : getELFData hp t = some r) :
    ∃ allocs frees, getELFData_allocs hp t = some allocs ∧ destroyELFData r = some frees ∧
      frees.Perm allocs ∧ frees.Nodup ∧
      (∀ i, Alloc.sectionName i ∈ frees → [Alloc.sectionName i, Alloc.sections].Sublist frees) ∧
      (∀ i, Alloc.dynName i ∈ frees → [Alloc.dynName i, Alloc.dynList].Sublist frees) ∧
      (∀ i, Alloc.otherName i ∈ frees →
        [Alloc.otherName i, Alloc.otherList].Sublist frees) := by
  have zero : ∀ t', getELFData_allocs hp t' = some [] → r = zeroElfData →
      ∃ allocs frees, getELFData_allocs hp t' = some allocs ∧ destroyELFData r = some frees ∧
      frees.Perm allocs ∧ frees.Nodup ∧
      (∀ i, Alloc.sectionName i ∈ frees → [Alloc.sectionName i, Alloc.sections].Sublist frees) ∧
      (∀ i, Alloc.dynName i ∈ frees → [Alloc.dynName i, Alloc.dynList].Sublist frees) ∧
      (∀ i, Alloc.otherName i ∈ frees →
        [Alloc.otherName i, Alloc.otherList].Sublist frees) := by
    intro t' ht hr
    subst hr
    exact ⟨[], [], ht, rfl, List.Perm.refl _, List.nodup_nil,
      fun i hi => by simp at hi, fun i hi => by simp at hi, fun i hi => by simp at hi⟩
  cases t with
  | openFails => exact zero _ rfl (Option.some.inj h).symm
  | fstatFails => exact zero _ rfl (Option.some.inj h).symm
  | mmapFails f => exact zero _ rfl (Option.some.inj h).symm
  | mapped f =>
    by_cases h0 : f.st_size = 0
    · refine zero _ (by simp [getELFData_allocs, h0]) ?_
      simp only [getELFData, h0, if_true, Option.some.injEq] at h
      exact h.symm
    · have h' := h
      rw [getELFData_mapped hp f h0] at h'
      rcases extract_inv hp f r h' with ⟨hn, hr⟩ | ⟨hm, hs⟩
      · refine zero _ ?_ hr
        have hlen := mapLen_pos f h0
        have hm' : (decodeEhdr f.peek 0).e_ident.take 4 ≠ ELFMAG := by
          rw [take4_ident]; exact hn
        simp only [getELFData_allocs, h0, if_false]
        unfold extractAllocs
        rw [memcpyFrom_some f decodeEhdr 0 64 (by omega)]
        simp only [if_pos hm']
      · obtain ⟨sc, hsc, hal⟩ := extractAllocs_of_steps hp f r h0 hm hs
        obtain ⟨secs0, sc', he, h1, h2, h3, h4, h5, h6⟩ := hs
        rw [hsc] at h4
        have := Option.some.inj h4
        subst this
        have b0 := programHeader_block hp f _ _ h1
        obtain ⟨f1, hf1, b1⟩ := sections_block hp f _ _ _ _ h2 h3 hsc
        obtain ⟨f2, hf2, b2⟩ := symbols_block hp f _ _ _ _ Alloc.dynName Alloc.dynList h5
          (fun a b hab => by injection hab) (fun i => by simp) (fun i => rfl)
        obtain ⟨f3, hf3, b3⟩ := symbols_block hp f _ _ _ _ Alloc.otherName Alloc.otherList h6
          (fun a b hab => by injection hab) (fun i => by simp) (fun i => rfl)
        refine ⟨_, destroyProgramHeader r.programHeader ++ f1 ++ f2 ++ f3, ?_, ?_,
          blocks_released _ _ _ _ _ _ _ _ b0 b1 b2 b3⟩
        · simp only [getELFData_allocs, h0, if_false]
          exact hal
        · simp only [destroyELFData, hf1, hf2, hf3]

/-! ## Safety on well-formed files -/

/-- C17, amended: for every mapped file that satisfies the well-formedness
preconditions (`WellFormed`), and an allocator that serves every request of
the call, the checked embedding of `getELFData` takes no error branch: every
read lies inside the mapping, no division by zero occurs and no null pointer
is written through or read, so a result is returned; it holds what the file
contains when the file starts with the ELF magic and is the zeroed sentinel
otherwise. -/
theorem getELFData_safe (hp : Heap) (f : File) (wf : WellFormed f) (hsv : hp.servesAll) :
    ∃ r, getELFData hp (.mapped f) = some r ∧ (f.hasMagic → Describes f r) ∧
      (¬ f.hasMagic → r = zeroElfData) := by
  have hsz : f.st_size ≠ 0 := by have := wf.header; omega
  by_cases hm : f.hasMagic
  · obtain ⟨r, hr, hd⟩ := getELFData_wf hp f wf hm hsv
    exact ⟨r, hr, fun _ => hd, fun hn => absurd hm hn⟩
  · refine ⟨zeroElfData, ?_, fun h => absurd h hm, fun _ => rfl⟩
    rw [getELFData_mapped hp f hsz]
    exact extract_not_magic hp f hsz hm

/-! ## Section names are never absent -/

theorem steps_of_sections (hp : Heap) (f : File) (r : ElfData) (l : List ElfSection)
    (h : getELFData hp (.mapped f) = some r) (hl : r.sections = some l) :
    f.hasMagic ∧ Steps hp f r := by
  have hz : r ≠ zeroElfData := by
    intro hc
    rw [hc] at hl
    simp [zeroElfData] at hl
  by_cases h0 : f.st_size = 0
  · simp only [getELFData, h0, if_true, Option.some.injEq] at h
    exact absurd h.symm hz
  · rw [getELFData_mapped hp f h0] at h
    rcases extract_inv hp f r h with ⟨_, hr⟩ | hs
    · exact absurd hr hz
    · exact hs

/-- C18: whenever `getELFData` returns a section collection that is not
absent, whatever the allocator answers, it has `e_shnum` entries and every
entry has a resolved name, the string read at the offset of the section-name
string table plus the raw `sh_name`, hence for `sh_name = 0` the string at the
very start of that table: no entry has a null name, the copy of every name
having been served. -/
theorem getELFData_sectionName_present (hp : Heap) (f : File) (r : ElfData)
    (l : List ElfSection) (h : getELFData hp (.mapped f) = some r)
    (hl : r.sections = some l) :
    l.length = r.elfHeader.e_shnum ∧
    (∀ s, s ∈ l → s.sectionName ≠ none) ∧
    (∀ i, i < r.elfHeader.e_shnum → hp.serves (Alloc.sectionName i) = true) ∧
    ∃ tab, l[r.elfHeader.e_shstrndx]? = some tab ∧
      ∀ s, s ∈ l → ∃ nm, s.sectionName = some nm ∧
        readCString f (tab.sectionHeader.sh_offset + s.sectionHeader.sh_name) = some nm ∧
        (s.sectionHeader.sh_name = 0 →
          readCString f tab.sectionHeader.sh_offset = some nm) := by
  obtain ⟨_, secs0, sc, _, _, h2, h3, h4, _⟩ := steps_of_sections hp f r l h hl
  rcases sections_inv hp f r.elfHeader secs0 r.sections sc h2 h3 h4 with ⟨_, hn⟩ |
    ⟨_, hidx, _, l', hl', hlen, hall⟩
  · rw [hn] at hl; simp at hl
  · rw [hl] at hl'
    have := Option.some.inj hl'
    subst this
    have hent : ∀ s, s ∈ l → ∃ nm, s.sectionName = some nm ∧
        readCString f
          ((decodeShdr f.peek (r.elfHeader.e_shoff + 64 * r.elfHeader.e_shstrndx)).sh_offset
            + s.sectionHeader.sh_name) = some nm := by
      intro s hs
      obtain ⟨i, hi⟩ := List.getElem?_of_mem hs
      have hlt : i < r.elfHeader.e_shnum := by
        have := (List.getElem?_eq_some_iff.mp hi).1
        omega
      obtain ⟨_, _, nm, h1, h2⟩ := hall i hlt
      rw [hi] at h1
      have := Option.some.inj h1
      subst this
      exact ⟨nm, rfl, h2⟩
    refine ⟨hlen, ?_, fun i hi => (hall i hi).2.1, ?_⟩
    · intro s hs hc
      obtain ⟨nm, hnm, _⟩ := hent s hs
      rw [hnm] at hc
      simp at hc
    · obtain ⟨_, _, nm0, ht, _⟩ := hall _ hidx
      refine ⟨_, ht, ?_⟩
      intro s hs
      obtain ⟨nm, hnm, hd⟩ := hent s hs
      refine ⟨nm, hnm, hd, ?_⟩
      intro hz
      rw [hz] at hd
      simpa using hd

/-! ## Several sections of the same name -/

/-- C19, amended: in every returned result with sections, the dynamic symbol
table is what the symbol copy yields from the offset and the entry count of
the last section named `.dynsym`, names being read in the last section named
`.dynstr` (in no string table when no section has that name); likewise the
static table with the last `.symtab` and the last `.strtab`.  Of the earlier
sections of the same name only this enters: the entry size of every section
named `.dynsym` or `.symtab` is not zero, since the call returned. -/
theorem getELFData_last_section (hp : Heap) (f : File) (r : ElfData) (l : List ElfSection)
    (h : getELFData hp (.mapped f) = some r) (hl : r.sections = some l) :
    (∀ i s, IsLast l i s (cstr ".dynsym") →
      ∃ strptr, copySymbols hp Alloc.dynList Alloc.dynName f
          (some s.sectionHeader.sh_offset) strptr
          (toInt32 (s.sectionHeader.sh_size / s.sectionHeader.sh_entsize)) =
            some r.dynSymbols ∧
        (∀ j t, IsLast l j t (cstr ".dynstr") → strptr = some t.sectionHeader.sh_offset) ∧
        ((∀ t, t ∈ l → t.sectionName ≠ some (cstr ".dynstr")) → strptr = none)) ∧
    (∀ i s, IsLast l i s (cstr ".symtab") →
      ∃ strptr, copySymbols hp Alloc.otherList Alloc.otherName f
          (some s.sectionHeader.sh_offset) strptr
          (toInt32 (s.sectionHeader.sh_size / s.sectionHeader.sh_entsize)) =
            some r.otherSymbols ∧
        (∀ j t, IsLast l j t (cstr ".strtab") → strptr = some t.sectionHeader.sh_offset) ∧
        ((∀ t, t ∈ l → t.sectionName ≠ some (cstr ".strtab")) → strptr = none)) ∧
    (∀ s, s ∈ l →
      s.sectionName = some (cstr ".dynsym") ∨ s.sectionName = some (cstr ".symtab") →
        s.sectionHeader.sh_entsize ≠ 0) := by
  obtain ⟨_, hs⟩ := steps_of_sections hp f r l h hl
  obtain ⟨sc, hsc, hdyn, hoth⟩ := scan_of_steps hp f r hs
  obtain ⟨t1, t2, t3, t4, t5, t6⟩ := scanSections_tracks _ sc hsc l hl
  refine ⟨?_, ?_, ?_⟩
  · intro i s ⟨hi, hn, hlast⟩
    have hls := lastSec_of_index _ l i s hi hn hlast
    rw [t1.2 s hls, t2.2 s hls] at hdyn
    refine ⟨sc.dynsym_str_ptr, hdyn, ?_, ?_⟩
    · intro j t ⟨hj, hnj, hlastj⟩
      exact t5.2 t (lastSec_of_index _ l j t hj hnj hlastj)
    · intro hnone
      exact t5.1 (lastSec_none _ l hnone)
  · intro i s ⟨hi, hn, hlast⟩
    have hls := lastSec_of_index _ l i s hi hn hlast
    rw [t3.2 s hls, t4.2 s hls] at hoth
    refine ⟨sc.othersym_str_ptr, hoth, ?_, ?_⟩
    · intro j t ⟨hj, hnj, hlastj⟩
      exact t6.2 t (lastSec_of_index _ l j t hj hnj hlastj)
    · intro hnone
      exact t6.1 (lastSec_none _ l hnone)
  · intro s hs hnm
    rw [hl] at hsc
    obtain ⟨hall, _⟩ := scanFrom_inv l SymScan.init sc hsc
    obtain ⟨nm, h1, h2⟩ := hall s hs
    apply h2
    rcases hnm with hnm | hnm
    · left
      rw [h1] at hnm
      exact Option.some.inj hnm
    · right
      rw [h1] at hnm
      exact Option.some.inj hnm

/-! ## Runs on further sample files -/

set_option maxRecDepth 1000000 in
theorem dup_run : getELFData Heap.ample (.mapped dupFile) = some dupData := by decide

set_option maxRecDepth 1000000 in
theorem dup_magic : dupFile.hasMagic := by decide

set_option maxRecDepth 1000000 in
theorem static_run :
    (getELFData Heap.ample (.mapped staticFile)).map
        (fun r => (r.dynSymbols, r.otherSymbols)) =
      some ({ size := 0, list := none }, { size := 0, list := none }) := by
  decide

set_option maxRecDepth 1000000 in
theorem static_facts :
    staticFile.ehdr.e_shnum = 4 ∧ staticFile.hasMagic ∧ staticFile.hasSections ∧
    staticFile.secNamed 2 (cstr ".symtab") ∧ staticFile.secNamed 3 (cstr ".strtab") ∧
    (¬ staticFile.secNamed 0 (cstr ".dynsym") ∧ ¬ staticFile.secNamed 1 (cstr ".dynsym") ∧
      ¬ staticFile.secNamed 2 (cstr ".dynsym") ∧ ¬ staticFile.secNamed 3 (cstr ".dynsym")) ∧
    (¬ staticFile.secNamed 0 (cstr ".symtab") ∧ ¬ staticFile.secNamed 1 (cstr ".symtab") ∧
      ¬ staticFile.secNamed 3 (cstr ".symtab")) ∧
    (staticFile.shdr 2).sh_offset = 4096 ∧ staticFile.symCount 2 = 2 ^ 32 ∧
    (staticFile.shdr 2).sh_entsize ≠ 0 := by
  decide

set_option maxRecDepth 1000000 in
theorem staticHead_length : staticHead.length = 348 := by decide

theorem static_byte_zero (a : Nat) (h : 348 ≤ a) : staticFile.byte a = 0 := by
  have hlen := staticHead_length
  have h0 : staticHead.getD a 0 = 0 := by
    rw [List.getD_eq_getElem?_getD, List.getElem?_eq_none (by omega)]
    rfl
  show staticHead.getD a 0 % 256 = 0
  rw [h0]

theorem static_sym_nameless (k : Nat) : (staticFile.symAt 2 k).st_name = 0 := by
  obtain ⟨_, _, _, _, _, _, _, hoff, _⟩ := static_facts
  simp only [File.symAt, decodeSym, hoff]
  apply leWord_zero
  intro j _
  exact static_byte_zero _ (by omega)

set_option maxRecDepth 1000000 in
theorem static_wf : WellFormed staticFile := by
  obtain ⟨hn, _, _, h2, _, ⟨d0, d1, d2, d3⟩, ⟨s0, s1, s3⟩, hoff, hcnt, hent⟩ := static_facts
  refine
    { header := by decide
      phdrs := by decide
      shdrs := by decide
      shstrndx := by decide
      names := ?_
      symsec := ?_
      dynNames := ?_
      otherNames := ?_ }
  · intro _ i hi
    rw [hn] at hi
    interval_cases i
    · exact ⟨0, by decide, by decide⟩
    · exact ⟨9, by decide, by decide⟩
    · exact ⟨7, by decide, by decide⟩
    · exact ⟨7, by decide, by decide⟩
  · intro _ i hi hnm
    rw [hn] at hi
    interval_cases i
    · exact absurd hnm (by intro h; rcases h with h | h; exact d0 h; exact s0 h)
    · exact absurd hnm (by intro h; rcases h with h | h; exact d1 h; exact s1 h)
    · refine ⟨hent, ?_⟩
      rw [hoff, hcnt]
      decide
    · exact absurd hnm (by intro h; rcases h with h | h; exact d3 h; exact s3 h)
  · intro _ i hi hnm
    rw [hn] at hi
    interval_cases i
    · exact absurd hnm d0
    · exact absurd hnm d1
    · exact absurd hnm d2
    · exact absurd hnm d3
  · intro _ i hi hnm k _ hne
    rw [hn] at hi
    interval_cases i
    · exact absurd hnm s0
    · exact absurd hnm s1
    · exact absurd (static_sym_nameless k) hne
    · exact absurd hnm s3

/-! ## Witnesses and counterexamples for the later claims -/

set_option maxRecDepth 1000000 in
/-- C11 fails as stated: on the well-formed sample, run with an allocator
that refuses the copy of the name of dynamic symbol 1, `getELFData` returns,
and the raw name fields and names of its two dynamic symbols are `(0, null)`
and `(1, null)`: the second symbol has a non-zero `st_name` and an absent
name. -/
theorem symbolNames_counterexample :
    WellFormed sampleFile ∧ sampleFile.hasMagic ∧
    (getELFData (Heap.refusing (Alloc.dynName 1)) (.mapped sampleFile)).map
      (fun r => r.dynSymbols.list.map (fun l => l.map (fun e => (e.symbol.st_name, e.name)))) =
        some (some [(0, none), (1, none)]) :=
  ⟨sample_wf, sample_magic, by decide⟩

theorem getELFData_symbolNames_witness :
    sampleFile.hasMagic ∧
    (∀ l k e, sampleData.dynSymbols.list = some l → l[k]? = some e →
      (e.name = none ↔ e.symbol.st_name = 0 ∨ Heap.ample.serves (Alloc.dynName k) = false)) ∧
    (∀ l e, sampleData.dynSymbols.list = some l ∨ sampleData.otherSymbols.list = some l →
      e ∈ l → (e.name = none ↔ e.symbol.st_name = 0)) ∧
    (∀ l e s, sampleData.dynSymbols.list = some l → e ∈ l → e.name = some s →
      ∃ j, sampleFile.lastNamed j (cstr ".dynstr") ∧
        IsCStr sampleFile.byte sampleFile.st_size
          ((sampleFile.shdr j).sh_offset + e.symbol.st_name) s) ∧
    (∀ l e s, sampleData.otherSymbols.list = some l → e ∈ l → e.name = some s →
      ∃ j, sampleFile.lastNamed j (cstr ".strtab") ∧
        IsCStr sampleFile.byte sampleFile.st_size
          ((sampleFile.shdr j).sh_offset + e.symbol.st_name) s) :=
  have h := (getELFData_symbolNames sampleFile sample_magic).1 Heap.ample sampleData sample_run
  ⟨sample_magic, h.1, h.2.2.1 ample_servesAll, (h.2.2.2 sample_wf).1, (h.2.2.2 sample_wf).2⟩

/-- C12: the static entry count goes through an `int` local before it
reaches `size`.  A well-formed executable with a `.symtab`/`.strtab` pair, no
`.dynsym`, and `2 ^ 32` static symbols of 24 bytes has the quotient
`sh_size / sh_entsize = 2 ^ 32`, and `getELFData`, every allocation being
served, returns `otherSymbols.size = 0` with a null list (and the empty
dynamic table). -/
theorem staticCount_truncated :
    WellFormed staticFile ∧ staticFile.hasMagic ∧ staticFile.hasSections ∧
    (∀ i, i < staticFile.ehdr.e_shnum → ¬ staticFile.secNamed i (cstr ".dynsym")) ∧
    staticFile.lastNamed 2 (cstr ".symtab") ∧ staticFile.secNamed 3 (cstr ".strtab") ∧
    (staticFile.shdr 2).sh_size / (staticFile.shdr 2).sh_entsize = 2 ^ 32 ∧
    (getELFData Heap.ample (.mapped staticFile)).map
        (fun r => (r.dynSymbols, r.otherSymbols)) =
      some ({ size := 0, list := none }, { size := 0, list := none }) := by
  obtain ⟨hn, hm, hs, h2, h3, ⟨d0, d1, d2, d3⟩, ⟨_, _, s3⟩, _, hcnt, _⟩ := static_facts
  refine ⟨static_wf, hm, hs, ?_, ⟨by rw [hn]; decide, h2, ?_⟩, h3, hcnt, static_run⟩
  · intro i hi
    rw [hn] at hi
    interval_cases i
    · exact d0
    · exact d1
    · exact d2
    · exact d3
  · intro j hj hlt
    rw [hn] at hj
    have : j = 3 := by omega
    subst this
    exact s3

set_option maxRecDepth 1000000 in
/-- C13 fails as stated: the sample with the entry size of `.dynsym` set to
zero starts with the ELF magic, and `getELFData` does not return on it even
with every allocation served (the entry count is a division by zero); and on
the well-formed sample itself `getELFData` does not return when the allocator
refuses the array of the dynamic symbols (the copy loop writes through the
null pointer). -/
theorem getELFData_returns_counterexample :
    zeroEntsizeFile.hasMagic ∧ getELFData Heap.ample (.mapped zeroEntsizeFile) = none ∧
    sampleFile.hasMagic ∧
    getELFData (Heap.refusing Alloc.dynList) (.mapped sampleFile) = none := by
  decide

theorem getELFData_returns_witness :
    (∃ r, getELFData Heap.ample (.mapped sampleFile) = some r) ∧
    sampleData ≠ zeroElfData ∧
    (sampleFile.ehdr.e_phoff = 0 ∨ sampleFile.ehdr.e_phnum = 0 →
      sampleData.programHeader = none) ∧
    (¬ sampleFile.hasSections → sampleData.sections = none ∧
      sampleData.dynSymbols = { size := 0, list := none } ∧
      sampleData.otherSymbols = { size := 0, list := none }) ∧
    (sampleFile.hasSections →
      ((∀ i, i < sampleFile.ehdr.e_shnum → ¬ sampleFile.secNamed i (cstr ".dynsym")) →
        sampleData.dynSymbols = { size := 0, list := none }) ∧
      ((∀ i, i < sampleFile.ehdr.e_shnum → ¬ sampleFile.secNamed i (cstr ".symtab")) →
        sampleData.otherSymbols = { size := 0, list := none })) :=
  have h := getELFData_returns sampleFile sample_wf sample_magic
  ⟨h.1 Heap.ample ample_servesAll, h.2 Heap.ample sampleData sample_run⟩

theorem text_events (hp : Heap) :
    getELFData_events hp (.mapped textFile) =
      [.acquire .descriptor, .acquire .mapping, .release .descriptor] := by
  have h0 : textFile.st_size ≠ 0 := by decide
  have hm : ¬ textFile.hasMagic := by decide
  have hm' : (decodeEhdr textFile.peek 0).e_ident.take 4 ≠ ELFMAG := by
    rw [take4_ident]; exact hm
  simp only [getELFData_events, h0, if_false, extract_not_magic hp textFile h0 hm, if_pos hm']
  rfl

/-- C14 fails on the code: when `fstat` fails the function returns with the
descriptor still open, and on a file that is not an ELF file it returns with
the mapping still in place; this whatever the allocator would answer. -/
theorem getELFData_keeps_resources (hp : Heap) :
    getELFData hp .fstatFails = some zeroElfData ∧
    getELFData_events hp .fstatFails = [.acquire .descriptor] ∧
    ¬ Released (getELFData_events hp .fstatFails) .descriptor ∧
    getELFData hp (.mapped textFile) = some zeroElfData ∧
    getELFData_events hp (.mapped textFile) =
      [.acquire .descriptor, .acquire .mapping, .release .descriptor] ∧
    ¬ Released (getELFData_events hp (.mapped textFile)) .mapping := by
  have h0 : textFile.st_size ≠ 0 := by decide
  have hm : ¬ textFile.hasMagic := by decide
  refine ⟨rfl, rfl, ?_, ?_, text_events hp, ?_⟩
  · simp only [getELFData_events]
    decide
  · rw [getELFData_mapped hp textFile h0]
    exact extract_not_magic hp textFile h0 hm
  · rw [text_events hp]
    decide

theorem destroyELFData_absent_witness :
    emptyData.dynSymbols.size = 5 ∧ emptyData.elfHeader.e_shnum = 6 ∧
    destroyELFData emptyData = some [] :=
  ⟨rfl, rfl, destroyELFData_absent.2.1 emptyData rfl rfl rfl rfl⟩

theorem destroyELFData_releases_witness :
    ∃ allocs frees, getELFData_allocs Heap.ample (.mapped sampleFile) = some allocs ∧
      destroyELFData sampleData = some frees ∧ frees.Perm allocs ∧ frees.Nodup ∧
      (∀ i, Alloc.sectionName i ∈ frees → [Alloc.sectionName i, Alloc.sections].Sublist frees) ∧
      (∀ i, Alloc.dynName i ∈ frees → [Alloc.dynName i, Alloc.dynList].Sublist frees) ∧
      (∀ i, Alloc.otherName i ∈ frees →
        [Alloc.otherName i, Alloc.otherList].Sublist frees) :=
  destroyELFData_releases Heap.ample (.mapped sampleFile) sampleData sample_run

set_option maxRecDepth 1000000 in
/-- C17 fails as stated: the sample satisfies the well-formedness
preconditions, and the checked embedding takes an error branch on it as soon
as the allocator refuses the program header array, the section array, the
copy of a section name or a symbol array: the code writes through the null
array pointer, respectively hands the null name to `strcmp`. -/
theorem getELFData_safe_counterexample :
    WellFormed sampleFile ∧
    getELFData (Heap.refusing Alloc.programHeader) (.mapped sampleFile) = none ∧
    getELFData (Heap.refusing Alloc.sections) (.mapped sampleFile) = none ∧
    getELFData (Heap.refusing (Alloc.sectionName 3)) (.mapped sampleFile) = none ∧
    getELFData (Heap.refusing Alloc.otherList) (.mapped sampleFile) = none :=
  ⟨sample_wf, by decide, by decide, by decide, by decide⟩

theorem getELFData_safe_witness :
    Heap.ample.servesAll ∧
    ∃ r, getELFData Heap.ample (.mapped sampleFile) = some r ∧
      (sampleFile.hasMagic → Describes sampleFile r) ∧
      (¬ sampleFile.hasMagic → r = zeroElfData) :=
  ⟨ample_servesAll, getELFData_safe Heap.ample sampleFile sample_wf ample_servesAll⟩

theorem getELFData_sectionName_present_witness :
    sampleSections.length = sampleData.elfHeader.e_shnum ∧
    (∀ s, s ∈ sampleSections → s.sectionName ≠ none) ∧
    (∀ i, i < sampleData.elfHeader.e_shnum → Heap.ample.serves (Alloc.sectionName i) = true) ∧
    ∃ tab, sampleSections[sampleData.elfHeader.e_shstrndx]? = some tab ∧
      ∀ s, s ∈ sampleSections → ∃ nm, s.sectionName = some nm ∧
        readCString sampleFile (tab.sectionHeader.sh_offset + s.sectionHeader.sh_name)
          = some nm ∧
        (s.sectionHeader.sh_name = 0 →
          readCString sampleFile tab.sectionHeader.sh_offset = some nm) :=
  getELFData_sectionName_present Heap.ample sampleFile sampleData sampleSections sample_run rfl

theorem dup_isLast :
    IsLast dupSections 4 dupLast (cstr ".dynsym") ∧
    IsLast dupSections 3 dupStr (cstr ".dynstr") := by
  refine ⟨⟨rfl, rfl, ?_⟩, ⟨rfl, rfl, ?_⟩⟩
  · intro j t hj ht
    match j, hj, ht with
    | 5, _, ht =>
      have := Option.some.inj ht
      subst this
      decide
    | j + 6, _, ht => simp [dupSections] at ht
  · intro j t hj ht
    match j, hj, ht with
    | 4, _, ht =>
      have := Option.some.inj ht
      subst this
      decide
    | 5, _, ht =>
      have := Option.some.inj ht
      subst this
      decide
    | j + 6, _, ht => simp [dupSections] at ht

set_option maxRecDepth 1000000 in
theorem dup_ehdr : dupFile.ehdr = sampleEhdr ∧ dupZeroFile.ehdr = sampleEhdr := by decide

set_option maxRecDepth 1000000 in
theorem dup_shdrs :
    (List.range 6).map dupFile.shdr =
      [ mkShdr 0 0 0 0 0, mkShdr 1 3 504 43 0, mkShdr 11 11 547 48 24, mkShdr 19 3 595 3 0,
        mkShdr 11 2 598 24 24, mkShdr 35 3 622 3 0 ] := by
  decide

set_option maxRecDepth 1000000 in
theorem dupZero_shdrs :
    (List.range 6).map dupZeroFile.shdr =
      [ mkShdr 0 0 0 0 0, mkShdr 1 3 504 43 0, mkShdr 11 11 547 48 0, mkShdr 19 3 595 3 0,
        mkShdr 11 2 598 24 24, mkShdr 35 3 622 3 0 ] := by
  decide

set_option maxRecDepth 1000000 in
theorem dup_names :
    dupFile.lastNamed 4 (cstr ".dynsym") ∧ dupZeroFile.lastNamed 4 (cstr ".dynsym") ∧
    dupFile.secNamed 2 (cstr ".dynsym") ∧ dupZeroFile.secNamed 2 (cstr ".dynsym") := by
  decide

set_option maxRecDepth 1000000 in
theorem dupZero_run : getELFData Heap.ample (.mapped dupZeroFile) = none := by decide

/-- C19 fails as stated: `dupFile` and `dupZeroFile` have the same file
header and the same six section headers but for the entry size of section 2,
an earlier section named `.dynsym` (24 in the first file, 0 in the second);
in both the last section of that name is section 4.  With every allocation
served `getELFData` returns a result for `dupFile` and none for
`dupZeroFile`, where the entry count of section 2 is a division by zero: the
earlier section decides the outcome. -/
theorem last_section_counterexample :
    dupFile.ehdr = sampleEhdr ∧ dupZeroFile.ehdr = sampleEhdr ∧
    (List.range 6).map dupFile.shdr =
      [ mkShdr 0 0 0 0 0, mkShdr 1 3 504 43 0, mkShdr 11 11 547 48 24, mkShdr 19 3 595 3 0,
        mkShdr 11 2 598 24 24, mkShdr 35 3 622 3 0 ] ∧
    (List.range 6).map dupZeroFile.shdr =
      [ mkShdr 0 0 0 0 0, mkShdr 1 3 504 43 0, mkShdr 11 11 547 48 0, mkShdr 19 3 595 3 0,
        mkShdr 11 2 598 24 24, mkShdr 35 3 622 3 0 ] ∧
    dupFile.lastNamed 4 (cstr ".dynsym") ∧ dupZeroFile.lastNamed 4 (cstr ".dynsym") ∧
    dupFile.secNamed 2 (cstr ".dynsym") ∧ dupZeroFile.secNamed 2 (cstr ".dynsym") ∧
    getELFData Heap.ample (.mapped dupFile) = some dupData ∧
    getELFData Heap.ample (.mapped dupZeroFile) = none :=
  ⟨dup_ehdr.1, dup_ehdr.2, dup_shdrs, dupZero_shdrs,
    dup_names.1, dup_names.2.1, dup_names.2.2.1, dup_names.2.2.2, dup_run, dupZero_run⟩

theorem getELFData_last_section_witness :
    (List.filter (fun s => decide (s.sectionName = some (cstr ".dynsym"))) dupSections).length
      = 2 ∧
    ∃ strptr, copySymbols Heap.ample Alloc.dynList Alloc.dynName dupFile
        (some dupLast.sectionHeader.sh_offset) strptr
        (toInt32 (dupLast.sectionHeader.sh_size / dupLast.sectionHeader.sh_entsize)) =
          some dupData.dynSymbols ∧
      (∀ j t, IsLast dupSections j t (cstr ".dynstr") →
        strptr = some t.sectionHeader.sh_offset) ∧
      ((∀ t, t ∈ dupSections → t.sectionName ≠ some (cstr ".dynstr")) → strptr = none) :=
  ⟨by decide, (getELFData_last_section Heap.ample dupFile dupData dupSections dup_run rfl).1 4
    dupLast dup_isLast.1⟩

end ElfReader
